import Mathlib

set_option maxRecDepth 4000

/-!
Verification development for the boom2 tool-invocation protocol client.

The definitions below are a shallow embedding of two source components:

* `src/mcp/mcpClient.ts` — the MCP registry client (`loadTools`, `callTool`,
  `sendStdioRequest`, `tryDifferentMethods`, `tryDifferentToolCallMethods`,
  and the stdio correlation handlers `setupStdioHandlers`).
* `src/llm/ollamaAdapter.ts` — the tool-call extractor
  (`parseToolCallsFromResponse`, `mapToolParameters`).

JavaScript runtime values produced by `JSON.parse` are modelled by the
`Json` inductive type; JavaScript-specific behaviours that the source
relies on (truthiness, `||` defaulting, property access throwing on
`null`, `typeof x === 'object'`, own-property key ordering with
array-index keys first, spread copying, in-place update and delete)
are modelled by the `js`-prefixed helpers.  Numbers are modelled as
integers (the source only ever produces and consumes integral numeric
literals in the behaviours under claim), and string literals are
modelled over the exact character lists.
-/

namespace Boom2

/-- JSON-like runtime values as produced by `JSON.parse`. -/
inductive Json where
  | null : Json
  | bool : Bool → Json
  | num : Int → Json
  | str : String → Json
  | arr : List Json → Json
  | obj : List (String × Json) → Json

/-- JavaScript truthiness of a value (`if (x)`), as used by
`toolCallData.tool` and `x || d`. -/
def jsTruthy : Json → Bool
  | .null => false
  | .bool b => b
  | .num n => n != 0
  | .str s => !s.isEmpty
  | .arr _ => true
  | .obj _ => true

/-- First-match association lookup over object entries. -/
def lookupField : List (String × Json) → String → Option Json
  | [], _ => none
  | (k, v) :: rest, key => if k = key then some v else lookupField rest key

/-- Decimal digit character test. -/
def isDigitCh (c : Char) : Bool := 48 ≤ c.toNat && c.toNat ≤ 57

/-- Value of a decimal digit string. -/
def digitsVal (cs : List Char) : Nat :=
  cs.foldl (fun a c => a * 10 + (c.toNat - 48)) 0

/-- Canonical decimal digit string: nonempty, all digits, no leading
zero unless the string is exactly "0". -/
def canonDigits (cs : List Char) : Bool :=
  !cs.isEmpty && cs.all isDigitCh &&
    (decide (cs = ['0']) || decide (cs.head? ≠ some '0'))

/-- JavaScript array-index property key (canonical numeric string whose
value is below 2^32 - 1); such keys are enumerated first, in numeric
order, by `Object.keys` and by spread. -/
def isArrayIndexKey (s : String) : Bool :=
  canonDigits s.data && decide (digitsVal s.data < 4294967295)

/-- Digit character for a value below 10. -/
def digitCh (d : Nat) : Char :=
  match d with
  | 0 => '0' | 1 => '1' | 2 => '2' | 3 => '3' | 4 => '4'
  | 5 => '5' | 6 => '6' | 7 => '7' | 8 => '8' | _ => '9'

/-- Decimal digit list of a natural number, most significant first
(the rendering `${n}` of an integral JavaScript number). -/
def natDigits (n : Nat) : List Char :=
  if _h : n < 10 then [digitCh n]
  else natDigits (n / 10) ++ [digitCh (n % 10)]
  decreasing_by exact Nat.div_lt_self (by omega) (by omega)

/-- Decimal string of a natural number. -/
def natStr (n : Nat) : String := ⟨natDigits n⟩

/-- Insertion of a key into a numerically sorted list of index keys. -/
def insertIndexKey (k : String) : List String → List String
  | [] => [k]
  | x :: xs =>
      if digitsVal k.data ≤ digitsVal x.data then k :: x :: xs
      else x :: insertIndexKey k xs

/-- Numeric insertion sort of index keys. -/
def sortIndexKeys : List String → List String
  | [] => []
  | x :: xs => insertIndexKey x (sortIndexKeys xs)

/-- Own-property key order of a JavaScript object: array-index keys
first in ascending numeric order, then the remaining string keys in
insertion order. -/
def jsKeyOrder (ks : List String) : List String :=
  sortIndexKeys (ks.filter (fun k => isArrayIndexKey k)) ++
    ks.filter (fun k => !isArrayIndexKey k)

/-- Keys of `Object.keys(x)` for the possible parsed values: objects
use own-property order; arrays and strings expose their index keys;
primitives expose none. -/
def jsOwnKeys : Json → List String
  | .obj fs => jsKeyOrder (fs.map (fun p => p.1))
  | .arr xs => (List.range xs.length).map natStr
  | .str s => (List.range s.data.length).map natStr
  | _ => []

/-- Property access `base[key]` on a non-null value, returning `none`
for `undefined`. -/
def jsMemberSafe : Json → String → Option Json
  | .obj fs, k => lookupField fs k
  | .arr xs, k =>
      if canonDigits k.data then xs.get? (digitsVal k.data) else none
  | .str s, k =>
      if canonDigits k.data then
        (s.data.get? (digitsVal k.data)).map (fun c => .str ⟨[c]⟩)
      else none
  | _, _ => none

/-- Property access `base.key`, which throws a `TypeError` when the
base is `null`. -/
def jsMember (base : Json) (k : String) : Except String (Option Json) :=
  match base with
  | .null => .error "TypeError: Cannot read properties of null"
  | b => .ok (jsMemberSafe b k)

/-- Defaulting `x || d` applied to a possibly-undefined value. -/
def jsOr (v : Option Json) (d : Json) : Json :=
  match v with
  | some x => if jsTruthy x then x else d
  | none => d

/-- Test `typeof v === 'object'` (true for objects, arrays and `null`). -/
def jsTypeofObject : Json → Bool
  | .obj _ => true
  | .arr _ => true
  | .null => true
  | _ => false

/-- Entries copied by an object spread `{...v}` (own enumerable
properties in property order; primitives contribute nothing except
strings, which contribute their characters). -/
def jsSpread : Json → List (String × Json)
  | .obj fs =>
      (jsKeyOrder (fs.map (fun p => p.1))).filterMap
        (fun k => (lookupField fs k).map (fun v => (k, v)))
  | .arr xs => xs.enum.map (fun p => (natStr p.1, p.2))
  | .str s => s.data.enum.map (fun p => (natStr p.1, Json.str ⟨[p.2]⟩))
  | _ => []

/-- Assignment `o[k] = v`: updates the entry in place when the key is
present, appends it otherwise. -/
def jsSetKey (fs : List (String × Json)) (k : String) (v : Json) :
    List (String × Json) :=
  if (lookupField fs k).isSome then
    fs.map (fun p => if p.1 = k then (k, v) else p)
  else fs ++ [(k, v)]

/-- Deletion `delete o[k]`. -/
def jsDelKey (fs : List (String × Json)) (k : String) :
    List (String × Json) :=
  fs.filter (fun p => p.1 ≠ k)

/-! ## Tool registry client: `callTool` (mcpClient.ts lines 375-400)

The transport (HTTP POST or the stdio method negotiation) is abstracted
as an oracle from tool name and arguments to a result or error.  The
returned Bool records whether the transport was contacted. -/

/-- Descriptor of a discovered tool; the existence check only reads the
`name` field of the cached descriptors. -/
structure ToolDesc where
  name : String

/-- Model of `McpClient.callTool` for a client whose tools are already
loaded with cache `availableTools`: the advisory existence check, then
delegation to the transport with the invocation-failure wrapping. -/
def callTool (transport : String → Json → Except String Json)
    (availableTools : List ToolDesc) (tool : String) (args : Json) :
    Except String Json × Bool :=
  let toolExists := availableTools.any (fun t => t.name = tool)
  if !toolExists && decide (availableTools.length > 0) then
    (.error ("Tool " ++ "\x27" ++ tool ++ "\x27" ++
      " is not available on the MCP server"), false)
  else
    match transport tool args with
    | .ok r => (.ok r, true)
    | .error e =>
        (.error ("Failed to invoke tool " ++ "\x27" ++ tool ++ "\x27" ++
          ": " ++ e), true)

/-! ## HTTP transport discovery (mcpClient.ts lines 254-257)

`axios.get` rejects on any non-2xx status and on network failure; on
success `response.data` is the parsed body.  The single discovery step
then evaluates `response.data.tools || []`. -/

/-- Outcome of the HTTP GET to `{baseUrl}/tools`. -/
inductive HttpResult where
  | ok (body : Json) : HttpResult
  | status (code : Nat) (text : String) : HttpResult
  | network (msg : String) : HttpResult

/-- Model of `axios.get`: non-success statuses and network failures
reject with an error carrying the cause; success yields the body. -/
def axiosGet : HttpResult → Except String Json
  | .ok b => .ok b
  | .status c _ => .error ("Request failed with status code " ++ natStr c)
  | .network m => .error m

/-- One HTTP discovery step: `(await axios.get(url)).data.tools || []`.
A `null` body makes the member access throw; any other body without a
truthy `tools` field yields the empty list. -/
def httpListToolsStep (r : HttpResult) : Except String Json :=
  match axiosGet r with
  | .error e => .error e
  | .ok body =>
      match jsMember body "tools" with
      | .error e => .error e
      | .ok v => .ok (jsOr v (.arr []))

/-! ## Method negotiation (mcpClient.ts lines 143-237 and 317-367) -/

/-- Introspection probe methods tried by `discoverServerMethods`, in
order; every outcome is swallowed and the loop stops on first success. -/
def discoverProbeMethods : List String :=
  ["rpc.discover", "system.listMethods", "rpc.ListMethods", "get_tools"]

/-- Methods actually probed by `discoverServerMethods` (it returns as
soon as one probe succeeds). -/
def discoverAttempted (server : String → Except String Json) :
    List String :=
  let rec go : List String → List String
    | [] => []
    | m :: rest =>
        match server m with
        | .ok _ => [m]
        | .error _ => m :: go rest
  go discoverProbeMethods

/-- Candidate method names for listing tools, most standard first
(`methodVariations` in `tryDifferentMethods`). -/
def methodVariations : List String :=
  ["tools/list", "tools.list", "mcp.listTools", "listTools", "get_tools",
   "getTools", "tools.get", "rpc.tools", "list_mcp_tools"]

/-- Negotiation loop over candidate method names: first success wins;
when every candidate fails the last error is rethrown (`lastError`
starts as `null`).  Returns the outcome and the attempted candidates. -/
def negotiateList (server : String → Except String Json) :
    List String → Option String → Except String Json × List String
  | [], last => (.error (last.getD "null"), [])
  | m :: rest, _last =>
      match server m with
      | .ok r => (.ok r, [m])
      | .error e =>
          let p := negotiateList server rest (some e)
          (p.1, m :: p.2)

/-- Model of `tryDifferentMethods` restricted to its negotiation loop
(the preceding `discoverServerMethods` call swallows every outcome and
does not influence the result). -/
def tryDifferentMethods (server : String → Except String Json) :
    Except String Json × List String :=
  negotiateList server methodVariations none

/-- Candidate `{method, paramsFormat}` pairs of
`tryDifferentToolCallMethods`, in source order. -/
def toolCallVariations (tool : String) (args : Json) :
    List (String × Json) :=
  [("tools/call", .obj [("name", .str tool), ("arguments", args)]),
   ("mcp.callTool", .obj [("name", .str tool), ("arguments", args)]),
   ("callTool", .obj [("name", .str tool), ("arguments", args)]),
   ("tools.call", .obj [("name", .str tool), ("arguments", args)]),
   ("invoke", .obj [("tool", .str tool), ("arguments", args)]),
   ("tool.invoke", .obj [("name", .str tool), ("arguments", args)]),
   (tool, args)]

/-- Negotiation loop over candidate (method, params) pairs. -/
def negotiatePairs (server : String → Json → Except String Json) :
    List (String × Json) → Option String → Except String Json × List String
  | [], last => (.error (last.getD "null"), [])
  | (m, ps) :: rest, _last =>
      match server m ps with
      | .ok r => (.ok r, [m])
      | .error e =>
          let p := negotiatePairs server rest (some e)
          (p.1, m :: p.2)

/-- Model of `tryDifferentToolCallMethods`. -/
def tryDifferentToolCallMethods (server : String → Json → Except String Json)
    (tool : String) (args : Json) : Except String Json × List String :=
  negotiatePairs server (toolCallVariations tool args) none

/-! ## Tool loading with retries (mcpClient.ts lines 244-288) -/

/-- Error-message accessor used to state the negotiation claims. -/
def errOf : Except String Json → String
  | .error e => e
  | .ok _ => ""

/-- Success test of one attempt. -/
def isErr : Except String Json → Bool
  | .error _ => true
  | .ok _ => false

/-- One discovery attempt of `loadTools`: the transport oracle gives the
raw result for the attempt (HTTP `response.data`, or the object returned
by `tryDifferentMethods`), and the loop body evaluates
`result.tools || []`; a thrown `TypeError` on a null result is caught by
the retry loop like any other failure. -/
def attemptTools (f : Nat → Except String Json) (i : Nat) :
    Except String Json :=
  match f i with
  | .error e => .error e
  | .ok body =>
      match jsMember body "tools" with
      | .error e => .error e
      | .ok v => .ok (jsOr v (.arr []))

/-- Accumulated observable behaviour of the retry loop. -/
structure LoadAttempts where
  success : Option Json
  attempts : Nat
  waits : List Nat
  lastErr : String

/-- Retry loop of `loadTools`, starting at attempt index `idx` with `n`
attempts remaining; on failure with further attempts remaining it waits
`delay * (idx + 1)` before retrying. -/
def loadAttempts (f : Nat → Except String Json) (delay : Nat) :
    Nat → Nat → LoadAttempts
  | _, 0 => ⟨none, 0, [], "null"⟩
  | idx, 1 =>
      match attemptTools f idx with
      | .ok t => ⟨some t, 1, [], ""⟩
      | .error e => ⟨none, 1, [], e⟩
  | idx, n + 2 =>
      match attemptTools f idx with
      | .ok t => ⟨some t, 1, [], ""⟩
      | .error _ =>
          let rest := loadAttempts f delay (idx + 1) (n + 1)
          ⟨rest.success, rest.attempts + 1,
            delay * (idx + 1) :: rest.waits, rest.lastErr⟩

/-- Observable outcome of a `loadTools` call. -/
structure LoadOutcome where
  result : Except String Unit
  toolsLoaded : Bool
  availableTools : Json
  attempts : Nat
  waits : List Nat

/-- Model of `McpClient.loadTools(retries, delay)` on a client that has
not yet loaded its tools: up to `retries + 1` attempts, linear-times-
attempt backoff, cache and flag set on first success, and the final
aggregated error after exhaustion. -/
def loadTools (f : Nat → Except String Json) (retries delay : Nat) :
    LoadOutcome :=
  let la := loadAttempts f delay 0 (retries + 1)
  match la.success with
  | some t => ⟨.ok (), true, t, la.attempts, la.waits⟩
  | none =>
      ⟨.error ("Failed to load tools from MCP server after " ++
          natStr (retries + 1) ++ " attempts: " ++ la.lastErr),
        false, .arr [], la.attempts, la.waits⟩

/-! ## Stdio request correlator (mcpClient.ts lines 42-137)

`sendStdioRequest` generates the correlation id
`` `${Date.now()}-${this.messageId}` ``, registers the continuation in
`pendingRequests` and starts a 30-second timer; `setupStdioHandlers`
resolves/rejects on a matching response and rejects everything on
process exit.  The asynchronous interleaving is modelled as a state
machine over the events that can touch the pending-request map. -/

/-- Fixed stdio request timeout in milliseconds. -/
def stdioTimeoutMs : Nat := 30000

/-- Decimal string of an integral JavaScript number (`${code}`). -/
def intStr (i : Int) : String :=
  if i < 0 then "-" ++ natStr i.natAbs else natStr i.natAbs

/-- Correlation id `` `${now}-${counter}` ``. -/
def genId (now counter : Nat) : String :=
  natStr now ++ "-" ++ natStr counter

/-- Lookup in the pending-request map (keys are correlation ids, values
the originating method name captured by the continuation/timer). -/
def pendLookup : List (String × String) → String → Option String
  | [], _ => none
  | (k, v) :: rest, key => if k = key then some v else pendLookup rest key

/-- State owned by the correlator: the `messageId` counter (starting at
1) and the pending-request map in insertion order. -/
structure CorrState where
  messageId : Nat
  pending : List (String × String)

/-- Initial correlator state of a fresh `McpClient`. -/
def initCorrState : CorrState := ⟨1, []⟩

/-- Events that touch the pending-request map: a request being sent at
wall-clock time `now`, a response line arriving for some id, a request
timer firing, and the server process exiting. -/
inductive CorrEvent where
  | send (now : Nat) (method : String)
  | response (id : String) (error : Json) (result : Json)
  | timerFire (id : String)
  | procExit (code : Int)

/-- Settlement of one request continuation. -/
inductive Settle where
  | resolved (result : Json)
  | rejected (reason : Json)

/-- One step of the correlator.  Returns the new state and the
settlements (id, outcome) performed by the step, mirroring
`sendStdioRequest` (send, timer) and `setupStdioHandlers` (response,
exit): a response settles only when `message.id` is truthy and present
in the map and removes the entry; the timer rejects with
`Request timeout: ${method}` only when the entry is still present; exit
rejects and removes every remaining entry. -/
def corrStep (st : CorrState) (ev : CorrEvent) :
    CorrState × List (String × Settle) :=
  match ev with
  | .send now method =>
      let id := genId now st.messageId
      (⟨st.messageId + 1, st.pending ++ [(id, method)]⟩, [])
  | .response id error result =>
      if id = "" then (st, [])
      else
        match pendLookup st.pending id with
        | none => (st, [])
        | some _ =>
            (⟨st.messageId, st.pending.filter (fun p => p.1 ≠ id)⟩,
              [(id, if jsTruthy error then
                  .rejected (jsOr (jsMemberSafe error "message")
                    (.str "Unknown error"))
                else .resolved result)])
  | .timerFire id =>
      match pendLookup st.pending id with
      | none => (st, [])
      | some method =>
          (⟨st.messageId, st.pending.filter (fun p => p.1 ≠ id)⟩,
            [(id, .rejected (.str ("Request timeout: " ++ method)))])
  | .procExit code =>
      (⟨st.messageId, []⟩,
        st.pending.map (fun p => (p.1,
          Settle.rejected (.str ("Server process exited with code " ++
            intStr code)))))

/-- Run of the correlator from a state with an accumulated settlement
log. -/
def runCorrFrom (st : CorrState) (log : List (String × Settle)) :
    List CorrEvent → CorrState × List (String × Settle)
  | [] => (st, log)
  | e :: es =>
      let p := corrStep st e
      runCorrFrom p.1 (log ++ p.2) es

/-- Run of the correlator from the initial state. -/
def runCorr (es : List CorrEvent) : CorrState × List (String × Settle) :=
  runCorrFrom initCorrState [] es

/-! ## Tool-call extractor (ollamaAdapter.ts lines 501-662)

`parseToolCallsFromResponse` scans the response text with the global
regex ``/```(?:json)?\s*\n([\s\S]*?)\n```/gs``, pushes each interior
through a repair pipeline, parses it with `JSON.parse`, interprets the
parsed value in standard or map shape, applies the per-tool parameter
alias table, and strips each successfully parsed block from the
content.  The scanner below implements the exact backtracking
behaviour of that regex; the repair steps implement the successive
`replace` calls; `JSON.parse` is modelled by a recursive-descent
parser of the JSON grammar (with two documented restrictions never
exercised by the claims: numeric literals are integral, and the only
string escapes handled are the single-character ones). -/

/-- Left brace character. -/
def lb : Char := Char.ofNat 123

/-- Right brace character. -/
def rb : Char := Char.ofNat 125

/-- Backtick character. -/
def bt : Char := Char.ofNat 96

/-- Double-quote character. -/
def qu : Char := Char.ofNat 34

/-- Backslash character. -/
def bsl : Char := Char.ofNat 92

/-- Whitespace class shared by the regex `\s` and `String.trim` (the
ASCII part; the exotic Unicode members are never produced here). -/
def isJsWs (c : Char) : Bool :=
  c = ' ' || c = '\t' || c = '\n' || c = '\r' ||
    c.toNat = 11 || c.toNat = 12

/-- Model of `String.prototype.trim`. -/
def trimChars (s : List Char) : List Char :=
  ((s.dropWhile isJsWs).reverse.dropWhile isJsWs).reverse

/-- Closing delimiter searched for by the lazy interior: a newline
followed by three backticks. -/
def closeFence : List Char := ['\n', bt, bt, bt]

/-- Index of the first occurrence of the closing delimiter. -/
def findSubIdx : List Char → Option Nat
  | [] => none
  | c :: t =>
      if closeFence.isPrefixOf (c :: t) then some 0
      else (findSubIdx t).map (fun i => i + 1)

/-- Length of the maximal leading `\s*` run. -/
def wsRunLen : List Char → Nat
  | [] => 0
  | c :: t => if isJsWs c then wsRunLen t + 1 else 0

/-- Candidate newline positions for the backtracking `\s*\n` (inside
the maximal whitespace run, tried longest-first). -/
def nlPositionsDesc (u : List Char) : List Nat :=
  ((List.range (wsRunLen u)).filter
    (fun k => u.get? k = some '\n')).reverse

/-- Backtracking match of `\s*\n([\s\S]*?)\n``` ` `` against `u`: for the
chosen newline the lazy interior extends to the first closing
delimiter; the first choice that finds one wins.  Returns the consumed
length and the captured interior. -/
def tryNl : List Nat → List Char → Option (Nat × List Char)
  | [], _ => none
  | k :: ks, u =>
      match findSubIdx (u.drop (k + 1)) with
      | some i => some ((k + 1) + i + 4, (u.drop (k + 1)).take i)
      | none => tryNl ks u

/-- Match of the tail of the fence pattern after the opening backticks
(and after `json` when consumed). -/
def matchTail (u : List Char) : Option (Nat × List Char) :=
  tryNl (nlPositionsDesc u) u

/-- Attempt of the whole fence pattern at the current position: three
backticks, the optional greedy `json`, then the backtracking tail.
When `json` is present literally but the tail fails, the no-`json`
alternative necessarily fails as well (`\s*\n` cannot match text
starting with `j`), so the whole attempt fails. -/
def matchFence : List Char → Option (Nat × List Char)
  | c1 :: c2 :: c3 :: rest =>
      if c1 = bt && c2 = bt && c3 = bt then
        match rest with
        | 'j' :: 's' :: 'o' :: 'n' :: r2 =>
            (matchTail r2).map (fun p => (7 + p.1, p.2))
        | r2 => (matchTail r2).map (fun p => (3 + p.1, p.2))
      else none
  | _ => none

/-- Global scan of `text.matchAll(jsonPattern)` with fuel (structural;
fuel equal to the text length suffices): leftmost matches, each next
scan resuming after the previous match.  Returns the pairs
(full match, captured interior).  The successful-match recursion drops
`p.1 - 1` from the tail, which equals dropping `p.1` from the whole
list since a match consumes at least the three backticks. -/
def findBlocksF : Nat → List Char → List (List Char × List Char)
  | 0, _ => []
  | _, [] => []
  | fuel + 1, c :: cs =>
      match matchFence (c :: cs) with
      | some p =>
          ((c :: cs).take p.1, p.2) :: findBlocksF fuel (cs.drop (p.1 - 1))
      | none => findBlocksF fuel cs

/-- Global scan of the whole text. -/
def findBlocks (s : List Char) : List (List Char × List Char) :=
  findBlocksF s.length s

/-! ### Repair pipeline (ollamaAdapter.ts lines 522-565) -/

/-- Step 1 after trimming: if the interior does not both start with `{`
and end with `}`, but does start with `{`, append a closing brace. -/
def braceFix (s : List Char) : List Char :=
  if !(decide (s.head? = some lb) && decide (s.getLast? = some rb)) then
    if decide (s.head? = some lb) && !(decide (s.getLast? = some rb)) then
      s ++ [rb]
    else s
  else s

/-- Step 2: strip one layer of doubled outer braces
(`substring(1, len-1)` / `substring(1)` / `substring(0, len-1)`). -/
def outerStrip (s : List Char) : List Char :=
  if [lb, lb].isPrefixOf s && [rb, rb].isSuffixOf s then
    (s.drop 1).dropLast
  else if [lb, lb].isPrefixOf s then s.drop 1
  else if [rb, rb].isSuffixOf s then s.dropLast
  else s

/-- Matcher for the tail of `/{{\s*"([^"]*)":/` after the two opening
braces: whitespace, a quoted capture, and a colon.  Returns the capture
and the number of characters consumed. -/
def r1tail (u : List Char) : Option (List Char × Nat) :=
  let n := wsRunLen u
  match u.drop n with
  | c :: v =>
      if c = qu then
        let cap := v.takeWhile (fun x => x ≠ qu)
        match v.drop cap.length with
        | c2 :: w =>
            if c2 = qu then
              match w with
              | c3 :: _ =>
                  if c3 = ':' then some (cap, n + 1 + cap.length + 2)
                  else none
              | [] => none
            else none
        | [] => none
      else none
  | [] => none

/-- Head match of `/{{\s*"([^"]*)":/` at the current position: the
replacement text `{"$1":` and the count consumed from the tail. -/
def r1head (c : Char) (cs : List Char) : Option (List Char × Nat) :=
  if c = lb then
    match cs with
    | c2 :: cs2 =>
        if c2 = lb then
          match r1tail cs2 with
          | some p => some (lb :: qu :: p.1 ++ [qu, ':'], 1 + p.2)
          | none => none
        else none
    | [] => none
  else none

/-- Head match of `/:\s*{{/` (the whitespace is dropped by the
replacement `:{`). -/
def r2head (c : Char) (cs : List Char) : Option (List Char × Nat) :=
  if c = ':' then
    match cs.drop (wsRunLen cs) with
    | d1 :: d2 :: _ =>
        if d1 = lb && d2 = lb then some ([':', lb], wsRunLen cs + 2)
        else none
    | _ => none
  else none

/-- Head match of `/}},/` with replacement `},`. -/
def r3head (c : Char) (cs : List Char) : Option (List Char × Nat) :=
  if c = rb then
    match cs with
    | d1 :: d2 :: _ =>
        if d1 = rb && d2 = ',' then some ([rb, ','], 2) else none
    | _ => none
  else none

/-- Head match of `/}}(\s*})/` with replacement `}$1`. -/
def r4head (c : Char) (cs : List Char) : Option (List Char × Nat) :=
  if c = rb then
    match cs with
    | d1 :: rest =>
        if d1 = rb then
          match rest.drop (wsRunLen rest) with
          | d3 :: _ =>
              if d3 = rb then
                some (rb :: rest.take (wsRunLen rest) ++ [rb],
                  wsRunLen rest + 2)
              else none
          | [] => none
        else none
    | [] => none
  else none

/-- Head match of `/{{/` with replacement `{`. -/
def r5head (c : Char) (cs : List Char) : Option (List Char × Nat) :=
  if c = lb then
    match cs with
    | d :: _ => if d = lb then some ([lb], 1) else none
    | [] => none
  else none

/-- Head match of `/}}/` with replacement `}`. -/
def r6head (c : Char) (cs : List Char) : Option (List Char × Nat) :=
  if c = rb then
    match cs with
    | d :: _ => if d = rb then some ([rb], 1) else none
    | [] => none
  else none

/-- Global-regex replacement scan with fuel (structural recursion; a
match always consumes at least one character, so fuel equal to the text
length suffices and the zero-fuel case is never reached from
`regexScan`): at each position, a head match emits its replacement and
resumes after the matched text; otherwise the character is copied. -/
def regexScanF (head : Char → List Char → Option (List Char × Nat)) :
    Nat → List Char → List Char
  | 0, s => s
  | _, [] => []
  | fuel + 1, c :: cs =>
      match head c cs with
      | some p => p.1 ++ regexScanF head fuel (cs.drop p.2)
      | none => c :: regexScanF head fuel cs

/-- Global-regex replacement scan over a whole text. -/
def regexScan (head : Char → List Char → Option (List Char × Nat))
    (s : List Char) : List Char :=
  regexScanF head s.length s

/-- Replacement `/{{\s*"([^"]*)":/g` with `{"$1":`. -/
def replaceR1 : List Char → List Char := regexScan r1head

/-- Replacement `/:\s*{{/g` with `:{`. -/
def replaceR2 : List Char → List Char := regexScan r2head

/-- Replacement `/}},/g` with `},`. -/
def replaceR3 : List Char → List Char := regexScan r3head

/-- Replacement `/}}(\s*})/g` with `}$1`. -/
def replaceR4 : List Char → List Char := regexScan r4head

/-- Replacement `/{{/g` with `{`. -/
def replaceR5 : List Char → List Char := regexScan r5head

/-- Replacement `/}}/g` with `}`. -/
def replaceR6 : List Char → List Char := regexScan r6head

/-- Final balancing: append missing closing braces or prepend missing
opening braces. -/
def braceBalance (s : List Char) : List Char :=
  let o := s.count lb
  let c := s.count rb
  if o > c then s ++ List.replicate (o - c) rb
  else if c > o then List.replicate (c - o) lb ++ s
  else s

/-- The whole repair pipeline applied to a captured interior. -/
def repair (s0 : List Char) : List Char :=
  braceBalance (replaceR6 (replaceR5 (replaceR4 (replaceR3 (replaceR2
    (replaceR1 (outerStrip (braceFix (trimChars s0)))))))))

/-! ### JSON.parse model -/

/-- JSON whitespace accepted between tokens. -/
def isJsonWs (c : Char) : Bool :=
  c = ' ' || c = '\t' || c = '\n' || c = '\r'

/-- Skip of inter-token whitespace. -/
def skipWs (s : List Char) : List Char := s.dropWhile isJsonWs

/-- Single-character string escapes (`\uXXXX` is a modelled restriction
and rejects; no claim exercises it). -/
def unescape (c : Char) : Option Char :=
  if c = qu then some qu
  else if c = bsl then some bsl
  else if c = '/' then some '/'
  else if c = 'n' then some '\n'
  else if c = 't' then some '\t'
  else if c = 'r' then some '\r'
  else if c = 'b' then some (Char.ofNat 8)
  else if c = 'f' then some (Char.ofNat 12)
  else none

/-- String-literal body parser with fuel (structural; fuel equal to
the text length suffices), positioned after the opening quote; returns
the content and the remainder after the closing quote. -/
def parseStrBodyF : Nat → List Char → Option (List Char × List Char)
  | 0, _ => none
  | _, [] => none
  | fuel + 1, c :: rest =>
      if c = qu then some ([], rest)
      else if c = bsl then
        match rest with
        | e :: r2 =>
            match unescape e with
            | some ch =>
                (parseStrBodyF fuel r2).map (fun p => (ch :: p.1, p.2))
            | none => none
        | [] => none
      else if c.toNat < 32 then none
      else (parseStrBodyF fuel rest).map (fun p => (c :: p.1, p.2))

/-- String-literal body parser. -/
def parseStrBody (s : List Char) : Option (List Char × List Char) :=
  parseStrBodyF s.length s

/-- Integral numeric literal (a modelled restriction: fractions and
exponents reject; no claim exercises them). -/
def parseIntLit (neg : Bool) (s : List Char) : Option (Json × List Char) :=
  let ds := s.takeWhile isDigitCh
  if ds.isEmpty then none
  else if !canonDigits ds then none
  else
    match s.drop ds.length with
    | c :: rest2 =>
        if c = '.' || c = 'e' || c = 'E' then none
        else some (.num (if neg then -(digitsVal ds : Int) else
          (digitsVal ds : Int)), c :: rest2)
    | [] => some (.num (if neg then -(digitsVal ds : Int) else
        (digitsVal ds : Int)), [])

mutual

/-- Recursive-descent value parser with fuel (the fuel used by
`parseJson` always suffices). -/
def parseVal : Nat → List Char → Option (Json × List Char)
  | 0, _ => none
  | fuel + 1, s0 =>
      match skipWs s0 with
      | [] => none
      | c :: rest =>
          if c = lb then
            match skipWs rest with
            | d :: r2 =>
                if d = rb then some (.obj [], r2)
                else parseMembers fuel (skipWs rest) []
            | [] => none
          else if c = '[' then
            match skipWs rest with
            | d :: r2 =>
                if d = ']' then some (.arr [], r2)
                else parseElems fuel (skipWs rest) []
            | [] => none
          else if c = qu then
            (parseStrBody rest).map (fun p => (.str ⟨p.1⟩, p.2))
          else if c = 't' then
            match rest with
            | 'r' :: 'u' :: 'e' :: r2 => some (.bool true, r2)
            | _ => none
          else if c = 'f' then
            match rest with
            | 'a' :: 'l' :: 's' :: 'e' :: r2 => some (.bool false, r2)
            | _ => none
          else if c = 'n' then
            match rest with
            | 'u' :: 'l' :: 'l' :: r2 => some (.null, r2)
            | _ => none
          else if c = '-' then parseIntLit true rest
          else if isDigitCh c then parseIntLit false (c :: rest)
          else none

/-- Object-member list parser, positioned at the start of a key. -/
def parseMembers (fuel : Nat) (s : List Char)
    (acc : List (String × Json)) : Option (Json × List Char) :=
  match fuel with
  | 0 => none
  | fuel + 1 =>
      match s with
      | c :: rest =>
          if c = qu then
            match parseStrBody rest with
            | some (key, r2) =>
                match skipWs r2 with
                | d :: r4 =>
                    if d = ':' then
                      match parseVal fuel r4 with
                      | some (v, r5) =>
                          let acc2 := jsSetKey acc ⟨key⟩ v
                          match skipWs r5 with
                          | e :: r7 =>
                              if e = ',' then
                                parseMembers fuel (skipWs r7) acc2
                              else if e = rb then some (.obj acc2, r7)
                              else none
                          | [] => none
                      | none => none
                    else none
                | [] => none
            | none => none
          else none
      | [] => none

/-- Array-element list parser, positioned at the start of a value. -/
def parseElems (fuel : Nat) (s : List Char)
    (acc : List Json) : Option (Json × List Char) :=
  match fuel with
  | 0 => none
  | fuel + 1 =>
      match parseVal fuel s with
      | some (v, r) =>
          match skipWs r with
          | e :: r3 =>
              if e = ',' then parseElems fuel (skipWs r3) (acc ++ [v])
              else if e = ']' then some (.arr (acc ++ [v]), r3)
              else none
          | [] => none
      | none => none

end

/-- Model of `JSON.parse`: parse one value and require only whitespace
to remain. -/
def parseJson (s : List Char) : Option Json :=
  match parseVal (s.length + 1) s with
  | some (j, rest) => if (skipWs rest).isEmpty then some j else none
  | none => none

/-! ### Interpretation and parameter aliasing
(ollamaAdapter.ts lines 570-604 and 628-662) -/

/-- A recovered tool call: the `name` value pushed by the source (the
raw `toolCallData.tool` value in standard shape, a string key in map
shape) and the mapped arguments object. -/
structure ToolCall where
  name : Json
  arguments : List (String × Json)

/-- Response of the extractor: residual content plus the optional
list of recovered calls (`toolCalls` is only set when non-empty). -/
structure LlmResponse where
  content : List Char
  toolCalls : Option (List ToolCall)

/-- The static per-tool parameter alias table `parameterMappings`. -/
def parameterMappings : List (String × List (String × String)) :=
  [("read_file", [("file_path", "path")]),
   ("read_multiple_files", [("file_paths", "paths")]),
   ("write_file", [("file_path", "path")]),
   ("search_files", [("directory_path", "path")]),
   ("list_directory", [("directory_path", "path")])]

/-- Lookup in the alias table (JavaScript property access on the
mapping object; non-string tool names never match an alias entry). -/
def aliasLookup (toolName : Json) : Option (List (String × String)) :=
  match toolName with
  | .str n =>
      let rec go : List (String × List (String × String)) →
          Option (List (String × String))
        | [] => none
        | (k, v) :: rest => if k = n then some v else go rest
      go parameterMappings
  | _ => none

/-- Model of `mapToolParameters`: spread-copy the parameters, then for
each alias entry whose source key is defined on the parameters, assign
the target key and delete the source key. -/
def mapToolParameters (toolName : Json) (parameters : Json) :
    List (String × Json) :=
  let result := jsSpread parameters
  match aliasLookup toolName with
  | some mapping =>
      mapping.foldl (fun res fp =>
        match jsMemberSafe parameters fp.1 with
        | some v => jsDelKey (jsSetKey res fp.2 v) fp.1
        | none => res) result
  | none => result

/-- Interpretation of a successfully parsed candidate, mirroring the
body of the per-match `try`: reading `.tool` on a parsed `null` throws
(`none`, caught by the match's catch, skipping the block); a truthy
`tool` field selects the standard shape; otherwise every own key bound
to an object-typed value yields one call. -/
def interpretData (data : Json) : Option (List ToolCall) :=
  match data with
  | .null => none
  | _ =>
      match jsMemberSafe data "tool" with
      | some tv =>
          if jsTruthy tv then
            some [⟨tv, mapToolParameters tv
              (jsOr (jsMemberSafe data "parameters") (.obj []))⟩]
          else
            some ((jsOwnKeys data).filterMap (fun k =>
              match jsMemberSafe data k with
              | some v =>
                  if jsTypeofObject v then
                    some ⟨.str k, mapToolParameters (.str k)
                      (jsOr (some v) (.obj []))⟩
                  else none
              | none => none))
      | none =>
          some ((jsOwnKeys data).filterMap (fun k =>
            match jsMemberSafe data k with
            | some v =>
                if jsTypeofObject v then
                  some ⟨.str k, mapToolParameters (.str k)
                    (jsOr (some v) (.obj []))⟩
                else none
            | none => none))

/-- Removal of the first occurrence of `pat`
(`modifiedContent.replace(match[0], '')` with a string pattern). -/
def replaceFirstOcc : List Char → List Char → List Char
  | [], _ => []
  | c :: cs, pat =>
      if pat.isPrefixOf (c :: cs) then (c :: cs).drop pat.length
      else c :: replaceFirstOcc cs pat

/-- The per-match loop: parse failures (and the null TypeError) skip
the block without removing it; every successfully interpreted block
contributes its calls in order and is removed from the content. -/
def processMatches : List (List Char × List Char) → List Char →
    List ToolCall × List Char
  | [], acc => ([], acc)
  | (full, interior) :: rest, acc =>
      match parseJson (repair interior) with
      | none => processMatches rest acc
      | some data =>
          match interpretData data with
          | none => processMatches rest acc
          | some calls1 =>
              let p := processMatches rest (replaceFirstOcc acc full)
              (calls1 ++ p.1, p.2)

/-- Model of `parseToolCallsFromResponse`: when at least one call was
recovered the content is the modified text trimmed and the calls are
returned in text order; otherwise the content is returned unchanged
with no calls. -/
def parseToolCallsFromResponse (text : List Char) : LlmResponse :=
  let p := processMatches (findBlocks text) text
  if p.1.length > 0 then ⟨trimChars p.2, some p.1⟩
  else ⟨text, none⟩

/-! ## Rendered call texts used to state the extraction claims

The extraction claims quantify over families of call texts.  The
families are rendered from structured descriptions: a tool name, and
flat parameter objects whose values are atoms (strings over plain
characters, integers, booleans, null).  Plain characters exclude the
quote, backslash, brace, backtick and control characters, so the
rendered text of such a call contains braces only at its two object
boundaries — the shape the repair pipeline preserves. -/

/-- Atomic parameter values of the rendered call families. -/
inductive FlatAtom where
  | str (s : String)
  | num (n : Int)
  | bool (b : Bool)
  | null

/-- Json value of an atom. -/
def atomToJson : FlatAtom → Json
  | .str s => .str s
  | .num n => .num n
  | .bool b => .bool b
  | .null => .null

/-- Rendered text of an atom (compact JSON). -/
def renderAtom : FlatAtom → List Char
  | .str s => qu :: s.data ++ [qu]
  | .num n => (intStr n).data
  | .bool true => ('t' :: "rue".data)
  | .bool false => ('f' :: "alse".data)
  | .null => ('n' :: "ull".data)

/-- Rendered text of the comma-separated members of a flat object. -/
def renderEntries : List (String × FlatAtom) → List Char
  | [] => []
  | [(k, v)] => qu :: k.data ++ qu :: ':' :: renderAtom v
  | (k, v) :: rest =>
      qu :: k.data ++ qu :: ':' :: renderAtom v ++ ',' :: renderEntries rest

/-- Rendered text of a flat object. -/
def renderFlatObj (fs : List (String × FlatAtom)) : List Char :=
  lb :: renderEntries fs ++ [rb]

/-- Json entries of a flat object. -/
def jsonEntries (fs : List (String × FlatAtom)) : List (String × Json) :=
  fs.map (fun p => (p.1, atomToJson p.2))

/-- The fixed text between the opening brace and the parameters object
of a rendered standard-shape call. -/
def stdPrefix (T : String) : List Char :=
  qu :: "tool".data ++ qu :: ':' :: qu :: T.data ++ qu :: ',' ::
    qu :: "parameters".data ++ qu :: ':' :: []

/-- Rendered standard-shape call
`{"tool":"T","parameters":{...}}`. -/
def renderStdCall (T : String) (P : List (String × FlatAtom)) :
    List Char :=
  lb :: stdPrefix T ++ renderFlatObj P ++ [rb]

/-- Parsed Json value of a rendered standard-shape call. -/
def stdJson (T : String) (P : List (String × FlatAtom)) : Json :=
  .obj [("tool", .str T), ("parameters", .obj (jsonEntries P))]

/-- Map-shape values: an arguments object or a skipped atom. -/
inductive MapVal where
  | objv (fs : List (String × FlatAtom))
  | atomv (a : FlatAtom)

/-- Rendered text of a map-shape value. -/
def renderMapVal : MapVal → List Char
  | .objv fs => renderFlatObj fs
  | .atomv a => renderAtom a

/-- Json value of a map-shape value. -/
def mapValToJson : MapVal → Json
  | .objv fs => .obj (jsonEntries fs)
  | .atomv a => atomToJson a

/-- Rendered members of a map-shape object. -/
def renderMapEntries : List (String × MapVal) → List Char
  | [] => []
  | [(k, v)] => qu :: k.data ++ qu :: ':' :: renderMapVal v
  | (k, v) :: rest =>
      qu :: k.data ++ qu :: ':' :: renderMapVal v ++ ',' ::
        renderMapEntries rest

/-- Rendered map-shape object `{"T1":{...},"T2":{...}}`. -/
def renderMapObj (m : List (String × MapVal)) : List Char :=
  lb :: renderMapEntries m ++ [rb]

/-- Opening fence with the `json` language tag. -/
def fenceOpen : List Char := [bt, bt, bt, 'j', 's', 'o', 'n', '\n']

/-- Fenced block around a body, as instructed by the tool prompt. -/
def fenceBlock (body : List Char) : List Char :=
  fenceOpen ++ body ++ closeFence

/-- Doubled-brace encoding: every brace of the text doubled (the
template-escaping artifact of certain models). -/
def doubleBraces (s : List Char) : List Char :=
  s.flatMap (fun c => if c = lb then [lb, lb]
    else if c = rb then [rb, rb] else [c])

/-- Plain character: printable, and none of quote, backslash, brace,
backtick. -/
def plainCh (c : Char) : Bool :=
  32 ≤ c.toNat && c ≠ qu && c ≠ bsl && c ≠ lb && c ≠ rb && c ≠ bt

/-- Plain string. -/
def plainStr (s : String) : Bool := s.data.all plainCh

/-- Plain atom: a plain string or a non-string atom. -/
def plainAtom : FlatAtom → Bool
  | .str s => plainStr s
  | _ => true

/-- Well-formedness of a flat parameter object: plain distinct keys and
plain atom values. -/
def flatEntriesOk (fs : List (String × FlatAtom)) : Bool :=
  fs.all (fun p => plainStr p.1 && plainAtom p.2) &&
    decide ((fs.map Prod.fst).Nodup)

/-- Atom that is not `null` (skipped by the map shape: its `typeof` is
not `object`). -/
def nonNullAtom : FlatAtom → Bool
  | .null => false
  | _ => true

/-- Well-formedness of a map-shape object: plain distinct keys distinct
from `tool`, values either flat objects or non-null atoms. -/
def mapEntriesOk (m : List (String × MapVal)) : Bool :=
  m.all (fun p => plainStr p.1 && decide (p.1 ≠ "tool") &&
    (match p.2 with
     | .objv fs => flatEntriesOk fs
     | .atomv a => plainAtom a && nonNullAtom a)) &&
    decide ((m.map Prod.fst).Nodup)

/-- The calls a well-formed map-shape block produces: one per
object-valued key, in key order. -/
def mapShapeCalls (m : List (String × MapVal)) : List ToolCall :=
  m.filterMap (fun p =>
    match p.2 with
    | .objv fs => some ⟨.str p.1,
        mapToolParameters (.str p.1) (.obj (jsonEntries fs))⟩
    | .atomv _ => none)

/-- Backtick-free text. -/
def btFree (s : List Char) : Bool := s.all (fun c => c ≠ bt)

/-- Body accepted at the interior of a fenced block by the scanner
lemmas: nonempty, starting with a non-whitespace character, without
backticks. -/
def goodBody (b : List Char) : Bool :=
  (match b.head? with
   | some c => !isJsWs c
   | none => false) && btFree b

/-- Concrete interior used by the C1 counterexample: a well-formed
standard-shape call whose parameters object nests an empty object
before a sibling key. -/
def cx1Interior : String :=
  "\x7b\"tool\":\"T\",\"parameters\":\x7b\"a\":\x7b\"b\":\x7b\x7d\x7d,\"c\":1\x7d\x7d"

/-- Concrete response text of the C1 counterexample. -/
def cx1Text : String := "```json\n" ++ cx1Interior ++ "\n```"

/-- Concrete response text of the C7 counterexample: a map-shape block
whose keys are array-index strings in reverse numeric order. -/
def cx7Text : String :=
  "```json\n\x7b\"2\":\x7b\"a\":1\x7d,\"1\":\x7b\"b\":2\x7d\x7d\n```"

/-- Concrete response text of the C10 counterexample: a map-shape block
whose only key is bound to a string. -/
def cx10Text : String :=
  "x\n```json\n\x7b\"T1\": \"hi\"\x7d\n```\ny"

/-- Absence of a character from a text. -/
def chFree (a : Char) (s : List Char) : Bool := s.all (fun c => c ≠ a)

/-- Absence of two adjacent occurrences of a character.  The doubled
braces targeted by the repair replacements require an adjacent pair, so
a text with `noAdj lb` and `noAdj rb` is untouched by them. -/
def noAdj (a : Char) : List Char → Bool
  | [] => true
  | [_] => true
  | c1 :: c2 :: cs => !(c1 = a && c2 = a) && noAdj a (c2 :: cs)

/-- Absence of braces and backticks from a text segment; rendered
plain strings, numbers and punctuation satisfy it. -/
def braceFree3 (s : List Char) : Bool :=
  s.all (fun c => c ≠ lb && c ≠ rb && c ≠ bt)

/-! ## Correlation-id uniqueness -/

theorem digitCh_ne_dash (d : Nat) : digitCh d ≠ '-' := by
  unfold digitCh
  split <;> decide

theorem natDigits_no_dash (n : Nat) : ∀ c ∈ natDigits n, c ≠ '-' := by
  induction n using Nat.strong_induction_on with
  | _ n ih =>
      rw [natDigits]
      split
      next h =>
        intro c hc
        simp only [List.mem_singleton] at hc
        subst hc
        exact digitCh_ne_dash n
      next h =>
        intro c hc
        rw [List.mem_append] at hc
        rcases hc with h1 | h1
        · exact ih (n / 10) (Nat.div_lt_self (by omega) (by omega)) c h1
        · simp only [List.mem_singleton] at h1
          subst h1
          exact digitCh_ne_dash _

theorem digitCh_val (d : Nat) (h : d < 10) : (digitCh d).toNat - 48 = d := by
  interval_cases d <;> decide

theorem digitsVal_natDigits (n : Nat) : digitsVal (natDigits n) = n := by
  induction n using Nat.strong_induction_on with
  | _ n ih =>
      rw [natDigits]
      split
      next h =>
        simp only [digitsVal, List.foldl_cons, List.foldl_nil, Nat.zero_mul,
          Nat.zero_add]
        exact digitCh_val n h
      next h =>
        have hrec := ih (n / 10) (Nat.div_lt_self (by omega) (by omega))
        simp only [digitsVal, List.foldl_append, List.foldl_cons,
          List.foldl_nil] at hrec ⊢
        rw [hrec, digitCh_val (n % 10) (Nat.mod_lt _ (by omega))]
        omega

theorem natDigits_inj {a b : Nat} (h : natDigits a = natDigits b) : a = b := by
  have := congrArg digitsVal h
  rwa [digitsVal_natDigits, digitsVal_natDigits] at this

theorem append_dash_inj :
    ∀ (a1 b1 a2 b2 : List Char),
      (∀ c ∈ a1, c ≠ '-') → (∀ c ∈ a2, c ≠ '-') →
      a1 ++ '-' :: b1 = a2 ++ '-' :: b2 → a1 = a2 ∧ b1 = b2 := by
  intro a1
  induction a1 with
  | nil =>
      intro b1 a2 b2 _ h2 heq
      cases a2 with
      | nil =>
          simp only [List.nil_append, List.cons.injEq] at heq
          exact ⟨rfl, heq.2⟩
      | cons x xs =>
          simp only [List.nil_append, List.cons_append,
            List.cons.injEq] at heq
          exact absurd heq.1.symm (h2 x (by simp))
  | cons x xs ih =>
      intro b1 a2 b2 h1 h2 heq
      cases a2 with
      | nil =>
          simp only [List.cons_append, List.nil_append,
            List.cons.injEq] at heq
          exact absurd heq.1 (h1 x (by simp))
      | cons y ys =>
          simp only [List.cons_append, List.cons.injEq] at heq
          obtain ⟨rfl, htail⟩ := heq
          obtain ⟨hxs, hb⟩ := ih b1 ys b2
            (fun c hc => h1 c (by simp [hc]))
            (fun c hc => h2 c (by simp [hc])) htail
          exact ⟨by rw [hxs], hb⟩

theorem genId_data (now counter : Nat) :
    (genId now counter).data =
      natDigits now ++ '-' :: natDigits counter := by
  simp [genId, natStr, String.data_append]

theorem genId_counter_inj {t1 c1 t2 c2 : Nat}
    (h : genId t1 c1 = genId t2 c2) : c1 = c2 := by
  have hd := congrArg String.data h
  rw [genId_data, genId_data] at hd
  have := append_dash_inj (natDigits t1) (natDigits c1) (natDigits t2)
    (natDigits c2) (natDigits_no_dash t1) (natDigits_no_dash t2) hd
  exact natDigits_inj this.2

/-! ## Correlator invariants -/

/-- Invariant of a correlator run: every id in the pending map and in
the settlement log is a generated id whose counter is below the current
`messageId`, and every id occurs at most once across the log and the
map together. -/
def CorrGood (st : CorrState) (log : List (String × Settle)) : Prop :=
  (∀ p ∈ st.pending, ∃ t c, p.1 = genId t c ∧ c < st.messageId) ∧
  (∀ q ∈ log, ∃ t c, q.1 = genId t c ∧ c < st.messageId) ∧
  (log.map Prod.fst ++ st.pending.map Prod.fst).Nodup

theorem mapFst_filter_ne (l : List (String × String)) (id : String) :
    (l.filter (fun p => p.1 ≠ id)).map Prod.fst =
      (l.map Prod.fst).filter (fun k => k ≠ id) := by
  induction l with
  | nil => rfl
  | cons p rest ih =>
      simp only [ne_eq, decide_not] at ih ⊢
      simp only [List.filter_cons, List.map_cons]
      by_cases h : p.1 = id
      · simp [h, ih]
      · simp [h, ih]

theorem pendLookup_none_iff (l : List (String × String)) (k : String) :
    pendLookup l k = none ↔ k ∉ l.map Prod.fst := by
  induction l with
  | nil => simp [pendLookup]
  | cons p rest ih =>
      obtain ⟨a, b⟩ := p
      by_cases h : a = k
      · subst h
        simp [pendLookup]
      · simp [pendLookup, h, ih, Ne.symm h]

theorem pendLookup_some_mem {l : List (String × String)} {k : String}
    {m : String} (h : pendLookup l k = some m) : k ∈ l.map Prod.fst := by
  by_contra hk
  rw [← pendLookup_none_iff] at hk
  rw [h] at hk
  exact Option.noConfusion hk

theorem nodup_settled_aux {L P : List String} {id : String}
    (hnd : (L ++ P).Nodup) (hmem : id ∈ P) :
    ((L ++ [id]) ++ P.filter (fun k => k ≠ id)).Nodup := by
  rw [List.nodup_append] at hnd
  obtain ⟨hndL, hndP, hdisj⟩ := hnd
  rw [List.nodup_append]
  refine ⟨?_, List.Nodup.filter _ hndP, ?_⟩
  · rw [List.nodup_append]
    refine ⟨hndL, List.nodup_singleton _, ?_⟩
    intro x hx
    simp only [List.mem_singleton]
    intro hx2
    subst hx2
    exact hdisj hx hmem
  · intro x hx
    rw [List.mem_append] at hx
    intro hx2
    have hxne : x ≠ id := by
      have := List.of_mem_filter hx2
      simpa using this
    have hxp : x ∈ P := List.mem_of_mem_filter hx2
    rcases hx with hx | hx
    · exact hdisj hx hxp
    · simp only [List.mem_singleton] at hx
      exact hxne hx

theorem corrStep_good {st : CorrState} {log : List (String × Settle)}
    (ev : CorrEvent) (hg : CorrGood st log) :
    CorrGood (corrStep st ev).1 (log ++ (corrStep st ev).2) := by
  obtain ⟨hpend, hlog, hnd⟩ := hg
  cases ev with
  | send now method =>
      simp only [CorrGood, corrStep, List.append_nil, List.map_append,
        List.map_cons, List.map_nil]
      refine ⟨?_, ?_, ?_⟩
      · intro p hp
        rw [List.mem_append] at hp
        rcases hp with hp | hp
        · obtain ⟨t, c, hid, hc⟩ := hpend p hp
          exact ⟨t, c, hid, by omega⟩
        · simp only [List.mem_singleton] at hp
          subst hp
          exact ⟨now, st.messageId, rfl, by omega⟩
      · intro q hq
        obtain ⟨t, c, hid, hc⟩ := hlog q hq
        exact ⟨t, c, hid, by omega⟩
      · rw [← List.append_assoc, List.nodup_append]
        refine ⟨hnd, List.nodup_singleton _, ?_⟩
        intro x hx
        simp only [List.mem_singleton]
        intro hx2
        subst hx2
        rw [List.mem_append] at hx
        have hex : ∃ t c, genId now st.messageId = genId t c ∧
            c < st.messageId := by
          rcases hx with hx | hx
          · obtain ⟨q, hq, hq2⟩ := List.mem_map.mp hx
            obtain ⟨t, c, hid, hc⟩ := hlog q hq
            exact ⟨t, c, by rw [← hq2, hid], hc⟩
          · obtain ⟨p, hp, hp2⟩ := List.mem_map.mp hx
            obtain ⟨t, c, hid, hc⟩ := hpend p hp
            exact ⟨t, c, by rw [← hp2, hid], hc⟩
        obtain ⟨t, c, hid, hc⟩ := hex
        have := genId_counter_inj hid
        omega
  | response id error result =>
      by_cases hid0 : id = ""
      · subst hid0
        have hstep : corrStep st (.response "" error result) = (st, []) := by
          simp [corrStep]
        rw [hstep]
        simp only [List.append_nil]
        exact ⟨hpend, hlog, hnd⟩
      · cases hlk : pendLookup st.pending id with
        | none =>
            simp only [CorrGood, corrStep, if_neg hid0, hlk,
              List.append_nil]
            exact ⟨hpend, hlog, hnd⟩
        | some m =>
            have hmem : id ∈ st.pending.map Prod.fst :=
              pendLookup_some_mem hlk
            simp only [CorrGood, corrStep, if_neg hid0, hlk,
              List.map_append, List.map_cons, List.map_nil]
            refine ⟨?_, ?_, ?_⟩
            · intro p hp
              exact hpend p (List.mem_of_mem_filter hp)
            · intro q hq
              rw [List.mem_append] at hq
              rcases hq with hq | hq
              · exact hlog q hq
              · simp only [List.mem_singleton] at hq
                subst hq
                obtain ⟨p, hp, hp2⟩ := List.mem_map.mp hmem
                obtain ⟨t, c, hid, hc⟩ := hpend p hp
                exact ⟨t, c, by rw [← hp2]; exact hid, hc⟩
            · rw [mapFst_filter_ne]
              exact nodup_settled_aux hnd hmem
  | timerFire id =>
      cases hlk : pendLookup st.pending id with
      | none =>
          simp only [CorrGood, corrStep, hlk, List.append_nil]
          exact ⟨hpend, hlog, hnd⟩
      | some m =>
          have hmem : id ∈ st.pending.map Prod.fst :=
            pendLookup_some_mem hlk
          simp only [CorrGood, corrStep, hlk, List.map_append,
            List.map_cons, List.map_nil]
          refine ⟨?_, ?_, ?_⟩
          · intro p hp
            exact hpend p (List.mem_of_mem_filter hp)
          · intro q hq
            rw [List.mem_append] at hq
            rcases hq with hq | hq
            · exact hlog q hq
            · simp only [List.mem_singleton] at hq
              subst hq
              obtain ⟨p, hp, hp2⟩ := List.mem_map.mp hmem
              obtain ⟨t, c, hid, hc⟩ := hpend p hp
              exact ⟨t, c, by rw [← hp2]; exact hid, hc⟩
          · rw [mapFst_filter_ne]
            exact nodup_settled_aux hnd hmem
  | procExit code =>
      simp only [CorrGood, corrStep, List.map_append, List.map_map]
      have hcomp : (List.map (Prod.fst ∘ fun p : String × String =>
          (p.1, Settle.rejected (.str ("Server process exited with code " ++
            intStr code)))) st.pending) = st.pending.map Prod.fst := by
        apply List.map_congr_left
        intro p _
        rfl
      refine ⟨?_, ?_, ?_⟩
      · intro p hp
        simp only [List.not_mem_nil] at hp
      · intro q hq
        rw [List.mem_append] at hq
        rcases hq with hq | hq
        · exact hlog q hq
        · obtain ⟨p, hp, hp2⟩ := List.mem_map.mp hq
          obtain ⟨t, c, hid, hc⟩ := hpend p hp
          exact ⟨t, c, by rw [← hp2]; exact hid, hc⟩
      · rw [hcomp]
        simp only [List.map_nil, List.append_nil]
        exact hnd

theorem runCorrFrom_good (es : List CorrEvent) :
    ∀ (st : CorrState) (log : List (String × Settle)), CorrGood st log →
      CorrGood (runCorrFrom st log es).1 (runCorrFrom st log es).2 := by
  induction es with
  | nil => intro st log hg; exact hg
  | cons e rest ih =>
      intro st log hg
      exact ih _ _ (corrStep_good e hg)

theorem runCorr_good (es : List CorrEvent) :
    CorrGood (runCorr es).1 (runCorr es).2 := by
  apply runCorrFrom_good
  exact ⟨by simp [initCorrState], by simp, by simp [initCorrState]⟩

/-! ## Claim theorems: request correlator -/

/-- C9.  At every point in an execution the pending-request map
contains no two entries with the same correlation id, and a freshly
generated id (wall-clock millis joined with the strictly increasing
counter) is distinct from every id currently in the map, whatever the
wall-clock value. -/
theorem claim_C9_pending_ids_unique :
    ∀ (es : List CorrEvent) (now : Nat),
      ((runCorr es).1.pending.map Prod.fst).Nodup ∧
      decide (genId now (runCorr es).1.messageId ∈
        (runCorr es).1.pending.map Prod.fst) = false := by
  intro es now
  obtain ⟨hpend, _, hnd⟩ := runCorr_good es
  constructor
  · exact ((List.nodup_append.mp hnd).2).1
  · apply decide_eq_false
    intro hmem
    obtain ⟨p, hp, hp2⟩ := List.mem_map.mp hmem
    obtain ⟨t, c, hid, hc⟩ := hpend p hp
    have heq : genId t c = genId now (runCorr es).1.messageId := by
      rw [← hid, hp2]
    have := genId_counter_inj heq
    omega

/-- C4.  Each pipe request is settled at most once: across any run no
id appears twice in the settlement log, a settled id is no longer in
the pending map, a response for an id absent from the map is silently
ignored, and when an id is still pending each of the three events —
matching response, timer expiry (rejecting with a timeout error naming
the method), process exit — settles exactly that entry and removes it
from the map. -/
theorem claim_C4_exactly_once_settlement :
    ∀ (es : List CorrEvent) (st : CorrState) (id : String)
      (error result : Json) (method : String) (code : Int),
      (((runCorr es).2.map Prod.fst).Nodup) ∧
      (∀ q ∈ (runCorr es).2,
        q.1 ∉ (runCorr es).1.pending.map Prod.fst) ∧
      (id ∉ st.pending.map Prod.fst →
        corrStep st (.response id error result) = (st, [])) ∧
      (pendLookup st.pending id = some method → id ≠ "" →
        ((corrStep st (.response id error result)).2.map Prod.fst = [id] ∧
         (corrStep st (.timerFire id)).2 =
           [(id, .rejected (.str ("Request timeout: " ++ method)))] ∧
         (corrStep st (.procExit code)).2.map Prod.fst =
           st.pending.map Prod.fst ∧
         id ∈ st.pending.map Prod.fst ∧
         (corrStep st (.response id error result)).1.pending.map Prod.fst =
           (st.pending.map Prod.fst).filter (fun k => k ≠ id) ∧
         (corrStep st (.timerFire id)).1.pending.map Prod.fst =
           (st.pending.map Prod.fst).filter (fun k => k ≠ id) ∧
         (corrStep st (.procExit code)).1.pending = [])) := by
  intro es st id error result method code
  obtain ⟨hpend, hlog, hnd⟩ := runCorr_good es
  rw [List.nodup_append] at hnd
  obtain ⟨hndL, hndP, hdisj⟩ := hnd
  refine ⟨hndL, ?_, ?_, ?_⟩
  · intro q hq
    exact hdisj (List.mem_map_of_mem Prod.fst hq)
  · intro hnmem
    have hlk : pendLookup st.pending id = none :=
      (pendLookup_none_iff _ _).mpr hnmem
    by_cases hid0 : id = ""
    · subst hid0
      simp [corrStep]
    · simp [corrStep, hid0, hlk]
  · intro hlk hid0
    have hmem : id ∈ st.pending.map Prod.fst := pendLookup_some_mem hlk
    refine ⟨?_, ?_, ?_, hmem, ?_, ?_, ?_⟩
    · simp [corrStep, hid0, hlk]
    · simp [corrStep, hlk]
    · simp only [corrStep, List.map_map]
      apply List.map_congr_left
      intro p _
      rfl
    · simp only [corrStep, if_neg hid0, hlk]
      exact mapFst_filter_ne _ _
    · simp only [corrStep, hlk]
      exact mapFst_filter_ne _ _
    · simp [corrStep]

/-- Closed witness for C4: a concrete run with one request that times
out, the silent-ignore step on an empty map, and the three settlement
shapes on a concrete one-entry map. -/
theorem claim_C4_witness :
    (((runCorr [.send 1700 "tools/list",
        .timerFire (genId 1700 1)]).2.map Prod.fst).Nodup) ∧
    (corrStep ⟨1, []⟩ (.response "99-1" .null .null) = (⟨1, []⟩, [])) ∧
    ((corrStep ⟨2, [("1700-1", "tools/list")]⟩
        (.timerFire "1700-1")).2 =
      [("1700-1", .rejected (.str ("Request timeout: " ++ "tools/list")))]) ∧
    ((corrStep ⟨2, [("1700-1", "tools/list")]⟩
        (.response "1700-1" .null (.str "ok"))).1.pending.map Prod.fst =
      (["1700-1"].filter (fun k => k ≠ "1700-1"))) := by
  refine ⟨?_, ?_, ?_, ?_⟩
  · exact (claim_C4_exactly_once_settlement
      [.send 1700 "tools/list", .timerFire (genId 1700 1)]
      ⟨1, []⟩ "" .null .null "" 0).1
  · exact (claim_C4_exactly_once_settlement [] ⟨1, []⟩ "99-1"
      .null .null "" 0).2.2.1 (by simp)
  · exact ((claim_C4_exactly_once_settlement []
      ⟨2, [("1700-1", "tools/list")]⟩ "1700-1" .null (.str "ok")
      "tools/list" 0).2.2.2 rfl (by decide)).2.1
  · exact ((claim_C4_exactly_once_settlement []
      ⟨2, [("1700-1", "tools/list")]⟩ "1700-1" .null (.str "ok")
      "tools/list" 0).2.2.2 rfl (by decide)).2.2.2.2.1

/-! ## Helper lemmas for the negotiation and retry loops -/

theorem getLast?_cons_isSome {α : Type} (a : α) (l : List α) :
    ∃ x, (a :: l).getLast? = some x := by
  induction l generalizing a with
  | nil => exact ⟨a, rfl⟩
  | cons b t ih =>
      obtain ⟨x, hx⟩ := ih b
      exact ⟨x, by rw [List.getLast?_cons_cons, hx]⟩

theorem negotiateList_all_err (server : String → Except String Json) :
    ∀ (ms : List String) (acc : Option String),
      (∀ m ∈ ms, isErr (server m) = true) →
      negotiateList server ms acc =
        (.error (match ms.getLast? with
          | some ml => errOf (server ml)
          | none => acc.getD "null"), ms) := by
  intro ms
  induction ms with
  | nil => intro acc _; rfl
  | cons m rest ih =>
      intro acc hall
      have hm : isErr (server m) = true := hall m (by simp)
      obtain ⟨e, he⟩ : ∃ e, server m = .error e := by
        cases h : server m with
        | ok r => rw [h] at hm; simp [isErr] at hm
        | error e => exact ⟨e, rfl⟩
      have ihr := ih (some e) (fun x hx => hall x (by simp [hx]))
      have step : negotiateList server (m :: rest) acc =
          ((negotiateList server rest (some e)).1,
            m :: (negotiateList server rest (some e)).2) := by
        conv_lhs => rw [negotiateList]
        rw [he]
      rw [step, ihr]
      cases rest with
      | nil => simp [List.getLast?, errOf, he]
      | cons r2 rest2 =>
          obtain ⟨x, hx⟩ := getLast?_cons_isSome r2 rest2
          simp [List.getLast?_cons_cons, hx]

theorem negotiateList_first_success (server : String → Except String Json) :
    ∀ (k : Nat) (ms : List String) (acc : Option String)
      (mk : String) (r : Json),
      (∀ m ∈ ms.take k, isErr (server m) = true) →
      ms.get? k = some mk → server mk = .ok r →
      negotiateList server ms acc = (.ok r, ms.take (k + 1)) := by
  intro k
  induction k with
  | zero =>
      intro ms acc mk r _ hget hok
      cases ms with
      | nil => simp at hget
      | cons m rest =>
          simp only [List.get?] at hget
          obtain rfl : m = mk := by injection hget
          simp [negotiateList, hok]
  | succ k ih =>
      intro ms acc mk r hall hget hok
      cases ms with
      | nil => simp at hget
      | cons m rest =>
          have hm : isErr (server m) = true := by
            apply hall m; simp [List.take]
          obtain ⟨e, he⟩ : ∃ e, server m = .error e := by
            cases h : server m with
            | ok r2 => rw [h] at hm; simp [isErr] at hm
            | error e => exact ⟨e, rfl⟩
          have ihr := ih rest (some e) mk r
            (fun x hx => hall x (by simp [List.take, hx])) hget hok
          simp only [negotiateList, he, ihr, List.take]

theorem negotiatePairs_all_err (server : String → Json → Except String Json) :
    ∀ (ps : List (String × Json)) (acc : Option String),
      (∀ p ∈ ps, isErr (server p.1 p.2) = true) →
      negotiatePairs server ps acc =
        (.error (match ps.getLast? with
          | some pl => errOf (server pl.1 pl.2)
          | none => acc.getD "null"), ps.map (fun p => p.1)) := by
  intro ps
  induction ps with
  | nil => intro acc _; rfl
  | cons p rest ih =>
      intro acc hall
      obtain ⟨m, prm⟩ := p
      have hm : isErr (server m prm) = true := hall (m, prm) (by simp)
      obtain ⟨e, he⟩ : ∃ e, server m prm = .error e := by
        cases h : server m prm with
        | ok r => rw [h] at hm; simp [isErr] at hm
        | error e => exact ⟨e, rfl⟩
      have ihr := ih (some e) (fun x hx => hall x (by simp [hx]))
      have step : negotiatePairs server ((m, prm) :: rest) acc =
          ((negotiatePairs server rest (some e)).1,
            m :: (negotiatePairs server rest (some e)).2) := by
        conv_lhs => rw [negotiatePairs]
        rw [he]
      rw [step, ihr]
      cases rest with
      | nil => simp [List.getLast?, errOf, he]
      | cons r2 rest2 =>
          obtain ⟨x, hx⟩ := getLast?_cons_isSome r2 rest2
          simp [List.getLast?_cons_cons, hx]

theorem negotiatePairs_first_success (server : String → Json → Except String Json) :
    ∀ (k : Nat) (ps : List (String × Json)) (acc : Option String)
      (pk : String × Json) (r : Json),
      (∀ p ∈ ps.take k, isErr (server p.1 p.2) = true) →
      ps.get? k = some pk → server pk.1 pk.2 = .ok r →
      negotiatePairs server ps acc =
        (.ok r, (ps.take (k + 1)).map (fun p => p.1)) := by
  intro k
  induction k with
  | zero =>
      intro ps acc pk r _ hget hok
      cases ps with
      | nil => simp at hget
      | cons p rest =>
          simp only [List.get?] at hget
          obtain rfl : p = pk := by injection hget
          obtain ⟨m, prm⟩ := p
          simp [negotiatePairs, hok]
  | succ k ih =>
      intro ps acc pk r hall hget hok
      cases ps with
      | nil => simp at hget
      | cons p rest =>
          obtain ⟨m, prm⟩ := p
          have hm : isErr (server m prm) = true := by
            apply hall (m, prm); simp [List.take]
          obtain ⟨e, he⟩ : ∃ e, server m prm = .error e := by
            cases h : server m prm with
            | ok r2 => rw [h] at hm; simp [isErr] at hm
            | error e => exact ⟨e, rfl⟩
          have ihr := ih rest (some e) pk r
            (fun x hx => hall x (by simp [List.take, hx])) hget hok
          simp only [negotiatePairs, he, ihr, List.take, List.map]

theorem waits_range (delay idx n : Nat) :
    delay * (idx + 1) ::
        (List.range n).map (fun j => delay * (idx + 1 + j + 1)) =
      (List.range (n + 1)).map (fun j => delay * (idx + j + 1)) := by
  rw [List.range_succ_eq_map, List.map_cons, List.map_map]
  refine congrArg₂ List.cons (by ring) ?_
  apply List.map_congr_left
  intro j _
  simp only [Function.comp_apply, Nat.succ_eq_add_one]
  ring

theorem loadAttempts_all_err (f : Nat → Except String Json) (delay : Nat) :
    ∀ (n idx : Nat),
      (∀ i, idx ≤ i → i < idx + (n + 1) → isErr (attemptTools f i) = true) →
      loadAttempts f delay idx (n + 1) =
        ⟨none, n + 1, (List.range n).map (fun j => delay * (idx + j + 1)),
          errOf (attemptTools f (idx + n))⟩ := by
  intro n
  induction n with
  | zero =>
      intro idx hall
      have h0 : isErr (attemptTools f idx) = true :=
        hall idx (Nat.le_refl _) (by omega)
      obtain ⟨e, he⟩ : ∃ e, attemptTools f idx = .error e := by
        cases h : attemptTools f idx with
        | ok r => rw [h] at h0; simp [isErr] at h0
        | error e => exact ⟨e, rfl⟩
      simp [loadAttempts, he, errOf]
  | succ n ih =>
      intro idx hall
      have h0 : isErr (attemptTools f idx) = true :=
        hall idx (Nat.le_refl _) (by omega)
      obtain ⟨e, he⟩ : ∃ e, attemptTools f idx = .error e := by
        cases h : attemptTools f idx with
        | ok r => rw [h] at h0; simp [isErr] at h0
        | error e => exact ⟨e, rfl⟩
      have ihr := ih (idx + 1) (fun i h1 h2 => hall i (by omega) (by omega))
      rw [show idx + 1 + n = idx + (n + 1) from by omega] at ihr
      simp only [loadAttempts, he, ihr]
      rw [waits_range delay idx n]

theorem loadAttempts_first_success (f : Nat → Except String Json) (delay : Nat) :
    ∀ (k idx n : Nat) (t : Json),
      (∀ i, idx ≤ i → i < idx + k → isErr (attemptTools f i) = true) →
      attemptTools f (idx + k) = .ok t → k < n →
      loadAttempts f delay idx n =
        ⟨some t, k + 1, (List.range k).map (fun j => delay * (idx + j + 1)),
          ""⟩ := by
  intro k
  induction k with
  | zero =>
      intro idx n t _ hok hlt
      have hok0 : attemptTools f idx = .ok t := by simpa using hok
      match n, hlt with
      | 1, _ => simp [loadAttempts, hok0]
      | n + 2, _ => simp [loadAttempts, hok0]
  | succ k ih =>
      intro idx n t hall hok hlt
      have h0 : isErr (attemptTools f idx) = true :=
        hall idx (Nat.le_refl _) (by omega)
      obtain ⟨e, he⟩ : ∃ e, attemptTools f idx = .error e := by
        cases h : attemptTools f idx with
        | ok r => rw [h] at h0; simp [isErr] at h0
        | error e => exact ⟨e, rfl⟩
      match n, hlt with
      | n + 2, hlt =>
          have ihr := ih (idx + 1) (n + 1) t
            (fun i h1 h2 => hall i (by omega) (by omega))
            (by rw [show idx + 1 + k = idx + (k + 1) by omega]; exact hok)
            (by omega)
          simp only [loadAttempts, he, ihr]
          rw [waits_range delay idx k]

/-! ## Claim theorems: registry client and negotiation -/

/-- C2.  For every tool name and argument object, if the cached tool
list is non-empty and does not contain that name, `callTool` rejects
immediately with a tool-not-available error without contacting the
transport; if the cached tool list is empty, invocation proceeds to the
transport anyway. -/
theorem claim_C2_callTool_advisory_existence :
    ∀ (transport : String → Json → Except String Json)
      (tools : List ToolDesc) (tool : String) (args : Json),
      (tools ≠ [] → (∀ t ∈ tools, t.name ≠ tool) →
        callTool transport tools tool args =
          (.error ("Tool " ++ "\x27" ++ tool ++ "\x27" ++
            " is not available on the MCP server"), false)) ∧
      (callTool transport [] tool args).2 = true := by
  intro transport tools tool args
  constructor
  · intro hne habs
    have hany : tools.any (fun t => t.name = tool) = false := by
      rw [List.any_eq_false]
      intro t ht
      simpa using habs t ht
    have hlen : decide (tools.length > 0) = true := by
      simp [List.length_pos, hne]
    simp [callTool, hany, hlen]
  · cases h : transport tool args with
    | ok r => simp [callTool, h]
    | error e => simp [callTool, h]

/-- Closed witness for C2: a concrete two-element cache without the
requested tool rejects without contacting the transport, and an empty
cache lets the call through. -/
theorem claim_C2_witness :
    callTool (fun _ _ => .ok (.str "ran")) [⟨"read_file"⟩, ⟨"write_file"⟩]
        "missing_tool" (.obj []) =
      (.error ("Tool " ++ "\x27" ++ "missing_tool" ++ "\x27" ++
        " is not available on the MCP server"), false) ∧
    (callTool (fun _ _ => .ok (.str "ran")) [] "missing_tool" (.obj [])).2 =
      true := by
  constructor
  · exact (claim_C2_callTool_advisory_existence
      (fun _ _ => .ok (.str "ran")) [⟨"read_file"⟩, ⟨"write_file"⟩]
      "missing_tool" (.obj [])).1 (by simp) (by
        intro t ht
        simp only [List.mem_cons, List.mem_singleton] at ht
        rcases ht with rfl | rfl | h
        · simp
        · simp
        · simp at h)
  · exact (claim_C2_callTool_advisory_existence
      (fun _ _ => .ok (.str "ran")) [] "missing_tool" (.obj [])).2

/-- C8 counterexample.  A success (2xx) response whose body is a JSON
object with no `tools` array is accepted: the discovery step returns an
empty tool list instead of an error, refuting the malformed-body part
of the claim. -/
theorem claim_C8_counterexample :
    httpListToolsStep (.ok (.obj [])) = .ok (.arr []) := rfl

/-- C8 (amended).  Every non-success status and every network failure
yields an Error carrying the underlying cause; but a success response
whose body lacks a truthy `tools` field yields the empty tool list (and
only a `null` body raises, via the member-access TypeError). -/
theorem claim_C8_http_listTools_errors :
    ∀ (code : Nat) (text msg : String) (fs : List (String × Json)),
      httpListToolsStep (.status code text) =
        .error ("Request failed with status code " ++ natStr code) ∧
      httpListToolsStep (.network msg) = .error msg ∧
      (lookupField fs "tools" = none →
        httpListToolsStep (.ok (.obj fs)) = .ok (.arr [])) ∧
      httpListToolsStep (.ok .null) =
        .error "TypeError: Cannot read properties of null" := by
  intro code text msg fs
  refine ⟨rfl, rfl, ?_, rfl⟩
  intro hnone
  simp [httpListToolsStep, axiosGet, jsMember, jsMemberSafe, hnone, jsOr]

/-- Closed witness for C8 (amended): concrete status, network and
tools-less bodies. -/
theorem claim_C8_witness :
    httpListToolsStep (.status 500 "oops") =
      .error ("Request failed with status code " ++ natStr 500) ∧
    httpListToolsStep (.network "ECONNREFUSED") = .error "ECONNREFUSED" ∧
    httpListToolsStep (.ok (.obj [("data", .num 1)])) = .ok (.arr []) ∧
    httpListToolsStep (.ok .null) =
      .error "TypeError: Cannot read properties of null" := by
  obtain ⟨h1, h2, h3, h4⟩ :=
    claim_C8_http_listTools_errors 500 "oops" "ECONNREFUSED"
      [("data", .num 1)]
  exact ⟨h1, h2, h3 rfl, h4⟩

/-- C5.  Method negotiation tries the fixed ordered candidate lists one
by one: the first candidate that succeeds determines the result and
later candidates are not attempted; when every candidate fails, the
raised error is the last candidate's underlying error.  Stated for both
`tryDifferentMethods` (tool listing) and `tryDifferentToolCallMethods`
(tool invocation, whose last candidate uses the tool name itself as the
method). -/
theorem claim_C5_negotiation_first_success_wins :
    ∀ (server : String → Except String Json)
      (server2 : String → Json → Except String Json)
      (tool : String) (args : Json) (k : Nat) (mk : String)
      (pk : String × Json) (r : Json),
      ((∀ m ∈ methodVariations.take k, isErr (server m) = true) →
        methodVariations.get? k = some mk → server mk = .ok r →
        tryDifferentMethods server = (.ok r, methodVariations.take (k + 1))) ∧
      ((∀ m ∈ methodVariations, isErr (server m) = true) →
        tryDifferentMethods server =
          (.error (errOf (server "list_mcp_tools")), methodVariations)) ∧
      ((∀ p ∈ (toolCallVariations tool args).take k,
          isErr (server2 p.1 p.2) = true) →
        (toolCallVariations tool args).get? k = some pk →
        server2 pk.1 pk.2 = .ok r →
        tryDifferentToolCallMethods server2 tool args =
          (.ok r, ((toolCallVariations tool args).take (k + 1)).map
            (fun p => p.1))) ∧
      ((∀ p ∈ toolCallVariations tool args, isErr (server2 p.1 p.2) = true) →
        tryDifferentToolCallMethods server2 tool args =
          (.error (errOf (server2 tool args)),
            (toolCallVariations tool args).map (fun p => p.1))) := by
  intro server server2 tool args k mk pk r
  refine ⟨?_, ?_, ?_, ?_⟩
  · intro hall hget hok
    exact negotiateList_first_success server k methodVariations none mk r
      hall hget hok
  · intro hall
    have h := negotiateList_all_err server methodVariations none hall
    simpa [methodVariations] using h
  · intro hall hget hok
    exact negotiatePairs_first_success server2 k (toolCallVariations tool args)
      none pk r hall hget hok
  · intro hall
    have h := negotiatePairs_all_err server2 (toolCallVariations tool args)
      none hall
    simpa [toolCallVariations] using h

/-- Closed witness for C5: a server succeeding on the first candidate of
each list. -/
theorem claim_C5_witness :
    tryDifferentMethods (fun _ => .ok (.str "ok")) =
      (.ok (.str "ok"), ["tools/list"]) ∧
    tryDifferentToolCallMethods (fun _ _ => .ok (.str "r")) "mytool"
        (.obj []) = (.ok (.str "r"), ["tools/call"]) := by
  constructor
  · exact (claim_C5_negotiation_first_success_wins
      (fun _ => .ok (.str "ok")) (fun _ _ => .ok (.str "r")) "mytool"
      (.obj []) 0 "tools/list"
      ("tools/call", .obj [("name", .str "mytool"), ("arguments", .obj [])])
      (.str "ok")).1 (by simp [methodVariations]) rfl rfl
  · exact (claim_C5_negotiation_first_success_wins
      (fun _ => .ok (.str "okx")) (fun _ _ => .ok (.str "r")) "mytool"
      (.obj []) 0 "tools/list"
      ("tools/call", .obj [("name", .str "mytool"), ("arguments", .obj [])])
      (.str "r")).2.2.1 (by simp [toolCallVariations]) rfl rfl

/-- C3.  `loadTools(retries, delay)` against a transport failing every
attempt performs exactly `retries + 1` attempts, waits
`delay*1, ..., delay*retries` between consecutive attempts, leaves the
loaded flag false and raises an error reporting the total attempt count
and the last underlying cause; against a transport succeeding at the
first attempt index `k`, it stops there, caches the returned tools and
sets the loaded flag. -/
theorem claim_C3_loadTools_retries :
    ∀ (f : Nat → Except String Json) (retries delay : Nat),
      ((∀ i, i ≤ retries → isErr (attemptTools f i) = true) →
        loadTools f retries delay =
          ⟨.error ("Failed to load tools from MCP server after " ++
              natStr (retries + 1) ++ " attempts: " ++
              errOf (attemptTools f retries)),
            false, .arr [], retries + 1,
            (List.range retries).map (fun j => delay * (j + 1))⟩) ∧
      (∀ k t, (∀ i, i < k → isErr (attemptTools f i) = true) →
        attemptTools f k = .ok t → k ≤ retries →
        loadTools f retries delay =
          ⟨.ok (), true, t, k + 1,
            (List.range k).map (fun j => delay * (j + 1))⟩) := by
  intro f retries delay
  constructor
  · intro hall
    have h := loadAttempts_all_err f delay retries 0
      (fun i h1 h2 => hall i (by omega))
    simp only [loadTools, h]
    simp
  · intro k t hall hok hle
    have h := loadAttempts_first_success f delay k 0 (retries + 1) t
      (fun i h1 h2 => hall i (by omega)) (by simpa using hok) (by omega)
    simp only [loadTools, h]
    simp

/-- Closed witness for C3: an always-failing transport with retries=2,
delay=100 makes exactly 3 attempts with waits [100, 200]; a transport
failing once then succeeding stops after 2 attempts with the flag set. -/
theorem claim_C3_witness :
    loadTools (fun _ => .error "ECONNREFUSED") 2 100 =
      ⟨.error ("Failed to load tools from MCP server after " ++
          natStr 3 ++ " attempts: " ++
          errOf (attemptTools (fun _ => .error "ECONNREFUSED") 2)),
        false, .arr [], 3,
        (List.range 2).map (fun j => 100 * (j + 1))⟩ ∧
    loadTools
        (fun i => if i = 0 then .error "ECONNREFUSED"
          else .ok (.obj [("tools", .arr [.str "t"])])) 2 100 =
      ⟨.ok (), true, .arr [.str "t"], 2,
        (List.range 1).map (fun j => 100 * (j + 1))⟩ := by
  constructor
  · exact (claim_C3_loadTools_retries (fun _ => .error "ECONNREFUSED")
      2 100).1 (by decide)
  · exact (claim_C3_loadTools_retries
      (fun i => if i = 0 then .error "ECONNREFUSED"
        else .ok (.obj [("tools", .arr [.str "t"])])) 2 100).2 1
      (.arr [.str "t"]) (by decide) (by rfl) (by decide)

/-! ## Scanner lemmas -/

theorem matchFence_none_of_ne_bt {c : Char} (cs : List Char)
    (h : c ≠ bt) : matchFence (c :: cs) = none := by
  cases cs with
  | nil => rfl
  | cons c2 cs2 =>
      cases cs2 with
      | nil => rfl
      | cons c3 rest => simp [matchFence, h]

theorem findBlocksF_btFree (t : List Char) (h : btFree t = true) :
    ∀ fuel, findBlocksF fuel t = [] := by
  induction t with
  | nil => intro fuel; cases fuel <;> rfl
  | cons c cs ih =>
      intro fuel
      simp only [btFree, List.all_cons, Bool.and_eq_true] at h
      cases fuel with
      | zero => rfl
      | succ fuel =>
          rw [findBlocksF, matchFence_none_of_ne_bt cs (by simpa using h.1)]
          exact ih (by simpa [btFree] using h.2) fuel

theorem findBlocksF_append_btFree (pre : List Char)
    (h : btFree pre = true) :
    ∀ fuel t, findBlocksF (pre.length + fuel) (pre ++ t) =
      findBlocksF fuel t := by
  induction pre with
  | nil => intro fuel t; simp
  | cons p pre2 ih =>
      intro fuel t
      simp only [btFree, List.all_cons, Bool.and_eq_true] at h
      have hlen : (p :: pre2).length + fuel = (pre2.length + fuel) + 1 := by
        simp only [List.length_cons]
        omega
      rw [hlen, List.cons_append, findBlocksF,
        matchFence_none_of_ne_bt _ (by simpa using h.1)]
      exact ih (by simpa [btFree] using h.2) fuel t

theorem findSubIdx_cons_neg {c : Char} {t : List Char}
    (h : closeFence.isPrefixOf (c :: t) = false) :
    findSubIdx (c :: t) = (findSubIdx t).map (fun i => i + 1) := by
  simp [findSubIdx, h]

theorem findSubIdx_cons_pos {c : Char} {t : List Char}
    (h : closeFence.isPrefixOf (c :: t) = true) :
    findSubIdx (c :: t) = some 0 := by
  simp [findSubIdx, h]

theorem bts_not_prefix (w : List Char) (z : List Char)
    (hw : btFree w = true) :
    [bt, bt, bt].isPrefixOf (w ++ '\n' :: z) = false := by
  cases w with
  | nil =>
      have h1 : (bt == '\n') = false := by decide
      simp [List.isPrefixOf, h1]
  | cons c w2 =>
      simp only [btFree, List.all_cons, Bool.and_eq_true] at hw
      have hc : c ≠ bt := by simpa using hw.1
      have h1 : (bt == c) = false := by
        rw [beq_eq_false_iff_ne]
        exact fun h => hc h.symm
      simp [List.cons_append, List.isPrefixOf, h1]

theorem findSubIdx_closer (b : List Char) (z : List Char)
    (hb : btFree b = true) :
    findSubIdx (b ++ closeFence ++ z) = some b.length := by
  induction b with
  | nil =>
      have hpre : closeFence.isPrefixOf (closeFence ++ z) = true := by
        rw [List.isPrefixOf_iff_prefix]
        exact List.prefix_append _ _
      simp only [List.nil_append] at hpre ⊢
      have hshape : closeFence ++ z =
          '\n' :: (bt :: bt :: bt :: z) := by simp [closeFence]
      rw [hshape] at hpre ⊢
      rw [findSubIdx_cons_pos hpre]
      rfl
  | cons c b2 ih =>
      simp only [btFree, List.all_cons, Bool.and_eq_true] at hb
      have hrest : b2 ++ closeFence ++ z = b2 ++ '\n' ::
          (bt :: bt :: bt :: z) := by
        simp [closeFence]
      have hnp : closeFence.isPrefixOf
          (c :: (b2 ++ closeFence ++ z)) = false := by
        show (('\n' == c) &&
          [bt, bt, bt].isPrefixOf (b2 ++ closeFence ++ z)) = false
        rw [hrest, bts_not_prefix b2 (bt :: bt :: bt :: z)
          (by simpa [btFree] using hb.2)]
        simp
      rw [show (c :: b2) ++ closeFence ++ z =
        c :: (b2 ++ closeFence ++ z) from by simp]
      rw [findSubIdx_cons_neg hnp, ih (by simpa [btFree] using hb.2)]
      simp

theorem wsRunLen_cons_nonWs {c : Char} (x : List Char)
    (h : ¬isJsWs c = true) : wsRunLen (c :: x) = 0 := by
  simp [wsRunLen, h]

theorem matchFence_fence (b t : List Char) (hb : goodBody b = true) :
    matchFence (fenceBlock b ++ t) = some ((fenceBlock b).length, b) := by
  simp only [goodBody, Bool.and_eq_true] at hb
  obtain ⟨hhd, hbt⟩ := hb
  obtain ⟨c0, b2, rfl⟩ : ∃ c0 b2, b = c0 :: b2 := by
    cases b with
    | nil => simp at hhd
    | cons c0 b2 => exact ⟨c0, b2, rfl⟩
  have hc0 : ¬isJsWs c0 = true := by
    simp only [List.head?] at hhd
    simpa using hhd
  have hshape : fenceBlock (c0 :: b2) ++ t =
      bt :: bt :: bt :: 'j' :: 's' :: 'o' :: 'n' :: '\n' ::
        ((c0 :: b2) ++ closeFence ++ t) := by
    simp [fenceBlock, fenceOpen]
  have hrun : wsRunLen ('\n' :: ((c0 :: b2) ++ closeFence ++ t)) = 1 := by
    rw [wsRunLen]
    simp only [List.cons_append]
    rw [wsRunLen_cons_nonWs _ hc0]
    simp [isJsWs]
  have hpos : nlPositionsDesc ('\n' :: ((c0 :: b2) ++ closeFence ++ t)) =
      [0] := by
    rw [nlPositionsDesc, hrun]
    simp [List.range_succ]
  have hsub : findSubIdx ((c0 :: b2) ++ closeFence ++ t) =
      some (c0 :: b2).length := findSubIdx_closer _ _ hbt
  have htake : ((c0 :: b2) ++ closeFence ++ t).take
      (c0 :: b2).length = c0 :: b2 := by
    rw [List.append_assoc]
    exact List.take_left _ _
  have htail : matchTail ('\n' :: ((c0 :: b2) ++ closeFence ++ t)) =
      some ((c0 :: b2).length + 5, c0 :: b2) := by
    rw [matchTail, hpos, tryNl]
    simp only [List.drop_succ_cons, List.drop_zero, hsub, htake]
    simp only [Option.some.injEq, Prod.mk.injEq]
    exact ⟨by omega, trivial⟩
  rw [hshape]
  show Option.map _ (matchTail _) = _
  rw [htail]
  show some (7 + ((c0 :: b2).length + 5), c0 :: b2) = _
  have hfl : (fenceBlock (c0 :: b2)).length = (c0 :: b2).length + 12 := by
    simp only [fenceBlock, fenceOpen, closeFence, List.length_append,
      List.length_cons, List.length_nil]
    omega
  rw [hfl]
  simp only [Option.some.injEq, Prod.mk.injEq]
  exact ⟨by omega, trivial⟩

theorem findBlocksF_fence (b t : List Char) (fuel : Nat)
    (hb : goodBody b = true) (hf : 1 ≤ fuel) :
    findBlocksF fuel (fenceBlock b ++ t) =
      (fenceBlock b, b) :: findBlocksF (fuel - 1) t := by
  obtain ⟨fuel2, rfl⟩ : ∃ f2, fuel = f2 + 1 := ⟨fuel - 1, by omega⟩
  obtain ⟨c, cs, hcs⟩ : ∃ c cs, fenceBlock b ++ t = c :: cs := by
    cases hfb : fenceBlock b ++ t with
    | nil => simp [fenceBlock, fenceOpen] at hfb
    | cons c cs => exact ⟨c, cs, rfl⟩
  have hm : matchFence (c :: cs) = some ((fenceBlock b).length, b) := by
    rw [← hcs]
    exact matchFence_fence b t hb
  have hlen1 : 1 ≤ (fenceBlock b).length := by
    simp only [fenceBlock, fenceOpen, closeFence, List.length_append,
      List.length_cons, List.length_nil]
    omega
  have htk : (c :: cs).take (fenceBlock b).length = fenceBlock b := by
    rw [← hcs]
    exact List.take_left _ _
  have hdr : cs.drop ((fenceBlock b).length - 1) = t := by
    have hwhole : (c :: cs).drop (fenceBlock b).length = t := by
      rw [← hcs]
      exact List.drop_left _ _
    rw [show (fenceBlock b).length = ((fenceBlock b).length - 1) + 1
      from by omega, List.drop_succ_cons] at hwhole
    exact hwhole
  rw [hcs, findBlocksF, hm]
  show ((c :: cs).take (fenceBlock b).length, b) ::
      findBlocksF fuel2 (cs.drop ((fenceBlock b).length - 1)) = _
  rw [htk, hdr]
  simp

theorem fenceBlock_length_pos (b : List Char) :
    1 ≤ (fenceBlock b).length := by
  simp only [fenceBlock, fenceOpen, closeFence, List.length_append,
    List.length_cons, List.length_nil]
  omega

theorem findBlocks_single (pre b post : List Char)
    (hpre : btFree pre = true) (hpost : btFree post = true)
    (hb : goodBody b = true) :
    findBlocks (pre ++ fenceBlock b ++ post) = [(fenceBlock b, b)] := by
  rw [findBlocks]
  have hlen : (pre ++ fenceBlock b ++ post).length =
      pre.length + ((fenceBlock b).length + post.length) := by
    simp only [List.length_append]
    omega
  rw [hlen, List.append_assoc,
    findBlocksF_append_btFree pre hpre _ _,
    findBlocksF_fence b post _ hb
      (by have := fenceBlock_length_pos b; omega)]
  rw [findBlocksF_btFree post hpost]

theorem findBlocks_double (pre b1 mid b2 post : List Char)
    (hpre : btFree pre = true) (hmid : btFree mid = true)
    (hpost : btFree post = true)
    (hb1 : goodBody b1 = true) (hb2 : goodBody b2 = true) :
    findBlocks (pre ++ fenceBlock b1 ++ mid ++ fenceBlock b2 ++ post) =
      [(fenceBlock b1, b1), (fenceBlock b2, b2)] := by
  have h1 := fenceBlock_length_pos b1
  have h2 := fenceBlock_length_pos b2
  rw [findBlocks]
  have hlen : (pre ++ fenceBlock b1 ++ mid ++ fenceBlock b2 ++
      post).length = pre.length + ((fenceBlock b1).length +
        (mid.length + ((fenceBlock b2).length + post.length))) := by
    simp only [List.length_append]
    omega
  rw [hlen]
  rw [show pre ++ fenceBlock b1 ++ mid ++ fenceBlock b2 ++ post =
    pre ++ (fenceBlock b1 ++ (mid ++ (fenceBlock b2 ++ post))) from by
      simp [List.append_assoc]]
  rw [findBlocksF_append_btFree pre hpre _ _]
  rw [findBlocksF_fence b1 _ _ hb1 (by omega)]
  rw [show (fenceBlock b1).length +
      (mid.length + ((fenceBlock b2).length + post.length)) - 1 =
      mid.length + (((fenceBlock b1).length - 1) +
        ((fenceBlock b2).length + post.length)) from by omega]
  rw [findBlocksF_append_btFree mid hmid _ _]
  rw [findBlocksF_fence b2 _ _ hb2 (by omega)]
  rw [findBlocksF_btFree post hpost]

/-! ## Repair-pipeline identity lemmas -/

theorem noAdj_cons (a c : Char) (cs : List Char) :
    noAdj a (c :: cs) = ((match cs.head? with
      | some d => !(c = a && d = a)
      | none => true) && noAdj a cs) := by
  cases cs with
  | nil => simp [noAdj]
  | cons d cs2 => simp [noAdj, List.head?]

theorem noAdj_tail {a c : Char} {cs : List Char}
    (h : noAdj a (c :: cs) = true) : noAdj a cs = true := by
  rw [noAdj_cons, Bool.and_eq_true] at h
  exact h.2

theorem noAdj_suffix {a : Char} {s t : List Char}
    (h : noAdj a s = true) (hsuf : t <:+ s) : noAdj a t = true := by
  obtain ⟨u, rfl⟩ := hsuf
  induction u with
  | nil => simpa using h
  | cons c u2 ih => exact ih (noAdj_tail h)

theorem regexScanF_id
    (head : Char → List Char → Option (List Char × Nat)) :
    ∀ (fuel : Nat) (s : List Char),
      (∀ c cs, (c :: cs) <:+ s → head c cs = none) →
      regexScanF head fuel s = s := by
  intro fuel
  induction fuel with
  | zero => intro s _; cases s <;> rfl
  | succ fuel ih =>
      intro s h
      cases s with
      | nil => rfl
      | cons c cs =>
          rw [regexScanF, h c cs (List.suffix_refl _)]
          rw [ih cs (fun d ds hs => h d ds (hs.trans (List.suffix_cons _ _)))]

theorem chFree_of_noAdj_impossible : True := trivial

theorem r1head_none {c : Char} {cs : List Char}
    (h : noAdj lb (c :: cs) = true) : r1head c cs = none := by
  by_cases hc : c = lb
  · subst hc
    cases cs with
    | nil => rfl
    | cons c2 cs2 =>
        rw [noAdj] at h
        have hc2 : ¬(c2 = lb) := by
          intro h2
          subst h2
          simp at h
        simp [r1head, hc2]
  · simp [r1head, hc]

theorem r5head_none {c : Char} {cs : List Char}
    (h : noAdj lb (c :: cs) = true) : r5head c cs = none := by
  by_cases hc : c = lb
  · subst hc
    cases cs with
    | nil => rfl
    | cons c2 cs2 =>
        rw [noAdj] at h
        have hc2 : ¬(c2 = lb) := by
          intro h2
          subst h2
          simp at h
        simp [r5head, hc2]
  · simp [r5head, hc]

theorem noAdj_drop {a : Char} {s : List Char} (n : Nat)
    (h : noAdj a s = true) : noAdj a (s.drop n) = true :=
  noAdj_suffix h (List.drop_suffix _ _)

theorem r2head_none {c : Char} {cs : List Char}
    (h : noAdj lb cs = true) : r2head c cs = none := by
  rw [r2head]
  by_cases hc : c = ':'
  · rw [if_pos hc]
    have hd := noAdj_drop (wsRunLen cs) h
    rcases hcs : cs.drop (wsRunLen cs) with _ | ⟨d1, _ | ⟨d2, rest2⟩⟩
    · rfl
    · rfl
    · rw [hcs] at hd
      show (if (d1 = lb && d2 = lb) = true then _ else none) = none
      rw [noAdj] at hd
      rw [if_neg]
      intro hcon
      rw [hcon] at hd
      simp at hd
  · rw [if_neg hc]

theorem r3head_none {c : Char} {cs : List Char}
    (h : noAdj rb (c :: cs) = true) : r3head c cs = none := by
  by_cases hc : c = rb
  · subst hc
    cases cs with
    | nil => rfl
    | cons c2 cs2 =>
        rw [noAdj] at h
        have hc2 : ¬(c2 = rb) := by
          intro h2
          subst h2
          simp at h
        cases cs2 with
        | nil => simp [r3head, hc2]
        | cons c3 cs3 => simp [r3head, hc2]
  · simp [r3head, hc]

theorem r4head_none {c : Char} {cs : List Char}
    (h : noAdj rb (c :: cs) = true) : r4head c cs = none := by
  by_cases hc : c = rb
  · subst hc
    cases cs with
    | nil => rfl
    | cons c2 cs2 =>
        rw [noAdj] at h
        have hc2 : ¬(c2 = rb) := by
          intro h2
          subst h2
          simp at h
        simp [r4head, hc2]
  · simp [r4head, hc]

theorem r6head_none {c : Char} {cs : List Char}
    (h : noAdj rb (c :: cs) = true) : r6head c cs = none := by
  by_cases hc : c = rb
  · subst hc
    cases cs with
    | nil => rfl
    | cons c2 cs2 =>
        rw [noAdj] at h
        have hc2 : ¬(c2 = rb) := by
          intro h2
          subst h2
          simp at h
        simp [r6head, hc2]
  · simp [r6head, hc]

theorem replaceR1_id {s : List Char} (h : noAdj lb s = true) :
    replaceR1 s = s :=
  regexScanF_id r1head s.length s
    (fun _ _ hs => r1head_none (noAdj_suffix h hs))

theorem replaceR2_id {s : List Char} (h : noAdj lb s = true) :
    replaceR2 s = s :=
  regexScanF_id r2head s.length s
    (fun _ _ hs => r2head_none (noAdj_tail (noAdj_suffix h hs)))

theorem replaceR3_id {s : List Char} (h : noAdj rb s = true) :
    replaceR3 s = s :=
  regexScanF_id r3head s.length s
    (fun _ _ hs => r3head_none (noAdj_suffix h hs))

theorem replaceR4_id {s : List Char} (h : noAdj rb s = true) :
    replaceR4 s = s :=
  regexScanF_id r4head s.length s
    (fun _ _ hs => r4head_none (noAdj_suffix h hs))

theorem replaceR5_id {s : List Char} (h : noAdj lb s = true) :
    replaceR5 s = s :=
  regexScanF_id r5head s.length s
    (fun _ _ hs => r5head_none (noAdj_suffix h hs))

theorem replaceR6_id {s : List Char} (h : noAdj rb s = true) :
    replaceR6 s = s :=
  regexScanF_id r6head s.length s
    (fun _ _ hs => r6head_none (noAdj_suffix h hs))

/-! ## Segment lemmas for the rendered call families -/

theorem braceFree3_append {x y : List Char} (hx : braceFree3 x = true)
    (hy : braceFree3 y = true) : braceFree3 (x ++ y) = true := by
  simp only [braceFree3, List.all_append, Bool.and_eq_true] at *
  exact ⟨hx, hy⟩

theorem braceFree3_cons {c : Char} {x : List Char}
    (hc : (c ≠ lb && c ≠ rb && c ≠ bt) = true)
    (hx : braceFree3 x = true) : braceFree3 (c :: x) = true := by
  simp only [braceFree3, List.all_cons, Bool.and_eq_true] at *
  exact ⟨hc, hx⟩

theorem braceFree3_chFree_lb {x : List Char} (h : braceFree3 x = true) :
    chFree lb x = true := by
  simp only [braceFree3, chFree, List.all_eq_true, Bool.and_eq_true,
    decide_eq_true_eq] at *
  exact fun c hc => ((h c hc).1).1

theorem braceFree3_chFree_rb {x : List Char} (h : braceFree3 x = true) :
    chFree rb x = true := by
  simp only [braceFree3, chFree, List.all_eq_true, Bool.and_eq_true,
    decide_eq_true_eq] at *
  exact fun c hc => ((h c hc).1).2

theorem braceFree3_btFree {x : List Char} (h : braceFree3 x = true) :
    btFree x = true := by
  simp only [braceFree3, btFree, List.all_eq_true, Bool.and_eq_true,
    decide_eq_true_eq] at *
  exact fun c hc => (h c hc).2

theorem chFree_head {a : Char} {s : List Char} (h : chFree a s = true) :
    s.head? ≠ some a := by
  cases s with
  | nil => simp
  | cons c cs =>
      simp only [chFree, List.all_cons, Bool.and_eq_true,
        decide_eq_true_eq] at h
      simpa using fun hc => h.1 hc

theorem chFree_getLast {a : Char} {s : List Char}
    (h : chFree a s = true) : s.getLast? ≠ some a := by
  intro hl
  have hin : a ∈ s.getLast? := by rw [hl]; rfl
  obtain ⟨hne, heq⟩ := List.mem_getLast?_eq_getLast hin
  have hmem : a ∈ s := heq ▸ List.getLast_mem hne
  simp only [chFree, List.all_eq_true, decide_eq_true_eq] at h
  exact h a hmem rfl

theorem chFree_noAdj {a : Char} {s : List Char}
    (h : chFree a s = true) : noAdj a s = true := by
  induction s with
  | nil => rfl
  | cons c cs ih =>
      simp only [chFree, List.all_cons, Bool.and_eq_true] at h
      rw [noAdj_cons]
      refine (Bool.and_eq_true _ _).mpr ⟨?_, ih h.2⟩
      have hc : c ≠ a := by simpa using h.1
      cases cs.head? with
      | none => rfl
      | some d => simp [hc]

theorem chFree_count {a : Char} {s : List Char}
    (h : chFree a s = true) : s.count a = 0 := by
  rw [List.count_eq_zero]
  intro hmem
  simp only [chFree, List.all_eq_true, decide_eq_true_eq] at h
  exact h a hmem rfl

theorem noAdj_append {a : Char} :
    ∀ (x y : List Char), noAdj a x = true → noAdj a y = true →
      ¬(x.getLast? = some a ∧ y.head? = some a) →
      noAdj a (x ++ y) = true := by
  intro x
  induction x with
  | nil => intro y _ hy _; simpa using hy
  | cons c x2 ih =>
      intro y hx hy hb
      rw [List.cons_append, noAdj_cons]
      refine (Bool.and_eq_true _ _).mpr ⟨?_, ?_⟩
      · cases hx2 : x2 with
        | nil =>
            simp only [hx2, List.nil_append]
            cases hhy : y.head? with
            | none => rfl
            | some d =>
                have hnot : ¬(c = a ∧ d = a) := by
                  rintro ⟨h1, h2⟩
                  exact hb ⟨by rw [hx2]; simp [h1], by rw [hhy, h2]⟩
                simp only [Bool.not_eq_true', Bool.and_eq_false_iff,
                  decide_eq_false_iff_not]
                by_cases h1 : c = a
                · exact Or.inr (fun h2 => hnot ⟨h1, h2⟩)
                · exact Or.inl h1
        | cons c2 x3 =>
            rw [hx2] at hx
            rw [noAdj] at hx
            have hpair := ((Bool.and_eq_true _ _).mp hx).1
            simp only [hx2, List.cons_append, List.head?_cons]
            simpa using hpair
      · apply ih
        · exact noAdj_tail hx
        · exact hy
        · intro ⟨h1, h2⟩
          apply hb
          refine ⟨?_, h2⟩
          cases hx2 : x2 with
          | nil => rw [hx2] at h1; simp at h1
          | cons c2 x3 =>
              rw [hx2] at h1
              rw [List.getLast?_cons_cons]
              exact h1

theorem noAdj_cons_build {a c : Char} {y : List Char}
    (hca : ¬(c = a ∧ y.head? = some a)) (hy : noAdj a y = true) :
    noAdj a (c :: y) = true := by
  rw [noAdj_cons]
  refine (Bool.and_eq_true _ _).mpr ⟨?_, hy⟩
  cases hhy : y.head? with
  | none => rfl
  | some d =>
      by_cases hc : c = a
      · by_cases hd : d = a
        · exact absurd ⟨hc, by rw [hhy, hd]⟩ hca
        · simp [hd]
      · simp [hc]

theorem isDigitCh_braceFree {c : Char} (h : isDigitCh c = true) :
    (c ≠ lb && c ≠ rb && c ≠ bt) = true := by
  simp only [isDigitCh, Bool.and_eq_true, decide_eq_true_eq] at h
  simp only [Bool.and_eq_true, decide_eq_true_eq]
  refine ⟨⟨?_, ?_⟩, ?_⟩
  · intro hc; rw [hc] at h; revert h; decide
  · intro hc; rw [hc] at h; revert h; decide
  · intro hc; rw [hc] at h; revert h; decide

theorem plainCh_braceFree {c : Char} (h : plainCh c = true) :
    (c ≠ lb && c ≠ rb && c ≠ bt) = true := by
  simp only [plainCh, Bool.and_eq_true, decide_eq_true_eq] at h
  simp only [Bool.and_eq_true, decide_eq_true_eq]
  exact ⟨⟨h.1.1.2, h.1.2⟩, h.2⟩

theorem braceFree3_plainStr {t : String} (h : plainStr t = true) :
    braceFree3 t.data = true := by
  simp only [plainStr, List.all_eq_true] at h
  simp only [braceFree3, List.all_eq_true]
  exact fun c hc => plainCh_braceFree (h c hc)

theorem natDigits_all_digits (n : Nat) :
    ∀ c ∈ natDigits n, isDigitCh c = true := by
  induction n using Nat.strong_induction_on with
  | _ n ih =>
      rw [natDigits]
      split
      next h =>
        intro c hc
        simp only [List.mem_singleton] at hc
        subst hc
        rcases n with _|_|_|_|_|_|_|_|_|_ <;> first | decide | rfl
      next h =>
        intro c hc
        rw [List.mem_append] at hc
        rcases hc with h1 | h1
        · exact ih (n / 10) (Nat.div_lt_self (by omega) (by omega)) c h1
        · simp only [List.mem_singleton] at h1
          subst h1
          have h10 : n % 10 < 10 := Nat.mod_lt _ (by omega)
          generalize n % 10 = d at h10 ⊢
          interval_cases d <;> decide

theorem braceFree3_natDigits (n : Nat) :
    braceFree3 (natDigits n) = true := by
  simp only [braceFree3, List.all_eq_true]
  exact fun c hc => isDigitCh_braceFree (natDigits_all_digits n c hc)

theorem braceFree3_intStr (n : Int) : braceFree3 (intStr n).data = true := by
  rw [intStr]
  split
  · rw [String.data_append]
    apply braceFree3_append
    · decide
    · exact braceFree3_natDigits _
  · exact braceFree3_natDigits _

theorem braceFree3_renderAtom {a : FlatAtom} (h : plainAtom a = true) :
    braceFree3 (renderAtom a) = true := by
  cases a with
  | str t =>
      simp only [renderAtom]
      apply braceFree3_cons
      · decide
      · apply braceFree3_append (braceFree3_plainStr h)
        decide
  | num n => exact braceFree3_intStr n
  | bool b => cases b <;> decide
  | null => decide

theorem braceFree3_renderEntries :
    ∀ (P : List (String × FlatAtom)),
      (P.all (fun p => plainStr p.1 && plainAtom p.2)) = true →
      braceFree3 (renderEntries P) = true := by
  intro P
  induction P with
  | nil => intro _; rfl
  | cons p rest ih =>
      intro h
      simp only [List.all_cons, Bool.and_eq_true] at h
      obtain ⟨⟨hk, hv⟩, hrest⟩ := h
      obtain ⟨k, v⟩ := p
      cases rest with
      | nil =>
          show braceFree3 ((qu :: k.data) ++
            (qu :: ':' :: renderAtom v)) = true
          apply braceFree3_append
          · apply braceFree3_cons
            · decide
            · exact braceFree3_plainStr hk
          · apply braceFree3_cons
            · decide
            · apply braceFree3_cons
              · decide
              · exact braceFree3_renderAtom hv
      | cons q rest2 =>
          show braceFree3 (((qu :: k.data) ++
            (qu :: ':' :: renderAtom v)) ++
            (',' :: renderEntries (q :: rest2))) = true
          apply braceFree3_append
          · apply braceFree3_append
            · apply braceFree3_cons
              · decide
              · exact braceFree3_plainStr hk
            · apply braceFree3_cons
              · decide
              · apply braceFree3_cons
                · decide
                · exact braceFree3_renderAtom hv
          · apply braceFree3_cons
            · decide
            · exact ih (by simpa [List.all_cons] using hrest)

theorem braceFree3_stdPrefix {T : String} (h : plainStr T = true) :
    braceFree3 (stdPrefix T) = true := by
  show braceFree3 ((((qu :: "tool".data) ++
    (qu :: ':' :: qu :: T.data)) ++
    (qu :: ',' :: qu :: "parameters".data)) ++ (qu :: ':' :: [])) = true
  apply braceFree3_append
  · apply braceFree3_append
    · apply braceFree3_append
      · decide
      · apply braceFree3_cons
        · decide
        · apply braceFree3_cons
          · decide
          · apply braceFree3_cons
            · decide
            · exact braceFree3_plainStr h
    · decide
  · decide

/-! ## List and character utilities for the rendered-call proofs -/

theorem head?_append_left {A : Type} {x : List A} {c : A} (y : List A)
    (h : x.head? = some c) : (x ++ y).head? = some c := by
  cases x with
  | nil => simp at h
  | cons a t => simpa using h

theorem getLast?_cons_ne_nil {A : Type} (a : A) {l : List A}
    (h : l ≠ []) : (a :: l).getLast? = l.getLast? := by
  cases l with
  | nil => exact absurd rfl h
  | cons b t => exact List.getLast?_cons_cons

theorem skipWs_head {s : List Char} {c : Char} (h : s.head? = some c)
    (hc : isJsonWs c = false) : skipWs s = s := by
  cases s with
  | nil => simp at h
  | cons a t =>
      simp only [List.head?_cons, Option.some.injEq] at h
      subst h
      simp [skipWs, List.dropWhile_cons, hc]

theorem chFree_cons {a c : Char} {x : List Char} (hc : c ≠ a)
    (hx : chFree a x = true) : chFree a (c :: x) = true := by
  simp only [chFree, List.all_cons, Bool.and_eq_true, decide_eq_true_eq] at *
  exact ⟨hc, hx⟩

theorem chFree_append {a : Char} {x y : List Char}
    (hx : chFree a x = true) (hy : chFree a y = true) :
    chFree a (x ++ y) = true := by
  simp only [chFree, List.all_append, Bool.and_eq_true] at *
  exact ⟨hx, hy⟩

theorem chFree_mem {a : Char} {x : List Char} (h : chFree a x = true) :
    ∀ c ∈ x, c ≠ a := by
  simp only [chFree, List.all_eq_true, decide_eq_true_eq] at h
  exact h

/-! ## Parser correctness: string bodies and numbers -/

theorem parseStrBodyF_succ (fuel : Nat) (c : Char) (rest : List Char) :
    parseStrBodyF (fuel + 1) (c :: rest) =
      (if c = qu then some ([], rest)
       else if c = bsl then
        (match rest with
         | e :: r2 =>
            (match unescape e with
             | some ch =>
                (parseStrBodyF fuel r2).map (fun p => (ch :: p.1, p.2))
             | none => none)
         | [] => none)
       else if c.toNat < 32 then none
       else (parseStrBodyF fuel rest).map (fun p => (c :: p.1, p.2))) :=
  rfl

theorem parseStrBodyF_plain :
    ∀ (w : List Char) (fuel : Nat) (z : List Char),
      (∀ c ∈ w, plainCh c = true) → w.length + 1 ≤ fuel →
      parseStrBodyF fuel (w ++ qu :: z) = some (w, z) := by
  intro w
  induction w with
  | nil =>
      intro fuel z _ hf
      obtain ⟨f, rfl⟩ : ∃ f, fuel = f + 1 := ⟨fuel - 1, by omega⟩
      simp [parseStrBodyF_succ]
  | cons c w2 ih =>
      intro fuel z hw hf
      obtain ⟨f, rfl⟩ : ∃ f, fuel = f + 1 := ⟨fuel - 1, by omega⟩
      have hc : plainCh c = true := hw c (List.mem_cons_self c w2)
      simp only [plainCh, Bool.and_eq_true, decide_eq_true_eq] at hc
      have h1 : ¬(c = qu) := hc.1.1.1.1.2
      have h2 : ¬(c = bsl) := hc.1.1.1.2
      have h3 : ¬(c.toNat < 32) := by
        have := hc.1.1.1.1.1
        omega
      rw [List.cons_append, parseStrBodyF_succ]
      rw [if_neg h1, if_neg h2, if_neg h3]
      rw [ih f z (fun d hd => hw d (List.mem_cons_of_mem c hd))
        (by simp only [List.length_cons] at hf; omega)]
      rfl

theorem parseStrBody_plain (w z : List Char)
    (hw : ∀ c ∈ w, plainCh c = true) :
    parseStrBody (w ++ qu :: z) = some (w, z) := by
  rw [parseStrBody]
  exact parseStrBodyF_plain w _ z hw
    (by simp only [List.length_append, List.length_cons]; omega)

theorem natDigits_ne_nil (n : Nat) : natDigits n ≠ [] := by
  rw [natDigits]
  split
  · simp
  · simp

theorem natDigits_head_pos (n : Nat) (h : 1 ≤ n) :
    ∀ c, (natDigits n).head? = some c → c ≠ '0' := by
  induction n using Nat.strong_induction_on with
  | _ n ih =>
      intro c hc
      rw [natDigits] at hc
      split at hc
      next hn =>
        simp only [List.head?_cons, Option.some.injEq] at hc
        subst hc
        interval_cases n <;> decide
      next hn =>
        obtain ⟨d, t, hq⟩ : ∃ d t, natDigits (n / 10) = d :: t := by
          cases hq : natDigits (n / 10) with
          | nil => exact absurd hq (natDigits_ne_nil _)
          | cons d t => exact ⟨d, t, rfl⟩
        rw [hq] at hc
        simp only [List.cons_append, List.head?_cons,
          Option.some.injEq] at hc
        subst hc
        exact ih (n / 10) (Nat.div_lt_self (by omega) (by omega))
          (by omega) d (by rw [hq]; rfl)

theorem canonDigits_natDigits (n : Nat) :
    canonDigits (natDigits n) = true := by
  have hne := natDigits_ne_nil n
  have hdig := natDigits_all_digits n
  rcases Nat.eq_zero_or_pos n with rfl | hpos
  · have h0 : natDigits 0 = ['0'] := by rw [natDigits]; rfl
    rw [h0]
    decide
  · simp only [canonDigits, Bool.and_eq_true, Bool.or_eq_true,
      decide_eq_true_eq]
    refine ⟨⟨?_, ?_⟩, ?_⟩
    · simpa [List.isEmpty_iff] using hne
    · simpa [List.all_eq_true] using hdig
    · right
      intro hc
      exact natDigits_head_pos n hpos '0' hc rfl

theorem takeWhile_digits (ds z : List Char)
    (hds : ∀ c ∈ ds, isDigitCh c = true)
    (hz : ∀ c, z.head? = some c → isDigitCh c = false) :
    (ds ++ z).takeWhile isDigitCh = ds := by
  induction ds with
  | nil =>
      cases z with
      | nil => rfl
      | cons c t =>
          simp only [List.nil_append, List.takeWhile_cons]
          rw [hz c rfl]
          simp
  | cons d ds2 ih =>
      simp only [List.cons_append, List.takeWhile_cons]
      rw [hds d (List.mem_cons_self d ds2)]
      simp only [if_true]
      rw [ih (fun c hc => hds c (List.mem_cons_of_mem d hc))]

theorem isDigitCh_sep_false {c : Char} (h : c = ',' ∨ c = rb) :
    isDigitCh c = false := by
  rcases h with rfl | rfl <;> decide

theorem parseIntLit_natDigits (neg : Bool) (m : Nat) (c : Char)
    (z : List Char) (hc : c = ',' ∨ c = rb) :
    parseIntLit neg (natDigits m ++ c :: z) =
      some (.num (if neg then -(m : Int) else (m : Int)), c :: z) := by
  have htk : (natDigits m ++ c :: z).takeWhile isDigitCh = natDigits m :=
    takeWhile_digits _ _ (natDigits_all_digits m)
      (fun d hd => by
        simp only [List.head?_cons, Option.some.injEq] at hd
        subst hd
        exact isDigitCh_sep_false hc)
  rw [parseIntLit]
  simp only [htk]
  rw [if_neg (by simpa [List.isEmpty_iff] using natDigits_ne_nil m)]
  rw [canonDigits_natDigits m]
  simp only [Bool.not_true, Bool.false_eq_true, if_false]
  rw [List.drop_left]
  have hdot : ¬(c = '.' || c = 'e' || c = 'E') = true := by
    rcases hc with rfl | rfl <;> decide
  simp only [if_neg hdot]
  rw [digitsVal_natDigits]

/-! ## Parser correctness: step equations and atoms -/

theorem parseVal_succ (fuel : Nat) (s0 : List Char) :
    parseVal (fuel + 1) s0 =
      (match skipWs s0 with
      | [] => none
      | c :: rest =>
          if c = lb then
            match skipWs rest with
            | d :: r2 =>
                if d = rb then some (.obj [], r2)
                else parseMembers fuel (skipWs rest) []
            | [] => none
          else if c = '[' then
            match skipWs rest with
            | d :: r2 =>
                if d = ']' then some (.arr [], r2)
                else parseElems fuel (skipWs rest) []
            | [] => none
          else if c = qu then
            (parseStrBody rest).map (fun p => (.str ⟨p.1⟩, p.2))
          else if c = 't' then
            match rest with
            | 'r' :: 'u' :: 'e' :: r2 => some (.bool true, r2)
            | _ => none
          else if c = 'f' then
            match rest with
            | 'a' :: 'l' :: 's' :: 'e' :: r2 => some (.bool false, r2)
            | _ => none
          else if c = 'n' then
            match rest with
            | 'u' :: 'l' :: 'l' :: r2 => some (.null, r2)
            | _ => none
          else if c = '-' then parseIntLit true rest
          else if isDigitCh c then parseIntLit false (c :: rest)
          else none) := rfl

theorem parseMembers_succ (fuel : Nat) (s : List Char)
    (acc : List (String × Json)) :
    parseMembers (fuel + 1) s acc =
      (match s with
      | c :: rest =>
          if c = qu then
            match parseStrBody rest with
            | some (key, r2) =>
                match skipWs r2 with
                | d :: r4 =>
                    if d = ':' then
                      match parseVal fuel r4 with
                      | some (v, r5) =>
                          let acc2 := jsSetKey acc ⟨key⟩ v
                          match skipWs r5 with
                          | e :: r7 =>
                              if e = ',' then
                                parseMembers fuel (skipWs r7) acc2
                              else if e = rb then some (.obj acc2, r7)
                              else none
                          | [] => none
                      | none => none
                    else none
                | [] => none
            | none => none
          else none
      | [] => none) := rfl

theorem parseVal_lb (fuel : Nat) (w : List Char) :
    parseVal (fuel + 1) (lb :: w) =
      (match skipWs w with
      | d :: r2 =>
          if d = rb then some (.obj [], r2)
          else parseMembers fuel (skipWs w) []
      | [] => none) := rfl

theorem parseVal_qu (fuel : Nat) (w : List Char) :
    parseVal (fuel + 1) (qu :: w) =
      (parseStrBody w).map (fun p => (.str ⟨p.1⟩, p.2)) := rfl

theorem parseVal_true (fuel : Nat) (w : List Char) :
    parseVal (fuel + 1) ('t' :: 'r' :: 'u' :: 'e' :: w) =
      some (.bool true, w) := rfl

theorem parseVal_false (fuel : Nat) (w : List Char) :
    parseVal (fuel + 1) ('f' :: 'a' :: 'l' :: 's' :: 'e' :: w) =
      some (.bool false, w) := rfl

theorem parseVal_nullLit (fuel : Nat) (w : List Char) :
    parseVal (fuel + 1) ('n' :: 'u' :: 'l' :: 'l' :: w) =
      some (.null, w) := rfl

theorem parseVal_neg (fuel : Nat) (w : List Char) :
    parseVal (fuel + 1) ('-' :: w) = parseIntLit true w := rfl

theorem isDigitCh_branches {c : Char} (h : isDigitCh c = true) :
    isJsonWs c = false ∧ ¬c = lb ∧ ¬c = '[' ∧ ¬c = qu ∧ ¬c = 't' ∧
      ¬c = 'f' ∧ ¬c = 'n' ∧ ¬c = '-' := by
  refine ⟨?_, ?_, ?_, ?_, ?_, ?_, ?_, ?_⟩
  · cases hw : isJsonWs c with
    | false => rfl
    | true =>
        simp only [isJsonWs, Bool.or_eq_true, decide_eq_true_eq] at hw
        rcases hw with ((rfl | rfl) | rfl) | rfl <;> revert h <;> decide
  all_goals intro hcc
  all_goals rw [hcc] at h
  all_goals revert h
  all_goals decide

theorem parseVal_digit (fuel : Nat) {c : Char} (w : List Char)
    (h : isDigitCh c = true) :
    parseVal (fuel + 1) (c :: w) = parseIntLit false (c :: w) := by
  obtain ⟨hws, h1, h2, h3, h4, h5, h6, h7⟩ := isDigitCh_branches h
  rw [parseVal_succ, skipWs_head (show (c :: w).head? = some c from rfl) hws]
  simp only [if_neg h1, if_neg h2, if_neg h3, if_neg h4, if_neg h5,
    if_neg h6, if_neg h7, if_pos h]

theorem parseVal_atom (a : FlatAtom) (fuel : Nat) (c : Char)
    (z : List Char) (ha : plainAtom a = true) (hc : c = ',' ∨ c = rb) :
    parseVal (fuel + 1) (renderAtom a ++ c :: z) =
      some (atomToJson a, c :: z) := by
  cases a with
  | str t =>
      have hp : ∀ d ∈ t.data, plainCh d = true := by
        simpa [plainAtom, plainStr, List.all_eq_true] using ha
      have htxt : renderAtom (.str t) ++ c :: z =
          qu :: (t.data ++ qu :: (c :: z)) := by
        simp [renderAtom]
      rw [htxt, parseVal_qu, parseStrBody_plain _ _ hp]
      rfl
  | num n =>
      by_cases hn : n < 0
      · have htxt : renderAtom (.num n) = '-' :: natDigits n.natAbs := by
          simp [renderAtom, intStr, if_pos hn, natStr]
        rw [htxt, List.cons_append, parseVal_neg,
          parseIntLit_natDigits true _ c z hc]
        have hv : -((n.natAbs : Nat) : Int) = n := by
          rw [Int.ofNat_natAbs_of_nonpos (le_of_lt hn)]
          omega
        simp only [if_pos, hv]
        rfl
      · have htxt : renderAtom (.num n) = natDigits n.natAbs := by
          simp [renderAtom, intStr, if_neg hn, natStr]
        obtain ⟨d, t, hq⟩ : ∃ d t, natDigits n.natAbs = d :: t := by
          cases hq : natDigits n.natAbs with
          | nil => exact absurd hq (natDigits_ne_nil _)
          | cons d t => exact ⟨d, t, rfl⟩
        have hd : isDigitCh d = true :=
          natDigits_all_digits n.natAbs d (by rw [hq]; exact List.mem_cons_self d t)
        rw [htxt, hq, List.cons_append, parseVal_digit fuel _ hd,
          ← List.cons_append, ← hq, parseIntLit_natDigits false _ c z hc]
        have hv : ((n.natAbs : Nat) : Int) = n :=
          Int.natAbs_of_nonneg (by omega)
        simp only [if_neg (Bool.false_ne_true), hv]
        rfl
  | bool b =>
      cases b with
      | true =>
          have htxt : renderAtom (.bool true) ++ c :: z =
              't' :: 'r' :: 'u' :: 'e' :: (c :: z) := rfl
          rw [htxt, parseVal_true]
          rfl
      | false =>
          have htxt : renderAtom (.bool false) ++ c :: z =
              'f' :: 'a' :: 'l' :: 's' :: 'e' :: (c :: z) := rfl
          rw [htxt, parseVal_false]
          rfl
  | null =>
      have htxt : renderAtom .null ++ c :: z =
          'n' :: 'u' :: 'l' :: 'l' :: (c :: z) := rfl
      rw [htxt, parseVal_nullLit]
      rfl

/-! ## Parser correctness: objects -/

theorem lookupField_not_mem :
    ∀ {fs : List (String × Json)} {k : String},
      k ∉ fs.map Prod.fst → lookupField fs k = none := by
  intro fs
  induction fs with
  | nil => intro k _; rfl
  | cons p rest ih =>
      intro k hk
      simp only [List.map_cons, List.mem_cons] at hk
      push_neg at hk
      rw [lookupField]
      rw [if_neg (fun he => hk.1 he.symm)]
      exact ih hk.2

theorem jsSetKey_not_mem {fs : List (String × Json)} {k : String}
    (v : Json) (h : k ∉ fs.map Prod.fst) :
    jsSetKey fs k v = fs ++ [(k, v)] := by
  rw [jsSetKey, lookupField_not_mem h]
  rfl

theorem parseMembers_qu (fuel : Nat) (w : List Char)
    (acc : List (String × Json)) :
    parseMembers (fuel + 1) (qu :: w) acc =
      (match parseStrBody w with
      | some (key, r2) =>
          match skipWs r2 with
          | d :: r4 =>
              if d = ':' then
                match parseVal fuel r4 with
                | some (v, r5) =>
                    let acc2 := jsSetKey acc ⟨key⟩ v
                    match skipWs r5 with
                    | e :: r7 =>
                        if e = ',' then
                          parseMembers fuel (skipWs r7) acc2
                        else if e = rb then some (.obj acc2, r7)
                        else none
                    | [] => none
                | none => none
              else none
          | [] => none
      | none => none) := rfl

theorem renderEntries_head (p : String × FlatAtom)
    (R : List (String × FlatAtom)) :
    (renderEntries (p :: R)).head? = some qu := by
  obtain ⟨k, v⟩ := p
  cases R <;> rfl

theorem renderAtom_length_pos (a : FlatAtom) :
    1 ≤ (renderAtom a).length := by
  cases a with
  | str t => simp [renderAtom]
  | num n =>
      rw [renderAtom]
      rcases hq : (intStr n).data with _ | ⟨d, t⟩
      · exfalso
        rw [intStr] at hq
        split at hq
        · rw [String.data_append] at hq
          simp at hq
        · exact natDigits_ne_nil _ (by simpa [natStr] using hq)
      · simp
  | bool b => cases b <;> simp [renderAtom]
  | null => simp [renderAtom]

theorem parseMembers_flat :
    ∀ (P : List (String × FlatAtom)) (fuel : Nat) (z : List Char)
      (acc : List (String × Json)),
      P ≠ [] →
      (∀ p ∈ P, plainStr p.1 = true ∧ plainAtom p.2 = true) →
      ((P.map Prod.fst).Nodup) →
      (∀ k ∈ P.map Prod.fst, k ∉ acc.map Prod.fst) →
      (renderEntries P).length ≤ fuel →
      parseMembers fuel (renderEntries P ++ rb :: z) acc =
        some (.obj (acc ++ jsonEntries P), z) := by
  intro P
  induction P with
  | nil => intro fuel z acc hne; exact absurd rfl hne
  | cons p P2 ih =>
      obtain ⟨k, v⟩ := p
      intro fuel z acc _ hp hnd hacc hlen
      have hkp : plainStr k = true :=
        (hp (k, v) (List.mem_cons_self _ _)).1
      have hvp : plainAtom v = true :=
        (hp (k, v) (List.mem_cons_self _ _)).2
      have hkplain : ∀ d ∈ k.data, plainCh d = true := by
        simpa [plainStr, List.all_eq_true] using hkp
      have hknotin : k ∉ acc.map Prod.fst :=
        hacc k (by simp)
      cases P2 with
      | nil =>
          have hl : (renderEntries [(k, v)]).length =
              k.data.length + (renderAtom v).length + 3 := by
            simp only [renderEntries, List.length_append,
              List.length_cons]
            omega
          obtain ⟨f, rfl⟩ : ∃ f, fuel = f + 1 :=
            ⟨fuel - 1, by omega⟩
          obtain ⟨f2, hf2⟩ : ∃ f2, f = f2 + 1 :=
            ⟨f - 1, by omega⟩
          have htxt : renderEntries [(k, v)] ++ rb :: z =
              qu :: (k.data ++ qu :: (':' ::
                (renderAtom v ++ rb :: z))) := by
            simp [renderEntries]
          have hkey : parseStrBody (k.data ++ qu :: (':' ::
              (renderAtom v ++ rb :: z))) =
              some (k.data, ':' :: (renderAtom v ++ rb :: z)) :=
            parseStrBody_plain _ _ hkplain
          have hws1 : skipWs (':' :: (renderAtom v ++ rb :: z)) =
              ':' :: (renderAtom v ++ rb :: z) :=
            skipWs_head rfl (by decide)
          have hval : parseVal f (renderAtom v ++ rb :: z) =
              some (atomToJson v, rb :: z) := by
            rw [hf2]
            exact parseVal_atom v f2 rb z hvp (Or.inr rfl)
          have hws2 : skipWs (rb :: z) = rb :: z :=
            skipWs_head rfl (by decide)
          have hset : jsSetKey acc (String.mk k.data) (atomToJson v) =
              acc ++ [(k, atomToJson v)] :=
            jsSetKey_not_mem (atomToJson v) hknotin
          rw [htxt, parseMembers_qu]
          simp only [hkey, hws1, hval, hws2, hset]
          simp only [if_pos rfl,
            if_neg (show ¬(rb = ',') from by decide), if_pos rfl]
          rfl
      | cons q Q =>
          have hl : (renderEntries ((k, v) :: q :: Q)).length =
              k.data.length + (renderAtom v).length +
                (renderEntries (q :: Q)).length + 4 := by
            simp only [renderEntries, List.length_append,
              List.length_cons]
            omega
          obtain ⟨f, rfl⟩ : ∃ f, fuel = f + 1 :=
            ⟨fuel - 1, by omega⟩
          obtain ⟨f2, hf2⟩ : ∃ f2, f = f2 + 1 :=
            ⟨f - 1, by omega⟩
          have htxt : renderEntries ((k, v) :: q :: Q) ++ rb :: z =
              qu :: (k.data ++ qu :: (':' :: (renderAtom v ++ ',' ::
                (renderEntries (q :: Q) ++ rb :: z)))) := by
            simp [renderEntries]
          have hkey : parseStrBody (k.data ++ qu :: (':' ::
              (renderAtom v ++ ',' ::
                (renderEntries (q :: Q) ++ rb :: z)))) =
              some (k.data, ':' :: (renderAtom v ++ ',' ::
                (renderEntries (q :: Q) ++ rb :: z))) :=
            parseStrBody_plain _ _ hkplain
          have hws1 : skipWs (':' :: (renderAtom v ++ ',' ::
              (renderEntries (q :: Q) ++ rb :: z))) =
              ':' :: (renderAtom v ++ ',' ::
                (renderEntries (q :: Q) ++ rb :: z)) :=
            skipWs_head rfl (by decide)
          have hval : parseVal f (renderAtom v ++ ',' ::
              (renderEntries (q :: Q) ++ rb :: z)) =
              some (atomToJson v, ',' ::
                (renderEntries (q :: Q) ++ rb :: z)) := by
            rw [hf2]
            exact parseVal_atom v f2 ',' _ hvp (Or.inl rfl)
          have hws2 : skipWs (',' ::
              (renderEntries (q :: Q) ++ rb :: z)) =
              ',' :: (renderEntries (q :: Q) ++ rb :: z) :=
            skipWs_head rfl (by decide)
          have hws3 : skipWs (renderEntries (q :: Q) ++ rb :: z) =
              renderEntries (q :: Q) ++ rb :: z :=
            skipWs_head
              (head?_append_left _ (renderEntries_head q Q))
              (by decide)
          have hset : jsSetKey acc (String.mk k.data) (atomToJson v) =
              acc ++ [(k, atomToJson v)] :=
            jsSetKey_not_mem (atomToJson v) hknotin
          have hnd2 : k ∉ List.map Prod.fst (q :: Q) ∧
              (List.map Prod.fst (q :: Q)).Nodup := by
            have h2 := hnd
            rw [List.map_cons, List.nodup_cons] at h2
            exact h2
          have hrec : parseMembers f (renderEntries (q :: Q) ++ rb :: z)
              (acc ++ [(k, atomToJson v)]) =
              some (.obj ((acc ++ [(k, atomToJson v)]) ++
                jsonEntries (q :: Q)), z) := by
            refine ih f z (acc ++ [(k, atomToJson v)]) (by simp)
              (fun r hr => hp r (List.mem_cons_of_mem _ hr))
              hnd2.2 ?_ (by omega)
            intro k2 hk2
            have hk2ne : k2 ≠ k := fun he => hnd2.1 (he ▸ hk2)
            have hk2acc : k2 ∉ acc.map Prod.fst :=
              hacc k2 (by
                rw [List.map_cons, List.mem_cons]
                exact Or.inr hk2)
            intro hmem
            rw [List.map_append, List.mem_append] at hmem
            rcases hmem with h1 | h1
            · exact hk2acc h1
            · simp only [List.map_cons, List.map_nil,
                List.mem_singleton] at h1
              exact hk2ne h1
          rw [htxt, parseMembers_qu]
          simp only [hkey, hws1, hval, hws2, hws3, hset]
          rw [hrec]
          simp [jsonEntries]

theorem parseVal_flatObj (P : List (String × FlatAtom)) (fuel : Nat)
    (z : List Char)
    (hp : ∀ p ∈ P, plainStr p.1 = true ∧ plainAtom p.2 = true)
    (hnd : (P.map Prod.fst).Nodup)
    (hf : (renderFlatObj P).length ≤ fuel) :
    parseVal fuel (renderFlatObj P ++ z) =
      some (.obj (jsonEntries P), z) := by
  have hl : (renderFlatObj P).length =
      (renderEntries P).length + 2 := by
    simp only [renderFlatObj, List.length_cons, List.length_append,
      List.length_nil]
  obtain ⟨f, rfl⟩ : ∃ f, fuel = f + 1 := ⟨fuel - 1, by omega⟩
  have htxt : renderFlatObj P ++ z =
      lb :: (renderEntries P ++ rb :: z) := by
    simp [renderFlatObj]
  rw [htxt, parseVal_lb]
  cases P with
  | nil =>
      have hws : skipWs (rb :: z) = rb :: z :=
        skipWs_head rfl (by decide)
      simp only [renderEntries, List.nil_append, hws]
      rfl
  | cons p R =>
      have hws : skipWs (renderEntries (p :: R) ++ rb :: z) =
          renderEntries (p :: R) ++ rb :: z :=
        skipWs_head (head?_append_left _ (renderEntries_head p R))
          (by decide)
      obtain ⟨w0, hw0⟩ : ∃ w0, renderEntries (p :: R) = qu :: w0 := by
        rcases hq : renderEntries (p :: R) with _ | ⟨c, t⟩
        · have h3 := renderEntries_head p R
          rw [hq] at h3
          simp at h3
        · have h3 := renderEntries_head p R
          rw [hq] at h3
          simp only [List.head?_cons, Option.some.injEq] at h3
          exact ⟨t, by rw [h3]⟩
      have hw1 : renderEntries (p :: R) ++ rb :: z =
          qu :: (w0 ++ rb :: z) := by
        rw [hw0]
        rfl
      rw [hws, hw1]
      simp only [if_neg (show ¬(qu = rb) from by decide)]
      rw [← hw1]
      rw [parseMembers_flat (p :: R) f z [] (by simp) hp hnd
        (by simp) (by omega)]
      simp
/-! ## Parser correctness: map-shape objects and the standard call -/

theorem renderMapEntries_head (p : String × MapVal)
    (R : List (String × MapVal)) :
    (renderMapEntries (p :: R)).head? = some qu := by
  obtain ⟨k, v⟩ := p
  cases R <;> rfl

theorem parseVal_mapVal (v : MapVal) (f : Nat) (C : Char)
    (zv : List Char)
    (hv : match v with
      | .objv fs => (∀ q ∈ fs, plainStr q.1 = true ∧
          plainAtom q.2 = true) ∧ (fs.map Prod.fst).Nodup
      | .atomv a => plainAtom a = true)
    (hC : C = ',' ∨ C = rb) (hf : (renderMapVal v).length ≤ f) :
    parseVal f (renderMapVal v ++ C :: zv) =
      some (mapValToJson v, C :: zv) := by
  cases v with
  | objv fs =>
      exact parseVal_flatObj fs f (C :: zv) hv.1 hv.2 hf
  | atomv a =>
      have hpos := renderAtom_length_pos a
      obtain ⟨f2, rfl⟩ : ∃ f2, f = f2 + 1 :=
        ⟨f - 1, by
          simp only [renderMapVal] at hf
          omega⟩
      exact parseVal_atom a f2 C zv hv hC

theorem parseMembers_map :
    ∀ (M : List (String × MapVal)) (fuel : Nat) (z : List Char)
      (acc : List (String × Json)),
      M ≠ [] →
      (∀ p ∈ M, plainStr p.1 = true ∧
        (match p.2 with
         | .objv fs => (∀ q ∈ fs, plainStr q.1 = true ∧
             plainAtom q.2 = true) ∧ (fs.map Prod.fst).Nodup
         | .atomv a => plainAtom a = true)) →
      ((M.map Prod.fst).Nodup) →
      (∀ k ∈ M.map Prod.fst, k ∉ acc.map Prod.fst) →
      (renderMapEntries M).length ≤ fuel →
      parseMembers fuel (renderMapEntries M ++ rb :: z) acc =
        some (.obj (acc ++ M.map (fun p => (p.1, mapValToJson p.2))),
          z) := by
  intro M
  induction M with
  | nil => intro fuel z acc hne; exact absurd rfl hne
  | cons p M2 ih =>
      obtain ⟨k, v⟩ := p
      intro fuel z acc _ hp hnd hacc hlen
      have hkp : plainStr k = true :=
        (hp (k, v) (List.mem_cons_self _ _)).1
      have hvp := (hp (k, v) (List.mem_cons_self _ _)).2
      have hkplain : ∀ d ∈ k.data, plainCh d = true := by
        simpa [plainStr, List.all_eq_true] using hkp
      have hknotin : k ∉ acc.map Prod.fst :=
        hacc k (by simp)
      cases M2 with
      | nil =>
          have hl : (renderMapEntries [(k, v)]).length =
              k.data.length + (renderMapVal v).length + 3 := by
            simp only [renderMapEntries, List.length_append,
              List.length_cons]
            omega
          obtain ⟨f, rfl⟩ : ∃ f, fuel = f + 1 :=
            ⟨fuel - 1, by omega⟩
          have htxt : renderMapEntries [(k, v)] ++ rb :: z =
              qu :: (k.data ++ qu :: (':' ::
                (renderMapVal v ++ rb :: z))) := by
            simp [renderMapEntries]
          have hkey : parseStrBody (k.data ++ qu :: (':' ::
              (renderMapVal v ++ rb :: z))) =
              some (k.data, ':' :: (renderMapVal v ++ rb :: z)) :=
            parseStrBody_plain _ _ hkplain
          have hws1 : skipWs (':' :: (renderMapVal v ++ rb :: z)) =
              ':' :: (renderMapVal v ++ rb :: z) :=
            skipWs_head rfl (by decide)
          have hval : parseVal f (renderMapVal v ++ rb :: z) =
              some (mapValToJson v, rb :: z) :=
            parseVal_mapVal v f rb z hvp (Or.inr rfl) (by omega)
          have hws2 : skipWs (rb :: z) = rb :: z :=
            skipWs_head rfl (by decide)
          have hset : jsSetKey acc (String.mk k.data)
              (mapValToJson v) = acc ++ [(k, mapValToJson v)] :=
            jsSetKey_not_mem (mapValToJson v) hknotin
          rw [htxt, parseMembers_qu]
          simp only [hkey, hws1, hval, hws2, hset]
          simp only [if_neg (show ¬(rb = ',') from by decide),
            if_pos rfl]
          rfl
      | cons q Q =>
          have hl : (renderMapEntries ((k, v) :: q :: Q)).length =
              k.data.length + (renderMapVal v).length +
                (renderMapEntries (q :: Q)).length + 4 := by
            simp only [renderMapEntries, List.length_append,
              List.length_cons]
            omega
          obtain ⟨f, rfl⟩ : ∃ f, fuel = f + 1 :=
            ⟨fuel - 1, by omega⟩
          have htxt : renderMapEntries ((k, v) :: q :: Q) ++ rb :: z =
              qu :: (k.data ++ qu :: (':' :: (renderMapVal v ++ ',' ::
                (renderMapEntries (q :: Q) ++ rb :: z)))) := by
            simp [renderMapEntries]
          have hkey : parseStrBody (k.data ++ qu :: (':' ::
              (renderMapVal v ++ ',' ::
                (renderMapEntries (q :: Q) ++ rb :: z)))) =
              some (k.data, ':' :: (renderMapVal v ++ ',' ::
                (renderMapEntries (q :: Q) ++ rb :: z))) :=
            parseStrBody_plain _ _ hkplain
          have hws1 : skipWs (':' :: (renderMapVal v ++ ',' ::
              (renderMapEntries (q :: Q) ++ rb :: z))) =
              ':' :: (renderMapVal v ++ ',' ::
                (renderMapEntries (q :: Q) ++ rb :: z)) :=
            skipWs_head rfl (by decide)
          have hval : parseVal f (renderMapVal v ++ ',' ::
              (renderMapEntries (q :: Q) ++ rb :: z)) =
              some (mapValToJson v, ',' ::
                (renderMapEntries (q :: Q) ++ rb :: z)) :=
            parseVal_mapVal v f ',' _ hvp (Or.inl rfl) (by omega)
          have hws2 : skipWs (',' ::
              (renderMapEntries (q :: Q) ++ rb :: z)) =
              ',' :: (renderMapEntries (q :: Q) ++ rb :: z) :=
            skipWs_head rfl (by decide)
          have hws3 : skipWs (renderMapEntries (q :: Q) ++ rb :: z) =
              renderMapEntries (q :: Q) ++ rb :: z :=
            skipWs_head
              (head?_append_left _ (renderMapEntries_head q Q))
              (by decide)
          have hset : jsSetKey acc (String.mk k.data)
              (mapValToJson v) = acc ++ [(k, mapValToJson v)] :=
            jsSetKey_not_mem (mapValToJson v) hknotin
          have hnd2 : k ∉ List.map Prod.fst (q :: Q) ∧
              (List.map Prod.fst (q :: Q)).Nodup := by
            have h2 := hnd
            rw [List.map_cons, List.nodup_cons] at h2
            exact h2
          have hrec : parseMembers f
              (renderMapEntries (q :: Q) ++ rb :: z)
              (acc ++ [(k, mapValToJson v)]) =
              some (.obj ((acc ++ [(k, mapValToJson v)]) ++
                (q :: Q).map (fun p => (p.1, mapValToJson p.2))),
                z) := by
            refine ih f z (acc ++ [(k, mapValToJson v)]) (by simp)
              (fun r hr => hp r (List.mem_cons_of_mem _ hr))
              hnd2.2 ?_ (by omega)
            intro k2 hk2
            have hk2ne : k2 ≠ k := fun he => hnd2.1 (he ▸ hk2)
            have hk2acc : k2 ∉ acc.map Prod.fst :=
              hacc k2 (by
                rw [List.map_cons, List.mem_cons]
                exact Or.inr hk2)
            intro hmem
            rw [List.map_append, List.mem_append] at hmem
            rcases hmem with h1 | h1
            · exact hk2acc h1
            · simp only [List.map_cons, List.map_nil,
                List.mem_singleton] at h1
              exact hk2ne h1
          rw [htxt, parseMembers_qu]
          simp only [hkey, hws1, hval, hws2, hws3, hset]
          rw [hrec]
          simp

theorem parseVal_mapObj (M : List (String × MapVal)) (fuel : Nat)
    (z : List Char)
    (hp : ∀ p ∈ M, plainStr p.1 = true ∧
      (match p.2 with
       | .objv fs => (∀ q ∈ fs, plainStr q.1 = true ∧
           plainAtom q.2 = true) ∧ (fs.map Prod.fst).Nodup
       | .atomv a => plainAtom a = true))
    (hnd : (M.map Prod.fst).Nodup)
    (hf : (renderMapObj M).length ≤ fuel) :
    parseVal fuel (renderMapObj M ++ z) =
      some (.obj (M.map (fun p => (p.1, mapValToJson p.2))), z) := by
  have hl : (renderMapObj M).length =
      (renderMapEntries M).length + 2 := by
    simp only [renderMapObj, List.length_cons, List.length_append,
      List.length_nil]
  obtain ⟨f, rfl⟩ : ∃ f, fuel = f + 1 := ⟨fuel - 1, by omega⟩
  have htxt : renderMapObj M ++ z =
      lb :: (renderMapEntries M ++ rb :: z) := by
    simp [renderMapObj]
  rw [htxt, parseVal_lb]
  cases M with
  | nil =>
      have hws : skipWs (rb :: z) = rb :: z :=
        skipWs_head rfl (by decide)
      simp only [renderMapEntries, List.nil_append, hws]
      rfl
  | cons p R =>
      have hws : skipWs (renderMapEntries (p :: R) ++ rb :: z) =
          renderMapEntries (p :: R) ++ rb :: z :=
        skipWs_head (head?_append_left _ (renderMapEntries_head p R))
          (by decide)
      obtain ⟨w0, hw0⟩ : ∃ w0, renderMapEntries (p :: R) =
          qu :: w0 := by
        rcases hq : renderMapEntries (p :: R) with _ | ⟨c, t⟩
        · have h3 := renderMapEntries_head p R
          rw [hq] at h3
          simp at h3
        · have h3 := renderMapEntries_head p R
          rw [hq] at h3
          simp only [List.head?_cons, Option.some.injEq] at h3
          exact ⟨t, by rw [h3]⟩
      have hw1 : renderMapEntries (p :: R) ++ rb :: z =
          qu :: (w0 ++ rb :: z) := by
        rw [hw0]
        rfl
      rw [hws, hw1]
      simp only [if_neg (show ¬(qu = rb) from by decide)]
      rw [← hw1]
      rw [parseMembers_map (p :: R) f z [] (by simp) hp hnd
        (by simp) (by omega)]
      simp

theorem parseJson_mapObj (M : List (String × MapVal))
    (hp : ∀ p ∈ M, plainStr p.1 = true ∧
      (match p.2 with
       | .objv fs => (∀ q ∈ fs, plainStr q.1 = true ∧
           plainAtom q.2 = true) ∧ (fs.map Prod.fst).Nodup
       | .atomv a => plainAtom a = true))
    (hnd : (M.map Prod.fst).Nodup) :
    parseJson (renderMapObj M) =
      some (.obj (M.map (fun p => (p.1, mapValToJson p.2)))) := by
  rw [parseJson]
  have h1 : parseVal ((renderMapObj M).length + 1) (renderMapObj M) =
      some (.obj (M.map (fun p => (p.1, mapValToJson p.2))), []) := by
    have h2 := parseVal_mapObj M ((renderMapObj M).length + 1) []
      hp hnd (by omega)
    simpa using h2
  rw [h1]
  rfl

theorem renderStdCall_eq (T : String) (P : List (String × FlatAtom)) :
    renderStdCall T P = renderMapObj [("tool", .atomv (.str T)),
      ("parameters", .objv P)] := by
  simp [renderStdCall, renderMapObj, renderMapEntries, renderMapVal,
    renderAtom, renderFlatObj, stdPrefix]

theorem flatEntriesOk_unpack {P : List (String × FlatAtom)}
    (h : flatEntriesOk P = true) :
    (∀ p ∈ P, plainStr p.1 = true ∧ plainAtom p.2 = true) ∧
      (P.map Prod.fst).Nodup := by
  simp only [flatEntriesOk, Bool.and_eq_true, List.all_eq_true,
    decide_eq_true_eq] at h
  exact h

theorem parseJson_std (T : String) (P : List (String × FlatAtom))
    (hT : plainStr T = true) (hP : flatEntriesOk P = true) :
    parseJson (renderStdCall T P) = some (stdJson T P) := by
  obtain ⟨hp, hnd⟩ := flatEntriesOk_unpack hP
  rw [renderStdCall_eq]
  have hhp : ∀ p ∈ [("tool", MapVal.atomv (FlatAtom.str T)),
      ("parameters", MapVal.objv P)], plainStr p.1 = true ∧
      (match p.2 with
       | .objv fs => (∀ q ∈ fs, plainStr q.1 = true ∧
           plainAtom q.2 = true) ∧ (fs.map Prod.fst).Nodup
       | .atomv a => plainAtom a = true) := by
    intro p hp2
    rcases List.mem_cons.mp hp2 with h2 | h2
    · rw [h2]
      exact ⟨(by decide : plainStr "tool" = true), hT⟩
    · simp only [List.mem_singleton] at h2
      rw [h2]
      exact ⟨(by decide : plainStr "parameters" = true), hp, hnd⟩
  have hhnd : (List.map Prod.fst [("tool",
      MapVal.atomv (FlatAtom.str T)),
      ("parameters", MapVal.objv P)]).Nodup := by
    simp
  rw [parseJson_mapObj _ hhp hhnd]
  rfl

/-! ## Interpretation of parsed candidates -/

theorem interpretData_obj (fs : List (String × Json)) :
    interpretData (.obj fs) =
      (match lookupField fs "tool" with
      | some tv =>
          if jsTruthy tv then
            some [⟨tv, mapToolParameters tv
              (jsOr (jsMemberSafe (.obj fs) "parameters") (.obj []))⟩]
          else
            some ((jsOwnKeys (.obj fs)).filterMap (fun k =>
              match jsMemberSafe (.obj fs) k with
              | some v =>
                  if jsTypeofObject v then
                    some ⟨.str k, mapToolParameters (.str k)
                      (jsOr (some v) (.obj []))⟩
                  else none
              | none => none))
      | none =>
          some ((jsOwnKeys (.obj fs)).filterMap (fun k =>
            match jsMemberSafe (.obj fs) k with
            | some v =>
                if jsTypeofObject v then
                  some ⟨.str k, mapToolParameters (.str k)
                    (jsOr (some v) (.obj []))⟩
                else none
            | none => none))) := rfl

theorem jsTruthy_str_ne {T : String} (h : T ≠ "") :
    jsTruthy (.str T) = true := by
  simp only [jsTruthy, Bool.not_eq_true']
  rw [← Bool.not_eq_true]
  intro he
  exact h ((String.isEmpty_iff T).mp he)

theorem interpretData_std (T : String) (P : List (String × FlatAtom))
    (hT : T ≠ "") :
    interpretData (stdJson T P) =
      some [⟨.str T, mapToolParameters (.str T)
        (.obj (jsonEntries P))⟩] := by
  have h1 : lookupField [("tool", Json.str T),
      ("parameters", .obj (jsonEntries P))] "tool" =
      some (.str T) := by
    simp [lookupField]
  have h2 : jsMemberSafe (.obj [("tool", Json.str T),
      ("parameters", .obj (jsonEntries P))]) "parameters" =
      some (.obj (jsonEntries P)) := by
    simp [jsMemberSafe, lookupField]
  rw [stdJson, interpretData_obj]
  simp only [h1, jsTruthy_str_ne hT, h2]
  rw [if_pos trivial]
  rfl

theorem jsKeyOrder_id {ks : List String}
    (h : ∀ k ∈ ks, isArrayIndexKey k = false) :
    jsKeyOrder ks = ks := by
  rw [jsKeyOrder]
  have h1 : ks.filter (fun k => isArrayIndexKey k) = [] :=
    List.filter_eq_nil_iff.mpr (fun a ha => by simp [h a ha])
  have h2 : ks.filter (fun k => !isArrayIndexKey k) = ks :=
    List.filter_eq_self.mpr (fun a ha => by simp [h a ha])
  rw [h1, h2]
  rfl

theorem lookup_map_self :
    ∀ (M : List (String × MapVal)), (M.map Prod.fst).Nodup →
      ∀ p ∈ M, lookupField (M.map (fun q => (q.1, mapValToJson q.2)))
        p.1 = some (mapValToJson p.2) := by
  intro M
  induction M with
  | nil => intro _ p hp; exact absurd hp (List.not_mem_nil p)
  | cons q M2 ih =>
      intro hnd p hp
      have hnd2 : q.1 ∉ List.map Prod.fst M2 ∧
          (List.map Prod.fst M2).Nodup := by
        have h2 := hnd
        rw [List.map_cons, List.nodup_cons] at h2
        exact h2
      rcases List.mem_cons.mp hp with h2 | h2
      · rw [h2]
        simp [lookupField]
      · have hne : p.1 ≠ q.1 := by
          intro he
          exact hnd2.1 (he ▸ List.mem_map_of_mem Prod.fst h2)
        simp only [List.map_cons, lookupField]
        rw [if_neg (fun he => hne he.symm)]
        exact ih hnd2.2 p h2

theorem filterMap_keys :
    ∀ (M : List (String × MapVal)) (big : List (String × Json)),
      (∀ p ∈ M, lookupField big p.1 = some (mapValToJson p.2)) →
      (∀ p ∈ M, match p.2 with
        | .atomv a => nonNullAtom a = true
        | .objv _ => True) →
      (M.map Prod.fst).filterMap (fun k =>
        match jsMemberSafe (.obj big) k with
        | some v =>
            if jsTypeofObject v then
              some ⟨.str k, mapToolParameters (.str k)
                (jsOr (some v) (.obj []))⟩
            else none
        | none => none) = mapShapeCalls M := by
  intro M
  induction M with
  | nil => intro big _ _; rfl
  | cons q M2 ih =>
      intro big hb hnn
      obtain ⟨k, v⟩ := q
      have hlk : jsMemberSafe (.obj big) k = some (mapValToJson v) :=
        hb (k, v) (List.mem_cons_self _ _)
      rw [List.map_cons, List.filterMap_cons, hlk]
      cases v with
      | objv fs =>
          have hstep : (if jsTypeofObject (mapValToJson (.objv fs)) =
              true then
                some (⟨Json.str k, mapToolParameters (.str k)
                  (jsOr (some (mapValToJson (.objv fs)))
                    (.obj []))⟩ : ToolCall)
              else none) =
              some ⟨.str k, mapToolParameters (.str k)
                (.obj (jsonEntries fs))⟩ := rfl
          simp only [hstep]
          rw [ih big (fun p hp => hb p (List.mem_cons_of_mem _ hp))
            (fun p hp => hnn p (List.mem_cons_of_mem _ hp))]
          rfl
      | atomv a =>
          have hna : nonNullAtom a = true :=
            hnn (k, .atomv a) (List.mem_cons_self _ _)
          have hty : jsTypeofObject (mapValToJson (.atomv a)) =
              false := by
            cases a with
            | null => exact absurd hna (by decide)
            | str t => rfl
            | num n => rfl
            | bool b => rfl
          have hstep : (if jsTypeofObject (mapValToJson (.atomv a)) =
              true then
                some (⟨Json.str k, mapToolParameters (.str k)
                  (jsOr (some (mapValToJson (.atomv a)))
                    (.obj []))⟩ : ToolCall)
              else none) = none := by
            rw [hty]
            simp
          simp only [hstep]
          rw [ih big (fun p hp => hb p (List.mem_cons_of_mem _ hp))
            (fun p hp => hnn p (List.mem_cons_of_mem _ hp))]
          rfl

theorem interpretData_mapObj (M : List (String × MapVal))
    (hnd : (M.map Prod.fst).Nodup)
    (hkeys : ∀ k ∈ M.map Prod.fst, k ≠ "tool" ∧
      isArrayIndexKey k = false)
    (hnn : ∀ p ∈ M, match p.2 with
      | .atomv a => nonNullAtom a = true
      | .objv _ => True) :
    interpretData (.obj (M.map (fun p => (p.1, mapValToJson p.2)))) =
      some (mapShapeCalls M) := by
  rw [interpretData_obj]
  have hkeq : (M.map (fun p => (p.1, mapValToJson p.2))).map
      Prod.fst = M.map Prod.fst := by
    rw [List.map_map]
    rfl
  have h1 : lookupField (M.map (fun p => (p.1, mapValToJson p.2)))
      "tool" = none := by
    apply lookupField_not_mem
    rw [hkeq]
    intro hmem
    exact (hkeys "tool" hmem).1 rfl
  rw [h1]
  have h2 : jsOwnKeys (.obj (M.map (fun p =>
      (p.1, mapValToJson p.2)))) = M.map Prod.fst := by
    show jsKeyOrder ((M.map (fun p => (p.1, mapValToJson p.2))).map
      (fun p => p.1)) = M.map Prod.fst
    have hkeq2 : (M.map (fun p => (p.1, mapValToJson p.2))).map
        (fun p => p.1) = M.map Prod.fst := by
      rw [List.map_map]
      rfl
    rw [hkeq2]
    exact jsKeyOrder_id (fun k hk => (hkeys k hk).2)
  rw [h2]
  rw [filterMap_keys M _ (lookup_map_self M hnd) hnn]

/-! ## Repair pipeline on rendered calls -/

theorem trimChars_id {s : List Char} {c d : Char}
    (hh : s.head? = some c) (hc : isJsWs c = false)
    (hl : s.getLast? = some d) (hd : isJsWs d = false) :
    trimChars s = s := by
  rw [trimChars]
  have h1 : s.dropWhile isJsWs = s := by
    cases s with
    | nil => rfl
    | cons a t =>
        simp only [List.head?_cons, Option.some.injEq] at hh
        subst hh
        simp [List.dropWhile_cons, hc]
  rw [h1]
  have h2 : s.reverse.dropWhile isJsWs = s.reverse := by
    rcases hrev : s.reverse with _ | ⟨a, w⟩
    · rfl
    · have h3 : s.reverse.head? = some d := by
        rw [List.head?_reverse]
        exact hl
      rw [hrev] at h3
      simp only [List.head?_cons, Option.some.injEq] at h3
      subst h3
      simp [List.dropWhile_cons, hd]
  rw [h2, List.reverse_reverse]

theorem braceFix_id {s : List Char} (hh : s.head? = some lb)
    (hl : s.getLast? = some rb) : braceFix s = s := by
  rw [braceFix, hh, hl]
  simp

theorem ll_isPrefixOf_false {x : List Char} {c : Char}
    (h : x.head? = some c) (hc : c ≠ lb) :
    [lb, lb].isPrefixOf (lb :: x) = false := by
  cases x with
  | nil => simp at h
  | cons a t =>
      simp only [List.head?_cons, Option.some.injEq] at h
      have ha : a ≠ lb := by
        rw [h]
        exact hc
      have hbeq : (lb == a) = false :=
        beq_eq_false_iff_ne.mpr (fun h2 => ha h2.symm)
      simp [List.isPrefixOf, hbeq]

theorem ll_isPrefixOf_true (x : List Char) :
    [lb, lb].isPrefixOf (lb :: lb :: x) = true := by
  simp [List.isPrefixOf]

theorem rr_isSuffixOf_pos {x : List Char}
    (h : x.getLast? = some rb) :
    [rb, rb].isSuffixOf (x ++ [rb]) = true := by
  have hrh : x.reverse.head? = some rb := by
    rw [List.head?_reverse]
    exact h
  rcases hrev : x.reverse with _ | ⟨a, w⟩
  · rw [hrev] at hrh
    simp at hrh
  · rw [hrev] at hrh
    simp only [List.head?_cons, Option.some.injEq] at hrh
    subst hrh
    show ([rb, rb].reverse.isPrefixOf (x ++ [rb]).reverse) = true
    rw [List.reverse_append, hrev]
    simp [List.isPrefixOf]

theorem rr_isSuffixOf_neg {x : List Char} {d : Char}
    (h : x.getLast? = some d) (hd : d ≠ rb) :
    [rb, rb].isSuffixOf (x ++ [rb]) = false := by
  have hrh : x.reverse.head? = some d := by
    rw [List.head?_reverse]
    exact h
  rcases hrev : x.reverse with _ | ⟨a, w⟩
  · rw [hrev] at hrh
    simp at hrh
  · rw [hrev] at hrh
    simp only [List.head?_cons, Option.some.injEq] at hrh
    have ha : a ≠ rb := by
      rw [hrh]
      exact hd
    show ([rb, rb].reverse.isPrefixOf (x ++ [rb]).reverse) = false
    rw [List.reverse_append, hrev]
    have hbeq : (rb == a) = false :=
      beq_eq_false_iff_ne.mpr (fun h2 => ha h2.symm)
    simp [List.isPrefixOf, hbeq]

theorem outerStrip_keep {s : List Char}
    (h1 : [lb, lb].isPrefixOf s = false)
    (h2 : [rb, rb].isSuffixOf s = false) : outerStrip s = s := by
  rw [outerStrip, h1, h2]
  simp

theorem outerStrip_dropLast {s : List Char}
    (h1 : [lb, lb].isPrefixOf s = false)
    (h2 : [rb, rb].isSuffixOf s = true) :
    outerStrip s = s.dropLast := by
  rw [outerStrip, h1, h2]
  simp

theorem outerStrip_both {s : List Char}
    (h1 : [lb, lb].isPrefixOf s = true)
    (h2 : [rb, rb].isSuffixOf s = true) :
    outerStrip s = (s.drop 1).dropLast := by
  rw [outerStrip, h1, h2]
  simp

theorem braceBalance_id {s : List Char}
    (h : s.count lb = s.count rb) : braceBalance s = s := by
  rw [braceBalance]
  simp [h]

theorem braceBalance_one {s : List Char}
    (h : s.count lb = s.count rb + 1) :
    braceBalance s = s ++ [rb] := by
  rw [braceBalance]
  rw [if_pos (by omega)]
  have h2 : s.count lb - s.count rb = 1 := by omega
  rw [h2]
  rfl

theorem head?_append_ne {a : Char} {x y : List Char}
    (hx : chFree a x = true) (hy : y.head? ≠ some a) :
    (x ++ y).head? ≠ some a := by
  cases x with
  | nil => simpa using hy
  | cons c t =>
      have hc : c ≠ a := chFree_mem hx c (List.mem_cons_self c t)
      simp only [List.cons_append, List.head?_cons, ne_eq,
        Option.some.injEq]
      exact hc

theorem noAdj_chFree_concat {a b : Char} {x : List Char}
    (hx : chFree a x = true) : noAdj a (x ++ [b]) = true := by
  refine noAdj_append x [b] (chFree_noAdj hx) rfl ?_
  rintro ⟨h1, _⟩
  exact chFree_getLast hx h1

theorem stdPrefix_ne_nil (T : String) : stdPrefix T ≠ [] := by
  rw [stdPrefix]
  simp

theorem stdPrefix_head (T : String) :
    (stdPrefix T).head? = some qu := rfl

theorem flatEntriesOk_all {P : List (String × FlatAtom)}
    (h : flatEntriesOk P = true) :
    (P.all fun p => plainStr p.1 && plainAtom p.2) = true := by
  rw [flatEntriesOk, Bool.and_eq_true] at h
  exact h.1

theorem noAdj_lb_stdBody {T : String} {P : List (String × FlatAtom)}
    (hT : plainStr T = true) (hP : flatEntriesOk P = true) :
    noAdj lb ((lb :: stdPrefix T) ++
      ((lb :: renderEntries P) ++ [rb])) = true := by
  have hA3 := braceFree3_stdPrefix hT
  have hB3 := braceFree3_renderEntries P (flatEntriesOk_all hP)
  have hA := braceFree3_chFree_lb hA3
  have hB := braceFree3_chFree_lb hB3
  have n1 : noAdj lb (renderEntries P ++ [rb]) :=
    noAdj_chFree_concat hB
  have n2 : noAdj lb (lb :: (renderEntries P ++ [rb])) := by
    refine noAdj_cons_build ?_ n1
    rintro ⟨_, h2⟩
    exact head?_append_ne hB (by decide) h2
  have n3 : noAdj lb (lb :: stdPrefix T) := by
    refine noAdj_cons_build ?_ (chFree_noAdj hA)
    rintro ⟨_, h2⟩
    rw [stdPrefix_head T] at h2
    exact absurd (Option.some.inj h2) (by decide)
  have hbnd : ¬((lb :: stdPrefix T).getLast? = some lb ∧
      ((lb :: renderEntries P) ++ [rb]).head? = some lb) := by
    rintro ⟨h1, _⟩
    rw [getLast?_cons_ne_nil lb (stdPrefix_ne_nil T)] at h1
    exact chFree_getLast hA h1
  have := noAdj_append (lb :: stdPrefix T)
    ((lb :: renderEntries P) ++ [rb]) n3 (by
      rw [List.cons_append]
      exact n2) hbnd
  exact this

theorem noAdj_rb_stdBody {T : String} {P : List (String × FlatAtom)}
    (hT : plainStr T = true) (hP : flatEntriesOk P = true) :
    noAdj rb (((lb :: stdPrefix T) ++ (lb :: renderEntries P)) ++
      [rb]) = true := by
  have hA3 := braceFree3_stdPrefix hT
  have hB3 := braceFree3_renderEntries P (flatEntriesOk_all hP)
  have hC : chFree rb ((lb :: stdPrefix T) ++
      (lb :: renderEntries P)) = true := by
    refine chFree_append ?_ ?_
    · exact chFree_cons (by decide) (braceFree3_chFree_rb hA3)
    · exact chFree_cons (by decide) (braceFree3_chFree_rb hB3)
  exact noAdj_chFree_concat hC

theorem repair_std (T : String) (P : List (String × FlatAtom))
    (hT : plainStr T = true) (hP : flatEntriesOk P = true) :
    repair (renderStdCall T P) = renderStdCall T P := by
  have hA3 := braceFree3_stdPrefix hT
  have hB3 := braceFree3_renderEntries P (flatEntriesOk_all hP)
  have hS1 : renderStdCall T P =
      ((lb :: stdPrefix T) ++ ((lb :: renderEntries P) ++ [rb])) ++
        [rb] := by
    simp [renderStdCall, renderFlatObj]
  have hhead : (renderStdCall T P).head? = some lb := rfl
  have hlast : (renderStdCall T P).getLast? = some rb := by
    rw [hS1]
    exact List.getLast?_concat _
  have hx2 : (lb :: stdPrefix T) ++ ((lb :: renderEntries P) ++ [rb])
      = ((lb :: stdPrefix T) ++ (lb :: renderEntries P)) ++ [rb] := by
    simp
  have hpre : [lb, lb].isPrefixOf (renderStdCall T P) = false := by
    have hX : (stdPrefix T ++ renderFlatObj P ++ [rb]).head? =
        some qu :=
      head?_append_left _ (head?_append_left _ (stdPrefix_head T))
    exact ll_isPrefixOf_false hX (by decide)
  have hsuf : [rb, rb].isSuffixOf (renderStdCall T P) = true := by
    rw [hS1]
    apply rr_isSuffixOf_pos
    rw [hx2]
    exact List.getLast?_concat _
  have hdrop : (renderStdCall T P).dropLast =
      (lb :: stdPrefix T) ++ ((lb :: renderEntries P) ++ [rb]) := by
    rw [hS1]
    exact List.dropLast_concat
  have hnl : noAdj lb ((lb :: stdPrefix T) ++
      ((lb :: renderEntries P) ++ [rb])) = true :=
    noAdj_lb_stdBody hT hP
  have hnr : noAdj rb ((lb :: stdPrefix T) ++
      ((lb :: renderEntries P) ++ [rb])) = true := by
    rw [hx2]
    exact noAdj_rb_stdBody hT hP
  have hcl : ((lb :: stdPrefix T) ++
      ((lb :: renderEntries P) ++ [rb])).count lb =
      ((lb :: stdPrefix T) ++
        ((lb :: renderEntries P) ++ [rb])).count rb + 1 := by
    have e1 := chFree_count (braceFree3_chFree_lb hA3)
    have e2 := chFree_count (braceFree3_chFree_lb hB3)
    have e3 := chFree_count (braceFree3_chFree_rb hA3)
    have e4 := chFree_count (braceFree3_chFree_rb hB3)
    simp [List.count_append, List.count_cons, e1, e2, e3, e4,
      (by decide : ¬rb = lb), (by decide : ¬lb = rb)]
  rw [repair,
    trimChars_id hhead (by decide) hlast (by decide),
    braceFix_id hhead hlast,
    outerStrip_dropLast hpre hsuf, hdrop,
    replaceR1_id hnl, replaceR2_id hnl, replaceR3_id hnr,
    replaceR4_id hnr, replaceR5_id hnl, replaceR6_id hnr,
    braceBalance_one hcl, ← hS1]

/-! ## Repair pipeline on map-shape renders -/

theorem noAdj_cons_ne {a c : Char} {y : List Char} (hc : c ≠ a)
    (hy : noAdj a y = true) : noAdj a (c :: y) = true :=
  noAdj_cons_build (fun h => hc h.1) hy

theorem mapEntriesOk_unpack {M : List (String × MapVal)}
    (h : mapEntriesOk M = true) :
    (∀ p ∈ M, plainStr p.1 = true ∧ p.1 ≠ "tool" ∧
      (match p.2 with
       | .objv fs => flatEntriesOk fs = true
       | .atomv a => plainAtom a = true ∧ nonNullAtom a = true)) ∧
    (M.map Prod.fst).Nodup := by
  rw [mapEntriesOk, Bool.and_eq_true, decide_eq_true_eq] at h
  refine ⟨?_, h.2⟩
  intro p hp
  have h2 := h.1
  rw [List.all_eq_true] at h2
  have h3 := h2 p hp
  rw [Bool.and_eq_true, Bool.and_eq_true, decide_eq_true_eq] at h3
  refine ⟨h3.1.1, h3.1.2, ?_⟩
  rcases p with ⟨k, v⟩
  cases v with
  | objv fs => exact h3.2
  | atomv a =>
      have h4 := h3.2
      rw [Bool.and_eq_true] at h4
      exact h4

theorem mapVal_seg (v : MapVal)
    (hv : match v with
      | .objv fs => flatEntriesOk fs = true
      | .atomv a => plainAtom a = true) :
    chFree bt (renderMapVal v) = true ∧
      noAdj lb (renderMapVal v) = true ∧
      noAdj rb (renderMapVal v) = true ∧
      (renderMapVal v).count lb = (renderMapVal v).count rb := by
  cases v with
  | objv fs =>
      have hB3 := braceFree3_renderEntries fs (flatEntriesOk_all hv)
      have hshape : renderMapVal (.objv fs) =
          (lb :: renderEntries fs) ++ [rb] := rfl
      rw [hshape]
      refine ⟨?_, ?_, ?_, ?_⟩
      · exact chFree_append
          (chFree_cons (by decide) (braceFree3_btFree hB3))
          (by decide)
      · rw [List.cons_append]
        refine noAdj_cons_build ?_
          (noAdj_chFree_concat (braceFree3_chFree_lb hB3))
        rintro ⟨_, h2⟩
        exact head?_append_ne (braceFree3_chFree_lb hB3)
          (by decide) h2
      · exact noAdj_chFree_concat
          (chFree_cons (by decide) (braceFree3_chFree_rb hB3))
      · have e1 := chFree_count (braceFree3_chFree_lb hB3)
        have e2 := chFree_count (braceFree3_chFree_rb hB3)
        have h2 : (lb :: renderEntries fs) ++ [rb] =
            [lb] ++ renderEntries fs ++ [rb] := rfl
        rw [h2, List.count_append, List.count_append,
          List.count_append, List.count_append, e1, e2,
          (by decide : ([lb] : List Char).count lb = 1),
          (by decide : ([lb] : List Char).count rb = 0),
          (by decide : ([rb] : List Char).count lb = 0),
          (by decide : ([rb] : List Char).count rb = 1)]
  | atomv a =>
      have hA3 := braceFree3_renderAtom hv
      exact ⟨braceFree3_btFree hA3,
        chFree_noAdj (braceFree3_chFree_lb hA3),
        chFree_noAdj (braceFree3_chFree_rb hA3),
        by
          show (renderAtom a).count lb = (renderAtom a).count rb
          rw [chFree_count (braceFree3_chFree_lb hA3),
            chFree_count (braceFree3_chFree_rb hA3)]⟩

theorem mapEntries_seg :
    ∀ (M : List (String × MapVal)),
      (∀ p ∈ M, plainStr p.1 = true ∧
        (match p.2 with
         | .objv fs => flatEntriesOk fs = true
         | .atomv a => plainAtom a = true)) →
      chFree bt (renderMapEntries M) = true ∧
        noAdj lb (renderMapEntries M) = true ∧
        noAdj rb (renderMapEntries M) = true ∧
        (renderMapEntries M).count lb =
          (renderMapEntries M).count rb := by
  intro M
  induction M with
  | nil => intro _; exact ⟨rfl, rfl, rfl, rfl⟩
  | cons p M2 ih =>
      intro hp
      obtain ⟨k, v⟩ := p
      have hk : plainStr k = true :=
        (hp (k, v) (List.mem_cons_self _ _)).1
      have hkd : ∀ c ∈ k.data, plainCh c = true := by
        simpa [plainStr, List.all_eq_true] using hk
      have hk3 : braceFree3 k.data = true := braceFree3_plainStr hk
      obtain ⟨v1, v2, v3, v4⟩ :=
        mapVal_seg v (hp (k, v) (List.mem_cons_self _ _)).2
      have hseg1 : chFree bt ((qu :: k.data) ++
          (qu :: ':' :: renderMapVal v)) = true := by
        refine chFree_append
          (chFree_cons (by decide) (braceFree3_btFree hk3)) ?_
        exact chFree_cons (by decide) (chFree_cons (by decide) v1)
      have hseg2 : noAdj lb ((qu :: k.data) ++
          (qu :: ':' :: renderMapVal v)) = true := by
        refine noAdj_append _ _ ?_ ?_ ?_
        · exact chFree_noAdj
            (chFree_cons (by decide) (braceFree3_chFree_lb hk3))
        · exact noAdj_cons_ne (by decide)
            (noAdj_cons_ne (by decide) v2)
        · rintro ⟨_, h2⟩
          simp at h2
          exact absurd h2 (by decide)
      have hseg3 : noAdj rb ((qu :: k.data) ++
          (qu :: ':' :: renderMapVal v)) = true := by
        refine noAdj_append _ _ ?_ ?_ ?_
        · exact chFree_noAdj
            (chFree_cons (by decide) (braceFree3_chFree_rb hk3))
        · exact noAdj_cons_ne (by decide)
            (noAdj_cons_ne (by decide) v3)
        · rintro ⟨_, h2⟩
          simp at h2
          exact absurd h2 (by decide)
      have hseg4 : ((qu :: k.data) ++
          (qu :: ':' :: renderMapVal v)).count lb =
          ((qu :: k.data) ++
            (qu :: ':' :: renderMapVal v)).count rb := by
        have e1 := chFree_count (braceFree3_chFree_lb hk3)
        have e2 := chFree_count (braceFree3_chFree_rb hk3)
        have h2 : (qu :: k.data) ++ (qu :: ':' :: renderMapVal v) =
            [qu] ++ k.data ++ ([qu, ':'] ++ renderMapVal v) := rfl
        rw [h2, List.count_append, List.count_append,
          List.count_append, List.count_append, List.count_append,
          List.count_append, e1, e2, v4,
          (by decide : ([qu] : List Char).count lb = 0),
          (by decide : ([qu] : List Char).count rb = 0),
          (by decide : ([qu, ':'] : List Char).count lb = 0),
          (by decide : ([qu, ':'] : List Char).count rb = 0)]
      cases M2 with
      | nil =>
          have hshape : renderMapEntries [(k, v)] =
              (qu :: k.data) ++ (qu :: ':' :: renderMapVal v) := rfl
          rw [hshape]
          exact ⟨hseg1, hseg2, hseg3, hseg4⟩
      | cons q Q =>
          obtain ⟨r1, r2, r3, r4⟩ :=
            ih (fun r hr => hp r (List.mem_cons_of_mem _ hr))
          have hshape : renderMapEntries ((k, v) :: q :: Q) =
              ((qu :: k.data) ++ (qu :: ':' :: renderMapVal v)) ++
                (',' :: renderMapEntries (q :: Q)) := by
            simp [renderMapEntries]
          rw [hshape]
          refine ⟨?_, ?_, ?_, ?_⟩
          · exact chFree_append hseg1
              (chFree_cons (by decide) r1)
          · refine noAdj_append _ _ hseg2
              (noAdj_cons_ne (by decide) r2) ?_
            rintro ⟨_, h2⟩
            simp at h2
            exact absurd h2 (by decide)
          · refine noAdj_append _ _ hseg3
              (noAdj_cons_ne (by decide) r3) ?_
            rintro ⟨_, h2⟩
            simp at h2
            exact absurd h2 (by decide)
          · have h2 : ((qu :: k.data) ++
                (qu :: ':' :: renderMapVal v)) ++
                (',' :: renderMapEntries (q :: Q)) =
                ((qu :: k.data) ++ (qu :: ':' :: renderMapVal v)) ++
                  ([','] ++ renderMapEntries (q :: Q)) := rfl
            rw [h2]
            simp only [List.count_append] at hseg4 ⊢
            rw [(by decide : ([','] : List Char).count lb = 0),
              (by decide : ([','] : List Char).count rb = 0)]
            omega

theorem repair_map (M : List (String × MapVal))
    (hM : mapEntriesOk M = true) :
    repair (renderMapObj M) = renderMapObj M := by
  obtain ⟨hall, _⟩ := mapEntriesOk_unpack hM
  have hseg : ∀ p ∈ M, plainStr p.1 = true ∧
      (match p.2 with
       | .objv fs => flatEntriesOk fs = true
       | .atomv a => plainAtom a = true) := by
    intro p hp
    refine ⟨(hall p hp).1, ?_⟩
    rcases p with ⟨k, v⟩
    cases v with
    | objv fs => exact (hall (k, .objv fs) hp).2.2
    | atomv a => exact ((hall (k, .atomv a) hp).2.2).1
  obtain ⟨m1, m2, m3, m4⟩ := mapEntries_seg M hseg
  have hS : renderMapObj M =
      (lb :: renderMapEntries M) ++ [rb] := rfl
  have hhead : (renderMapObj M).head? = some lb := rfl
  have hlast : (renderMapObj M).getLast? = some rb := by
    rw [hS]
    exact List.getLast?_concat _
  have hEMhead : ∀ c, (renderMapEntries M ++ [rb]).head? = some c →
      c ≠ lb := by
    intro c hc
    cases M with
    | nil =>
        simp only [renderMapEntries, List.nil_append,
          List.head?_cons, Option.some.injEq] at hc
        rw [← hc]
        decide
    | cons p R =>
        rw [head?_append_left _ (renderMapEntries_head p R)] at hc
        rw [← Option.some.inj hc]
        decide
  have hpre : [lb, lb].isPrefixOf (renderMapObj M) = false := by
    have hcons : renderMapObj M =
        lb :: (renderMapEntries M ++ [rb]) := rfl
    rw [hcons]
    rcases hq : (renderMapEntries M ++ [rb]).head? with _ | c
    · exfalso
      cases hx : renderMapEntries M with
      | nil => rw [hx] at hq; simp at hq
      | cons a t => rw [hx] at hq; simp at hq
    · exact ll_isPrefixOf_false hq (hEMhead c hq)
  have hnlS : noAdj lb (lb :: (renderMapEntries M ++ [rb])) = true := by
    refine noAdj_cons_build ?_ ?_
    · rintro ⟨_, h2⟩
      exact hEMhead lb h2 rfl
    · refine noAdj_append _ _ m2 rfl ?_
      rintro ⟨_, h2⟩
      simp at h2
      exact absurd h2 (by decide)
  by_cases hE : (renderMapEntries M).getLast? = some rb
  · have hEMne : renderMapEntries M ≠ [] := by
      intro he
      rw [he] at hE
      simp at hE
    have hglast : (lb :: renderMapEntries M).getLast? = some rb := by
      rw [getLast?_cons_ne_nil lb hEMne]
      exact hE
    have hsuf : [rb, rb].isSuffixOf (renderMapObj M) = true := by
      rw [hS]
      exact rr_isSuffixOf_pos hglast
    have hdrop : (renderMapObj M).dropLast =
        lb :: renderMapEntries M := by
      rw [hS]
      exact List.dropLast_concat
    have hnl : noAdj lb (lb :: renderMapEntries M) = true := by
      have hpref : (lb :: renderMapEntries M) <:+
          lb :: (renderMapEntries M ++ [rb]) → True := fun _ => trivial
      refine noAdj_cons_build ?_ m2
      rintro ⟨_, h2⟩
      exact hEMhead lb (head?_append_left [rb] h2) rfl
    have hnr : noAdj rb (lb :: renderMapEntries M) = true :=
      noAdj_cons_ne (by decide) m3
    have hbal : (lb :: renderMapEntries M).count lb =
        (lb :: renderMapEntries M).count rb + 1 := by
      have h2 : lb :: renderMapEntries M =
          [lb] ++ renderMapEntries M := rfl
      rw [h2, List.count_append, List.count_append, m4,
        (by decide : ([lb] : List Char).count lb = 1),
        (by decide : ([lb] : List Char).count rb = 0)]
      omega
    rw [repair,
      trimChars_id hhead (by decide) hlast (by decide),
      braceFix_id hhead hlast,
      outerStrip_dropLast hpre hsuf, hdrop,
      replaceR1_id hnl, replaceR2_id hnl, replaceR3_id hnr,
      replaceR4_id hnr, replaceR5_id hnl, replaceR6_id hnr,
      braceBalance_one hbal]
    rw [hS]
  · obtain ⟨d, hd⟩ : ∃ d, (lb :: renderMapEntries M).getLast? =
        some d := by
      have h2 : (lb :: renderMapEntries M) ≠ [] := by simp
      rcases hq : (lb :: renderMapEntries M).getLast? with _ | d
      · rw [List.getLast?_eq_none_iff] at hq
        exact absurd hq h2
      · exact ⟨d, rfl⟩
    have hdne : d ≠ rb := by
      intro he
      subst he
      cases hEM : renderMapEntries M with
      | nil =>
          rw [hEM] at hd
          simp at hd
          exact absurd hd.symm (by decide)
      | cons a t =>
          rw [getLast?_cons_ne_nil lb (by rw [hEM]; simp)] at hd
          exact hE hd
    have hsuf : [rb, rb].isSuffixOf (renderMapObj M) = false := by
      rw [hS]
      exact rr_isSuffixOf_neg hd hdne
    have hnr : noAdj rb ((lb :: renderMapEntries M) ++ [rb]) =
        true := by
      refine noAdj_append _ _ (noAdj_cons_ne (by decide) m3) rfl ?_
      rintro ⟨h1, _⟩
      rw [hd] at h1
      exact hdne (Option.some.inj h1)
    have hnl : noAdj lb ((lb :: renderMapEntries M) ++ [rb]) =
        true := by
      rw [List.cons_append]
      exact hnlS
    have hbal : ((lb :: renderMapEntries M) ++ [rb]).count lb =
        ((lb :: renderMapEntries M) ++ [rb]).count rb := by
      have h2 : (lb :: renderMapEntries M) ++ [rb] =
          [lb] ++ renderMapEntries M ++ [rb] := rfl
      rw [h2, List.count_append, List.count_append,
        List.count_append, List.count_append, m4,
        (by decide : ([lb] : List Char).count lb = 1),
        (by decide : ([lb] : List Char).count rb = 0),
        (by decide : ([rb] : List Char).count lb = 0),
        (by decide : ([rb] : List Char).count rb = 1)]
      omega
    rw [repair,
      trimChars_id hhead (by decide) hlast (by decide),
      braceFix_id hhead hlast,
      outerStrip_keep hpre hsuf, hS,
      replaceR1_id hnl, replaceR2_id hnl, replaceR3_id hnr,
      replaceR4_id hnr, replaceR5_id hnl, replaceR6_id hnr,
      braceBalance_id hbal]

/-! ## Extraction assembly -/

theorem btFree_std {T : String} {P : List (String × FlatAtom)}
    (hT : plainStr T = true) (hP : flatEntriesOk P = true) :
    btFree (renderStdCall T P) = true := by
  have hA3 := braceFree3_stdPrefix hT
  have hB3 := braceFree3_renderEntries P (flatEntriesOk_all hP)
  have h2 : chFree bt (((lb :: stdPrefix T) ++
      ((lb :: renderEntries P) ++ [rb])) ++ [rb]) = true := by
    refine chFree_append (chFree_append ?_ (chFree_append ?_ ?_)) ?_
    · exact chFree_cons (by decide) (braceFree3_btFree hA3)
    · exact chFree_cons (by decide) (braceFree3_btFree hB3)
    · decide
    · decide
  have hS1 : renderStdCall T P =
      ((lb :: stdPrefix T) ++ ((lb :: renderEntries P) ++ [rb])) ++
        [rb] := by
    simp [renderStdCall, renderFlatObj]
  rw [hS1]
  exact h2

theorem btFree_map {M : List (String × MapVal)}
    (hM : mapEntriesOk M = true) :
    btFree (renderMapObj M) = true := by
  obtain ⟨hall, _⟩ := mapEntriesOk_unpack hM
  have hseg : ∀ p ∈ M, plainStr p.1 = true ∧
      (match p.2 with
       | .objv fs => flatEntriesOk fs = true
       | .atomv a => plainAtom a = true) := by
    intro p hp
    refine ⟨(hall p hp).1, ?_⟩
    rcases p with ⟨k, v⟩
    cases v with
    | objv fs => exact (hall (k, .objv fs) hp).2.2
    | atomv a => exact ((hall (k, .atomv a) hp).2.2).1
  obtain ⟨m1, _, _, _⟩ := mapEntries_seg M hseg
  have h2 : chFree bt ((lb :: renderMapEntries M) ++ [rb]) = true :=
    chFree_append (chFree_cons (by decide) m1) (by decide)
  exact h2

theorem goodBody_std {T : String} {P : List (String × FlatAtom)}
    (hT : plainStr T = true) (hP : flatEntriesOk P = true) :
    goodBody (renderStdCall T P) = true := by
  rw [goodBody]
  have hh : (renderStdCall T P).head? = some lb := rfl
  rw [hh]
  rw [btFree_std hT hP]
  decide

theorem goodBody_map {M : List (String × MapVal)}
    (hM : mapEntriesOk M = true) :
    goodBody (renderMapObj M) = true := by
  rw [goodBody]
  have hh : (renderMapObj M).head? = some lb := rfl
  rw [hh]
  rw [btFree_map hM]
  decide

theorem fenceBlock_head (b : List Char) (t : List Char) :
    fenceBlock b ++ t = bt :: (([bt, bt, 'j', 's', 'o', 'n', '\n'] ++
      b ++ closeFence) ++ t) := by
  simp [fenceBlock, fenceOpen]

theorem replaceFirstOcc_app :
    ∀ (pre : List Char), btFree pre = true → ∀ (b post : List Char),
      replaceFirstOcc (pre ++ (fenceBlock b ++ post))
        (fenceBlock b) = pre ++ post := by
  intro pre
  induction pre with
  | nil =>
      intro _ b post
      rw [List.nil_append]
      obtain ⟨c0, cs0, hc⟩ : ∃ c0 cs0, fenceBlock b ++ post =
          c0 :: cs0 := ⟨bt, _, fenceBlock_head b post⟩
      rw [hc, replaceFirstOcc]
      rw [if_pos (by
        rw [← hc, List.isPrefixOf_iff_prefix]
        exact List.prefix_append _ _)]
      rw [← hc, List.drop_left]
      rfl
  | cons c pre2 ih =>
      intro hpre b post
      simp only [btFree, List.all_cons, Bool.and_eq_true,
        decide_eq_true_eq] at hpre
      rw [List.cons_append, replaceFirstOcc]
      rw [if_neg ?_]
      · rw [ih (by simpa [btFree] using hpre.2) b post]
        rfl
      · intro hcon
        have h2 : (fenceBlock b).isPrefixOf
            (c :: (pre2 ++ (fenceBlock b ++ post))) = true := hcon
        rw [show fenceBlock b = bt :: ([bt, bt, 'j', 's', 'o', 'n',
          '\n'] ++ b ++ closeFence) from by simp [fenceBlock,
            fenceOpen]] at h2
        have hbeq : (bt == c) = false :=
          beq_eq_false_iff_ne.mpr (fun he => hpre.1 he.symm)
        rw [List.isPrefixOf] at h2
        rw [hbeq] at h2
        simp at h2

theorem processMatches_nil (acc : List Char) :
    processMatches [] acc = ([], acc) := rfl

theorem processMatches_cons (full interior : List Char)
    (rest : List (List Char × List Char)) (acc : List Char) :
    processMatches ((full, interior) :: rest) acc =
      (match parseJson (repair interior) with
      | none => processMatches rest acc
      | some data =>
          match interpretData data with
          | none => processMatches rest acc
          | some calls1 =>
              let p := processMatches rest (replaceFirstOcc acc full)
              (calls1 ++ p.1, p.2)) := by
  rw [processMatches]

theorem parseToolCalls_eq (text : List Char) :
    parseToolCallsFromResponse text =
      (let p := processMatches (findBlocks text) text
       if p.1.length > 0 then ⟨trimChars p.2, some p.1⟩
       else ⟨text, none⟩) := rfl

theorem processMatches_cons_eval (full interior : List Char)
    (rest : List (List Char × List Char)) (acc : List Char)
    (data : Json) (calls1 : List ToolCall)
    (hparse : parseJson (repair interior) = some data)
    (hint : interpretData data = some calls1) :
    processMatches ((full, interior) :: rest) acc =
      (calls1 ++ (processMatches rest (replaceFirstOcc acc full)).1,
        (processMatches rest (replaceFirstOcc acc full)).2) := by
  have h1 : processMatches ((full, interior) :: rest) acc =
      (match interpretData data with
       | none => processMatches rest acc
       | some calls1 =>
          let p := processMatches rest (replaceFirstOcc acc full)
          (calls1 ++ p.1, p.2)) := by
    rw [processMatches_cons, hparse]
  rw [h1, hint]

theorem extract_single_calls (pre post body : List Char) (data : Json)
    (calls : List ToolCall)
    (hpre : btFree pre = true) (hpost : btFree post = true)
    (hb : goodBody body = true)
    (hparse : parseJson (repair body) = some data)
    (hint : interpretData data = some calls)
    (hne : calls ≠ []) :
    parseToolCallsFromResponse (pre ++ fenceBlock body ++ post) =
      ⟨trimChars (pre ++ post), some calls⟩ := by
  have hrep : replaceFirstOcc (pre ++ fenceBlock body ++ post)
      (fenceBlock body) = pre ++ post := by
    rw [List.append_assoc]
    exact replaceFirstOcc_app pre hpre body post
  have hpm : processMatches [(fenceBlock body, body)]
      (pre ++ fenceBlock body ++ post) = (calls, pre ++ post) := by
    rw [processMatches_cons_eval (fenceBlock body) body [] _
      data calls hparse hint]
    rw [hrep, processMatches_nil]
    simp
  rw [parseToolCalls_eq,
    findBlocks_single pre body post hpre hpost hb, hpm]
  have hlen : 0 < calls.length := List.length_pos.mpr hne
  simp [hlen]

theorem extract_single_none (pre post body : List Char) (data : Json)
    (hpre : btFree pre = true) (hpost : btFree post = true)
    (hb : goodBody body = true)
    (hparse : parseJson (repair body) = some data)
    (hint : interpretData data = some []) :
    parseToolCallsFromResponse (pre ++ fenceBlock body ++ post) =
      ⟨pre ++ fenceBlock body ++ post, none⟩ := by
  have hpm : processMatches [(fenceBlock body, body)]
      (pre ++ fenceBlock body ++ post) =
      (([] : List ToolCall), replaceFirstOcc
        (pre ++ fenceBlock body ++ post) (fenceBlock body)) := by
    rw [processMatches_cons_eval (fenceBlock body) body [] _
      data [] hparse hint]
    rw [processMatches_nil]
    rfl
  rw [parseToolCalls_eq,
    findBlocks_single pre body post hpre hpost hb, hpm]
  simp

theorem extract_double_calls (pre mid post b1 b2 : List Char)
    (data1 data2 : Json) (calls1 calls2 : List ToolCall)
    (hpre : btFree pre = true) (hmid : btFree mid = true)
    (hpost : btFree post = true)
    (hb1 : goodBody b1 = true) (hb2 : goodBody b2 = true)
    (hparse1 : parseJson (repair b1) = some data1)
    (hint1 : interpretData data1 = some calls1)
    (hparse2 : parseJson (repair b2) = some data2)
    (hint2 : interpretData data2 = some calls2)
    (hne : calls1 ++ calls2 ≠ []) :
    parseToolCallsFromResponse (pre ++ fenceBlock b1 ++ mid ++
      fenceBlock b2 ++ post) =
      ⟨trimChars (pre ++ mid ++ post), some (calls1 ++ calls2)⟩ := by
  have hrep1 : replaceFirstOcc (pre ++ fenceBlock b1 ++ mid ++
      fenceBlock b2 ++ post) (fenceBlock b1) =
      pre ++ (mid ++ fenceBlock b2 ++ post) := by
    rw [show pre ++ fenceBlock b1 ++ mid ++ fenceBlock b2 ++ post =
      pre ++ (fenceBlock b1 ++ (mid ++ fenceBlock b2 ++ post)) from
        by simp [List.append_assoc]]
    exact replaceFirstOcc_app pre hpre b1 _
  have hrep2 : replaceFirstOcc (pre ++ (mid ++ fenceBlock b2 ++ post))
      (fenceBlock b2) = (pre ++ mid) ++ post := by
    rw [show pre ++ (mid ++ fenceBlock b2 ++ post) =
      (pre ++ mid) ++ (fenceBlock b2 ++ post) from
        by simp [List.append_assoc]]
    exact replaceFirstOcc_app (pre ++ mid)
      (chFree_append hpre hmid) b2 post
  have hpm : processMatches [(fenceBlock b1, b1), (fenceBlock b2, b2)]
      (pre ++ fenceBlock b1 ++ mid ++ fenceBlock b2 ++ post) =
      (calls1 ++ calls2, (pre ++ mid) ++ post) := by
    rw [processMatches_cons_eval (fenceBlock b1) b1
      [(fenceBlock b2, b2)] _ data1 calls1 hparse1 hint1]
    rw [hrep1]
    rw [processMatches_cons_eval (fenceBlock b2) b2 [] _
      data2 calls2 hparse2 hint2]
    rw [hrep2, processMatches_nil]
    simp
  rw [parseToolCalls_eq,
    findBlocks_double pre b1 mid b2 post hpre hmid hpost hb1 hb2,
    hpm]
  have hlen : 0 < (calls1 ++ calls2).length := List.length_pos.mpr hne
  show (if (calls1 ++ calls2).length > 0 then
      (⟨trimChars ((pre ++ mid) ++ post),
        some (calls1 ++ calls2)⟩ : LlmResponse)
    else ⟨pre ++ fenceBlock b1 ++ mid ++ fenceBlock b2 ++ post,
      none⟩) = ⟨trimChars (pre ++ mid ++ post),
        some (calls1 ++ calls2)⟩
  rw [if_pos hlen]

/-! ## Scan machinery for the doubled-brace repair -/

theorem regexScanF_nil
    (head : Char → List Char → Option (List Char × Nat))
    (fuel : Nat) : regexScanF head fuel [] = [] := by
  cases fuel <;> rfl

theorem regexScanF_cons
    (head : Char → List Char → Option (List Char × Nat))
    (fuel : Nat) (c : Char) (cs : List Char) :
    regexScanF head (fuel + 1) (c :: cs) =
      (match head c cs with
      | some p => p.1 ++ regexScanF head fuel (cs.drop p.2)
      | none => c :: regexScanF head fuel cs) := rfl

theorem regexScanF_append
    (head : Char → List Char → Option (List Char × Nat)) :
    ∀ (w t : List Char) (fuel : Nat),
      (∀ w1 c w2, w = w1 ++ c :: w2 → head c (w2 ++ t) = none) →
      regexScanF head (w.length + fuel) (w ++ t) =
        w ++ regexScanF head fuel t := by
  intro w
  induction w with
  | nil => intro t fuel _; simp
  | cons c w2 ih =>
      intro t fuel hw
      have hlen : (c :: w2).length + fuel = (w2.length + fuel) + 1 := by
        simp only [List.length_cons]
        omega
      rw [hlen, List.cons_append, regexScanF_cons,
        hw [] c w2 rfl]
      rw [ih t fuel (fun u1 d u2 hu => hw (c :: u1) d u2 (by
        rw [hu, List.cons_append]))]
      rfl

theorem suffix_append_cases {A : Type} {t w u : List A}
    (h : t <:+ w ++ u) :
    t <:+ u ∨ ∃ w1 c w2, w = w1 ++ c :: w2 ∧ t = c :: (w2 ++ u) := by
  obtain ⟨p, hp⟩ := h
  rcases List.append_eq_append_iff.mp hp with ⟨a2, ha1, ha2⟩ |
    ⟨c2, hc1, hc2⟩
  · cases a2 with
    | nil =>
        left
        rw [List.append_nil] at ha1
        subst ha1
        exact ⟨[], by simpa using ha2⟩
    | cons d ds =>
        right
        exact ⟨p, d, ds, ha1, by rw [ha2, List.cons_append]⟩
  · left
    exact ⟨c2, hc2.symm⟩

theorem head?_take1 {A : Type} (t : List A) :
    (t.take 1).head? = t.head? := by
  cases t <;> rfl

theorem r1head_none_cond {c : Char} {cs : List Char}
    (h : ¬(c = lb ∧ cs.head? = some lb)) : r1head c cs = none := by
  by_cases hc : c = lb
  · subst hc
    cases cs with
    | nil => rfl
    | cons c2 cs2 =>
        have hc2 : ¬(c2 = lb) := by
          intro he
          exact h ⟨rfl, by rw [he]; rfl⟩
        simp [r1head, hc2]
  · simp [r1head, hc]

theorem r1ScanSeg (w t : List Char)
    (hna : noAdj lb (w ++ t.take 1) = true) :
    ∀ w1 c w2, w = w1 ++ c :: w2 → r1head c (w2 ++ t) = none := by
  intro w1 c w2 hsplit
  apply r1head_none_cond
  have hsuf : (c :: (w2 ++ t.take 1)) <:+ (w ++ t.take 1) :=
    ⟨w1, by rw [hsplit]; simp⟩
  have hna2 := noAdj_suffix hna hsuf
  rw [noAdj_cons, Bool.and_eq_true] at hna2
  rintro ⟨rfl, hhd⟩
  have hhd2 : (w2 ++ t.take 1).head? = some lb := by
    cases w2 with
    | nil =>
        simp only [List.nil_append] at hhd ⊢
        rw [head?_take1]
        exact hhd
    | cons d ds => simpa using hhd
  rw [hhd2] at hna2
  simp at hna2

theorem takeWhile_ne (k : List Char) (y : List Char)
    (hk : ∀ c ∈ k, c ≠ qu) :
    ((k ++ qu :: y).takeWhile (fun x => x ≠ qu)) = k := by
  induction k with
  | nil =>
      simp only [List.nil_append, List.takeWhile_cons]
      simp
  | cons c k2 ih =>
      simp only [List.cons_append, List.takeWhile_cons]
      rw [decide_eq_true (hk c (List.mem_cons_self c k2))]
      rw [ih (fun d hd => hk d (List.mem_cons_of_mem c hd))]
      simp

theorem r1tail_match (k w : List Char) (hk : ∀ c ∈ k, c ≠ qu) :
    r1tail (qu :: (k ++ qu :: ':' :: w)) = some (k, k.length + 3) := by
  have hn : wsRunLen (qu :: (k ++ qu :: ':' :: w)) = 0 :=
    wsRunLen_cons_nonWs _ (by decide)
  have hcap : ((k ++ qu :: ':' :: w).takeWhile (fun x => x ≠ qu)) =
      k := takeWhile_ne k (':' :: w) hk
  have hcap2 : List.takeWhile (fun x => !decide (x = qu))
      (k ++ qu :: ':' :: w) = k := by simpa using hcap
  rw [r1tail]
  have harith : 1 + k.length + 2 = k.length + 3 := by omega
  simp [hn, hcap2, List.drop_left, harith]

theorem r1head_match (k w : List Char) (hk : ∀ c ∈ k, c ≠ qu) :
    r1head lb (lb :: (qu :: (k ++ qu :: ':' :: w))) =
      some ((lb :: qu :: k) ++ [qu, ':'], k.length + 4) := by
  rw [r1head]
  have harith : 1 + (k.length + 3) = k.length + 4 := by omega
  simp [r1tail_match k w hk, harith]

theorem r3head_ne {c : Char} (cs : List Char) (hc : c ≠ rb) :
    r3head c cs = none := by
  simp [r3head, hc]

theorem r4head_ne {c : Char} (cs : List Char) (hc : c ≠ rb) :
    r4head c cs = none := by
  simp [r4head, hc]

theorem r6head_ne {c : Char} (cs : List Char) (hc : c ≠ rb) :
    r6head c cs = none := by
  simp [r6head, hc]

theorem replaceR1_hit (A k w2 : List Char)
    (hA : chFree lb A = true) (hAh : A.head? = some qu)
    (hAne : A ≠ []) (hk : ∀ c ∈ k, c ≠ qu)
    (hw2 : chFree lb w2 = true) :
    replaceR1 ((lb :: A) ++
      (lb :: (lb :: (qu :: (k ++ qu :: ':' :: w2))))) =
      (lb :: A) ++ (lb :: (qu :: (k ++ qu :: ':' :: w2))) := by
  have hna : noAdj lb ((lb :: A) ++
      (lb :: (lb :: (qu :: (k ++ qu :: ':' :: w2)))).take 1) =
      true := by
    show noAdj lb ((lb :: A) ++ [lb]) = true
    refine noAdj_append (lb :: A) [lb] ?_ rfl ?_
    · refine noAdj_cons_build ?_ (chFree_noAdj hA)
      rintro ⟨_, h2⟩
      rw [hAh] at h2
      exact absurd (Option.some.inj h2) (by decide)
    · rintro ⟨h1, _⟩
      rw [getLast?_cons_ne_nil lb hAne] at h1
      exact chFree_getLast hA h1
  have hlen : ((lb :: A) ++
      (lb :: (lb :: (qu :: (k ++ qu :: ':' :: w2))))).length =
      (lb :: A).length +
        (lb :: (lb :: (qu :: (k ++ qu :: ':' :: w2)))).length := by
    simp only [List.length_append, List.length_cons]
  show regexScanF r1head _ _ = _
  rw [hlen, regexScanF_append r1head (lb :: A) _ _
    (r1ScanSeg (lb :: A) _ hna)]
  have hlen2 : (lb :: (lb :: (qu :: (k ++ qu :: ':' :: w2)))).length =
      (lb :: (qu :: (k ++ qu :: ':' :: w2))).length + 1 := by
    simp
  rw [hlen2, regexScanF_cons]
  have hdrop : (lb :: (qu :: (k ++ qu :: ':' :: w2))).drop
      (k.length + 4) = w2 := by
    have hsh : lb :: (qu :: (k ++ qu :: ':' :: w2)) =
        ((lb :: qu :: k) ++ [qu, ':']) ++ w2 := by
      simp
    rw [hsh]
    rw [show k.length + 4 = ((lb :: qu :: k) ++ [qu, ':']).length
      from by simp]
    exact List.drop_left _ _
  simp only [r1head_match k w2 hk]
  rw [hdrop]
  rw [regexScanF_id r1head _ w2 (fun c cs hs =>
    r1head_none (noAdj_suffix (chFree_noAdj hw2) hs))]
  simp

theorem replaceR3_tail3 (E : List Char) (hE : chFree rb E = true) :
    replaceR3 (E ++ [rb, rb, rb]) = E ++ [rb, rb, rb] := by
  apply regexScanF_id
  intro c cs hsuf
  rcases suffix_append_cases hsuf with h | ⟨w1, c2, ww2, hw, ht⟩
  · have hmem : (c :: cs) ∈ List.tails [rb, rb, rb] :=
      (List.mem_tails _ _).mpr h
    have htails : List.tails [rb, rb, rb] =
        [[rb, rb, rb], [rb, rb], [rb], []] := rfl
    rw [htails] at hmem
    simp only [List.mem_cons, List.mem_singleton] at hmem
    rcases hmem with h1 | h1 | h1 | h1
    · obtain ⟨rfl, rfl⟩ := List.cons.inj h1
      decide
    · obtain ⟨rfl, rfl⟩ := List.cons.inj h1
      decide
    · obtain ⟨rfl, rfl⟩ := List.cons.inj h1
      decide
    · simp at h1
  · obtain ⟨rfl, -⟩ := List.cons.inj ht
    refine r3head_ne cs ?_
    exact chFree_mem hE c (by rw [hw]; simp)

theorem replaceR4_tail3 (E : List Char) (hE : chFree rb E = true) :
    replaceR4 (E ++ [rb, rb, rb]) = E ++ [rb, rb] := by
  show regexScanF r4head _ _ = _
  have hlen : (E ++ [rb, rb, rb]).length = E.length + 3 := by simp
  rw [hlen, regexScanF_append r4head E [rb, rb, rb] 3
    (fun w1 c w2 hw => r4head_ne _
      (chFree_mem hE c (by rw [hw]; simp)))]
  rw [show (3 : Nat) = 2 + 1 from rfl, regexScanF_cons]
  rw [show r4head rb [rb, rb] = some ([rb, rb], 2) from by decide]
  rfl

theorem replaceR6_tail2 (E : List Char) (hE : chFree rb E = true) :
    replaceR6 (E ++ [rb, rb]) = E ++ [rb] := by
  show regexScanF r6head _ _ = _
  have hlen : (E ++ [rb, rb]).length = E.length + 2 := by simp
  rw [hlen, regexScanF_append r6head E [rb, rb] 2
    (fun w1 c w2 hw => r6head_ne _
      (chFree_mem hE c (by rw [hw]; simp)))]
  rw [show (2 : Nat) = 1 + 1 from rfl, regexScanF_cons]
  rw [show r6head rb [rb] = some ([rb], 1) from by decide]
  rfl

theorem doubleBraces_append (x y : List Char) :
    doubleBraces (x ++ y) = doubleBraces x ++ doubleBraces y := by
  simp [doubleBraces]

theorem doubleBraces_cons_lb (x : List Char) :
    doubleBraces (lb :: x) = lb :: lb :: doubleBraces x := by
  simp [doubleBraces]

theorem doubleBraces_rb : doubleBraces [rb] = [rb, rb] := by
  simp [doubleBraces]
  decide

theorem doubleBraces_id {x : List Char} (hl : chFree lb x = true)
    (hr : chFree rb x = true) : doubleBraces x = x := by
  induction x with
  | nil => rfl
  | cons c t ih =>
      simp only [chFree, List.all_cons, Bool.and_eq_true,
        decide_eq_true_eq] at hl hr
      rw [doubleBraces, List.flatMap_cons]
      rw [if_neg hl.1, if_neg hr.1]
      have := ih (by simpa [chFree] using hl.2)
        (by simpa [chFree] using hr.2)
      rw [doubleBraces] at this
      rw [this]
      rfl

/-! ## The doubled-brace repair path -/

theorem renderEntries_decomp (k : String) (v : FlatAtom)
    (R : List (String × FlatAtom))
    (hall : (((k, v) :: R).all
      (fun p => plainStr p.1 && plainAtom p.2)) = true) :
    ∃ w0, renderEntries ((k, v) :: R) =
      (qu :: k.data) ++ (qu :: ':' :: w0) ∧
      braceFree3 w0 = true := by
  have hv : plainAtom v = true := by
    simp only [List.all_cons, Bool.and_eq_true] at hall
    exact hall.1.2
  cases R with
  | nil => exact ⟨renderAtom v, rfl, braceFree3_renderAtom hv⟩
  | cons q R2 =>
      refine ⟨renderAtom v ++ ',' :: renderEntries (q :: R2),
        by simp [renderEntries], ?_⟩
      refine braceFree3_append (braceFree3_renderAtom hv)
        (braceFree3_cons (by decide) ?_)
      refine braceFree3_renderEntries (q :: R2) ?_
      simp only [List.all_cons, Bool.and_eq_true] at hall ⊢
      exact hall.2

theorem noAdj_lb_two_blocks {A B z : List Char}
    (hA : chFree lb A = true) (hB : chFree lb B = true)
    (hAh : A.head? = some qu) (hAne : A ≠ [])
    (hz : noAdj lb z = true) (hzh : z.head? ≠ some lb) :
    noAdj lb ((lb :: A) ++ ((lb :: B) ++ z)) = true := by
  have n1 : noAdj lb (B ++ z) = true := by
    refine noAdj_append B z (chFree_noAdj hB) hz ?_
    rintro ⟨h1, _⟩
    exact chFree_getLast hB h1
  have n2 : noAdj lb (lb :: (B ++ z)) = true := by
    refine noAdj_cons_build ?_ n1
    rintro ⟨_, h2⟩
    exact head?_append_ne hB hzh h2
  refine noAdj_append (lb :: A) ((lb :: B) ++ z) ?_ ?_ ?_
  · refine noAdj_cons_build ?_ (chFree_noAdj hA)
    rintro ⟨_, h2⟩
    rw [hAh] at h2
    exact absurd (Option.some.inj h2) (by decide)
  · rw [List.cons_append]
    exact n2
  · rintro ⟨h1, _⟩
    rw [getLast?_cons_ne_nil lb hAne] at h1
    exact chFree_getLast hA h1

theorem repair_doubled (T : String) (P : List (String × FlatAtom))
    (hT : plainStr T = true) (hP : flatEntriesOk P = true)
    (hPne : P ≠ []) :
    repair (doubleBraces (renderStdCall T P)) = renderStdCall T P := by
  obtain ⟨k, v, R, rfl⟩ : ∃ k v R, P = (k, v) :: R := by
    cases P with
    | nil => exact absurd rfl hPne
    | cons p R => exact ⟨p.1, p.2, R, by rw [Prod.mk.eta]⟩
  have hA3 := braceFree3_stdPrefix hT
  have hB3 := braceFree3_renderEntries _ (flatEntriesOk_all hP)
  obtain ⟨w0, hw0eq, hw0f⟩ :=
    renderEntries_decomp k v R (flatEntriesOk_all hP)
  have hkplain : ∀ c ∈ k.data, c ≠ qu := by
    have hk : plainStr k = true := by
      have h2 := flatEntriesOk_all hP
      simp only [List.all_cons, Bool.and_eq_true] at h2
      exact h2.1.1
    intro c hc
    have h3 : plainCh c = true := by
      simp only [plainStr, List.all_eq_true] at hk
      exact hk c hc
    simp only [plainCh, Bool.and_eq_true, decide_eq_true_eq] at h3
    exact h3.1.1.1.1.2
  have hS1 : renderStdCall T ((k, v) :: R) =
      ((lb :: stdPrefix T) ++
        ((lb :: renderEntries ((k, v) :: R)) ++ [rb])) ++ [rb] := by
    simp [renderStdCall, renderFlatObj]
  have hD : doubleBraces (renderStdCall T ((k, v) :: R)) =
      ((lb :: lb :: stdPrefix T) ++
        ((lb :: lb :: renderEntries ((k, v) :: R)) ++ [rb, rb])) ++
        [rb, rb] := by
    rw [hS1, doubleBraces_append, doubleBraces_append,
      doubleBraces_append, doubleBraces_cons_lb, doubleBraces_cons_lb,
      doubleBraces_id (braceFree3_chFree_lb hA3)
        (braceFree3_chFree_rb hA3),
      doubleBraces_id (braceFree3_chFree_lb hB3)
        (braceFree3_chFree_rb hB3),
      doubleBraces_rb]
  have hh : (doubleBraces (renderStdCall T ((k, v) :: R))).head? =
      some lb := by
    rw [hD]
    exact head?_append_left _ (head?_append_left _ rfl)
  have hsplit : doubleBraces (renderStdCall T ((k, v) :: R)) =
      (((lb :: lb :: stdPrefix T) ++
        ((lb :: lb :: renderEntries ((k, v) :: R)) ++ [rb, rb])) ++
        [rb]) ++ [rb] := by
    rw [hD]
    simp
  have hl : (doubleBraces (renderStdCall T ((k, v) :: R))).getLast? =
      some rb := by
    rw [hsplit]
    exact List.getLast?_concat _
  have hpre : [lb, lb].isPrefixOf
      (doubleBraces (renderStdCall T ((k, v) :: R))) = true := by
    rw [show doubleBraces (renderStdCall T ((k, v) :: R)) =
      lb :: lb :: (stdPrefix T ++
        ((lb :: lb :: renderEntries ((k, v) :: R)) ++ [rb, rb]) ++
        [rb, rb]) from by rw [hD]; simp]
    exact ll_isPrefixOf_true _
  have hsuf : [rb, rb].isSuffixOf
      (doubleBraces (renderStdCall T ((k, v) :: R))) = true := by
    rw [hsplit]
    apply rr_isSuffixOf_pos
    exact List.getLast?_concat _
  have hdrop1 : (doubleBraces (renderStdCall T ((k, v) :: R))).drop 1 =
      ((lb :: stdPrefix T) ++
        ((lb :: lb :: renderEntries ((k, v) :: R)) ++ [rb, rb, rb]))
        ++ [rb] := by
    rw [show doubleBraces (renderStdCall T ((k, v) :: R)) =
      lb :: (((lb :: stdPrefix T) ++
        ((lb :: lb :: renderEntries ((k, v) :: R)) ++ [rb, rb, rb]))
        ++ [rb]) from by rw [hD]; simp]
    rfl
  have hform : (lb :: stdPrefix T) ++
      ((lb :: lb :: renderEntries ((k, v) :: R)) ++ [rb, rb, rb]) =
      (lb :: stdPrefix T) ++ (lb :: (lb :: (qu :: (k.data ++
        qu :: ':' :: (w0 ++ [rb, rb, rb]))))) := by
    rw [hw0eq]
    simp
  have hR1 : replaceR1 ((lb :: stdPrefix T) ++ (lb :: (lb :: (qu ::
      (k.data ++ qu :: ':' :: (w0 ++ [rb, rb, rb])))))) =
      (lb :: stdPrefix T) ++ (lb :: (qu :: (k.data ++
        qu :: ':' :: (w0 ++ [rb, rb, rb])))) :=
    replaceR1_hit (stdPrefix T) k.data (w0 ++ [rb, rb, rb])
      (braceFree3_chFree_lb hA3) (stdPrefix_head T)
      (stdPrefix_ne_nil T) hkplain
      (chFree_append (braceFree3_chFree_lb hw0f) (by decide))
  have hform2 : (lb :: stdPrefix T) ++ (lb :: (qu :: (k.data ++
      qu :: ':' :: (w0 ++ [rb, rb, rb])))) =
      (lb :: stdPrefix T) ++
        ((lb :: renderEntries ((k, v) :: R)) ++ [rb, rb, rb]) := by
    rw [hw0eq]
    simp
  have hnl2 : noAdj lb ((lb :: stdPrefix T) ++
      ((lb :: renderEntries ((k, v) :: R)) ++ [rb, rb, rb])) = true :=
    noAdj_lb_two_blocks (braceFree3_chFree_lb hA3)
      (braceFree3_chFree_lb hB3) (stdPrefix_head T)
      (stdPrefix_ne_nil T) (by decide) (by decide)
  have hErb : chFree rb ((lb :: stdPrefix T) ++
      (lb :: renderEntries ((k, v) :: R))) = true := by
    refine chFree_append ?_ ?_
    · exact chFree_cons (by decide) (braceFree3_chFree_rb hA3)
    · exact chFree_cons (by decide) (braceFree3_chFree_rb hB3)
  have hform3 : (lb :: stdPrefix T) ++
      ((lb :: renderEntries ((k, v) :: R)) ++ [rb, rb, rb]) =
      ((lb :: stdPrefix T) ++
        (lb :: renderEntries ((k, v) :: R))) ++ [rb, rb, rb] := by
    simp
  have hform4 : ((lb :: stdPrefix T) ++
      (lb :: renderEntries ((k, v) :: R))) ++ [rb, rb] =
      (lb :: stdPrefix T) ++
        ((lb :: renderEntries ((k, v) :: R)) ++ [rb, rb]) := by
    simp
  have hnl3 : noAdj lb ((lb :: stdPrefix T) ++
      ((lb :: renderEntries ((k, v) :: R)) ++ [rb, rb])) = true :=
    noAdj_lb_two_blocks (braceFree3_chFree_lb hA3)
      (braceFree3_chFree_lb hB3) (stdPrefix_head T)
      (stdPrefix_ne_nil T) (by decide) (by decide)
  have hcnt : (((lb :: stdPrefix T) ++
      (lb :: renderEntries ((k, v) :: R))) ++ [rb]).count lb =
      (((lb :: stdPrefix T) ++
        (lb :: renderEntries ((k, v) :: R))) ++ [rb]).count rb +
        1 := by
    have e1 := chFree_count (braceFree3_chFree_lb hA3)
    have e2 := chFree_count (braceFree3_chFree_lb hB3)
    have e3 := chFree_count (braceFree3_chFree_rb hA3)
    have e4 := chFree_count (braceFree3_chFree_rb hB3)
    have hsh : ((lb :: stdPrefix T) ++
        (lb :: renderEntries ((k, v) :: R))) ++ [rb] =
        [lb] ++ stdPrefix T ++
          ([lb] ++ renderEntries ((k, v) :: R)) ++ [rb] := by
      simp
    rw [hsh]
    simp only [List.count_append, e1, e2, e3, e4,
      (by decide : ([lb] : List Char).count lb = 1),
      (by decide : ([lb] : List Char).count rb = 0),
      (by decide : ([rb] : List Char).count lb = 0),
      (by decide : ([rb] : List Char).count rb = 1)]
  have hfin : renderStdCall T ((k, v) :: R) =
      (((lb :: stdPrefix T) ++
        (lb :: renderEntries ((k, v) :: R))) ++ [rb]) ++ [rb] := by
    simp [renderStdCall, renderFlatObj]
  rw [repair,
    trimChars_id hh (by decide) hl (by decide),
    braceFix_id hh hl,
    outerStrip_both hpre hsuf,
    hdrop1, List.dropLast_concat, hform, hR1, hform2,
    replaceR2_id hnl2, hform3,
    replaceR3_tail3 _ hErb,
    replaceR4_tail3 _ hErb, hform4,
    replaceR5_id hnl3, ← hform4,
    replaceR6_tail2 _ hErb,
    braceBalance_one hcnt, ← hfin]

/-! ## End-to-end pipeline facts for the two block shapes -/

theorem map_pipeline (M : List (String × MapVal))
    (hM : mapEntriesOk M = true)
    (hidx : ∀ k ∈ M.map Prod.fst, isArrayIndexKey k = false) :
    parseJson (repair (renderMapObj M)) =
      some (.obj (M.map fun p => (p.1, mapValToJson p.2))) ∧
    interpretData (.obj (M.map fun p => (p.1, mapValToJson p.2))) =
      some (mapShapeCalls M) := by
  obtain ⟨hall, hnd⟩ := mapEntriesOk_unpack hM
  have hp2 : ∀ p ∈ M, plainStr p.1 = true ∧
      (match p.2 with
       | .objv fs => (∀ q ∈ fs, plainStr q.1 = true ∧
           plainAtom q.2 = true) ∧ (fs.map Prod.fst).Nodup
       | .atomv a => plainAtom a = true) := by
    intro p hp
    refine ⟨(hall p hp).1, ?_⟩
    rcases p with ⟨k, v⟩
    cases v with
    | objv fs => exact flatEntriesOk_unpack ((hall (k, .objv fs)
        hp).2.2)
    | atomv a => exact ((hall (k, .atomv a) hp).2.2).1
  constructor
  · rw [repair_map M hM]
    exact parseJson_mapObj M hp2 hnd
  · refine interpretData_mapObj M hnd ?_ ?_
    · intro k hk
      obtain ⟨p, hpmem, hpk⟩ := List.mem_map.mp hk
      refine ⟨?_, hidx k hk⟩
      rw [← hpk]
      exact (hall p hpmem).2.1
    · intro p hp
      rcases p with ⟨k, v⟩
      cases v with
      | objv fs => trivial
      | atomv a => exact ((hall (k, .atomv a) hp).2.2).2

theorem std_pipeline (T : String) (P : List (String × FlatAtom))
    (hT : plainStr T = true) (hTne : T ≠ "")
    (hP : flatEntriesOk P = true) :
    parseJson (repair (renderStdCall T P)) = some (stdJson T P) ∧
    interpretData (stdJson T P) =
      some [⟨.str T, mapToolParameters (.str T)
        (.obj (jsonEntries P))⟩] := by
  constructor
  · rw [repair_std T P hT hP]
    exact parseJson_std T P hT hP
  · exact interpretData_std T P hTne

/-! ## Doubled-brace bodies are well-formed fence interiors -/

theorem btFree_doubleBraces {x : List Char} (hx : btFree x = true) :
    btFree (doubleBraces x) = true := by
  induction x with
  | nil => rfl
  | cons c t ih =>
      simp only [btFree, List.all_cons, Bool.and_eq_true,
        decide_eq_true_eq] at hx
      rw [doubleBraces, List.flatMap_cons]
      have ih2 := ih (by simpa [btFree] using hx.2)
      rw [doubleBraces] at ih2
      refine chFree_append ?_ ih2
      by_cases h1 : c = lb
      · rw [if_pos h1]
        decide
      · rw [if_neg h1]
        by_cases h2 : c = rb
        · rw [if_pos h2]
          decide
        · rw [if_neg h2]
          exact chFree_cons hx.1 rfl

theorem goodBody_doubled {T : String} {P : List (String × FlatAtom)}
    (hT : plainStr T = true) (hP : flatEntriesOk P = true) :
    goodBody (doubleBraces (renderStdCall T P)) = true := by
  rw [goodBody]
  have hcons : renderStdCall T P =
      lb :: (stdPrefix T ++ renderFlatObj P ++ [rb]) := rfl
  have hh : (doubleBraces (renderStdCall T P)).head? = some lb := by
    rw [hcons, doubleBraces_cons_lb]
    rfl
  rw [hh, btFree_doubleBraces (btFree_std hT hP)]
  decide

/-! ## Claim counterexamples: extractor -/

theorem cx1_interior_parses :
    parseJson cx1Interior.data =
      some (.obj [("tool", .str "T"), ("parameters",
        .obj [("a", .obj [("b", .obj [])]), ("c", .num 1)])]) := by rfl

theorem cx1_extraction :
    parseToolCallsFromResponse cx1Text.data =
      ⟨[], some [⟨.str "T",
        [("a", .obj [("b", .obj []), ("c", .num 1)])]⟩]⟩ := by rfl

/-- C1 counterexample.  The interior of `cx1Text` is the well-formed
standard-shape call `{"tool":"T","parameters":{"a":{"b":{}},"c":1}}`
(first conjunct: it parses to exactly that object, whose parameters
object has two entries).  Extraction nevertheless returns a single call
whose arguments object has one entry — the repair pipeline's
`/}},/g → },` rewrite moved the sibling key `c` inside `a` before
re-balancing — so the returned arguments are not the parameters object
of the call. -/
theorem claim_C1_counterexample :
    parseJson cx1Interior.data =
      some (.obj [("tool", .str "T"), ("parameters",
        .obj [("a", .obj [("b", .obj [])]), ("c", .num 1)])]) ∧
    List.length [("a", Json.obj [("b", .obj [])]), ("c", Json.num 1)] = 2 ∧
    parseToolCallsFromResponse cx1Text.data =
      ⟨[], some [⟨.str "T",
        [("a", .obj [("b", .obj []), ("c", .num 1)])]⟩]⟩ ∧
    List.length [("a", Json.obj [("b", .obj []), ("c", .num 1)])] = 1 :=
  ⟨cx1_interior_parses, rfl, cx1_extraction, rfl⟩

theorem cx7_interior_parses :
    parseJson ("\x7b\"2\":\x7b\"a\":1\x7d,\"1\":\x7b\"b\":2\x7d\x7d").data =
      some (.obj [("2", .obj [("a", .num 1)]),
        ("1", .obj [("b", .num 2)])]) := by rfl

theorem cx7_extraction :
    parseToolCallsFromResponse cx7Text.data =
      ⟨[], some [⟨.str "1", [("b", .num 2)]⟩,
        ⟨.str "2", [("a", .num 1)]⟩]⟩ := by rfl

/-- C7 counterexample.  The map-shape interior declares the keys in
order `"2"`, `"1"` (first conjunct: it parses to the object with that
entry order), yet extraction returns the calls in numeric key order
`"1"`, `"2"`: JavaScript objects enumerate array-index keys first in
ascending numeric order, not in declaration order. -/
theorem claim_C7_counterexample :
    parseJson ("\x7b\"2\":\x7b\"a\":1\x7d,\"1\":\x7b\"b\":2\x7d\x7d").data =
      some (.obj [("2", .obj [("a", .num 1)]),
        ("1", .obj [("b", .num 2)])]) ∧
    parseToolCallsFromResponse cx7Text.data =
      ⟨[], some [⟨.str "1", [("b", .num 2)]⟩,
        ⟨.str "2", [("a", .num 1)]⟩]⟩ :=
  ⟨cx7_interior_parses, cx7_extraction⟩

theorem cx10_content_kept :
    parseToolCallsFromResponse cx10Text.data =
      ⟨cx10Text.data, none⟩ := by rfl

/-- C10 counterexample.  A response whose only fenced block is the
map-shape object `{"T1": "hi"}` (every key bound to a non-object)
yields no calls, and the returned content is the original text with the
block still present: the stripped copy is discarded whenever extraction
finds no call at all. -/
theorem claim_C10_counterexample :
    parseToolCallsFromResponse cx10Text.data =
      ⟨cx10Text.data, none⟩ :=
  cx10_content_kept

/-- C1 (amended).  For every response text whose fenced block contains a
well-formed FLAT standard-shape call (plain tool name and flat
parameters object; the original claim over arbitrary nested parameter
objects is refuted by the counterexample), extraction returns exactly
one ToolCall whose name is the tool string and whose arguments are the
parameters object after per-tool alias renaming
(`mapToolParameters`), and the block's full matched text is removed
from the residual content. -/
theorem claim_C1_flat_std_extraction (pre post : List Char)
    (T : String) (P : List (String × FlatAtom))
    (hpre : btFree pre = true) (hpost : btFree post = true)
    (hT : plainStr T = true) (hTne : T ≠ "")
    (hP : flatEntriesOk P = true) :
    parseToolCallsFromResponse
      (pre ++ fenceBlock (renderStdCall T P) ++ post) =
      ⟨trimChars (pre ++ post),
        some [⟨.str T, mapToolParameters (.str T)
          (.obj (jsonEntries P))⟩]⟩ := by
  obtain ⟨hparse, hint⟩ := std_pipeline T P hT hTne hP
  exact extract_single_calls pre post _ (stdJson T P) _ hpre hpost
    (goodBody_std hT hP) hparse hint (by simp)

theorem claim_C1_witness :
    plainStr "read_file" = true ∧
    flatEntriesOk [("file_path", FlatAtom.str "a.txt")] = true ∧
    parseToolCallsFromResponse ("see ".data ++
      fenceBlock (renderStdCall "read_file"
        [("file_path", FlatAtom.str "a.txt")]) ++ " done".data) =
      ⟨trimChars ("see ".data ++ " done".data),
        some [⟨.str "read_file",
          mapToolParameters (.str "read_file")
            (.obj (jsonEntries
              [("file_path", FlatAtom.str "a.txt")]))⟩]⟩ :=
  ⟨by decide, by decide,
    claim_C1_flat_std_extraction _ _ _ _ (by decide) (by decide)
      (by decide) (by decide) (by decide)⟩

/-- C7 (amended).  First conjunct: for a map-shape block whose keys are
NOT array-index strings (the original declaration-order claim is
refuted for numeric keys by the counterexample), extraction yields one
call per object-valued key in declaration order, namely
`mapShapeCalls M`.  Second conjunct: calls recovered from two fenced
blocks appear in the order of the blocks in the text. -/
theorem claim_C7_map_and_text_order (pre post : List Char)
    (M : List (String × MapVal))
    (hpre : btFree pre = true) (hpost : btFree post = true)
    (hM : mapEntriesOk M = true)
    (hidx : ∀ k ∈ M.map Prod.fst, isArrayIndexKey k = false)
    (hne : mapShapeCalls M ≠ [])
    (pre2 mid2 post2 : List Char) (T1 T2 : String)
    (P1 P2 : List (String × FlatAtom))
    (hpre2 : btFree pre2 = true) (hmid2 : btFree mid2 = true)
    (hpost2 : btFree post2 = true)
    (hT1 : plainStr T1 = true) (hT1ne : T1 ≠ "")
    (hP1 : flatEntriesOk P1 = true)
    (hT2 : plainStr T2 = true) (hT2ne : T2 ≠ "")
    (hP2 : flatEntriesOk P2 = true) :
    parseToolCallsFromResponse
      (pre ++ fenceBlock (renderMapObj M) ++ post) =
      ⟨trimChars (pre ++ post), some (mapShapeCalls M)⟩ ∧
    parseToolCallsFromResponse
      (pre2 ++ fenceBlock (renderStdCall T1 P1) ++ mid2 ++
        fenceBlock (renderStdCall T2 P2) ++ post2) =
      ⟨trimChars (pre2 ++ mid2 ++ post2),
        some [⟨.str T1, mapToolParameters (.str T1)
            (.obj (jsonEntries P1))⟩,
          ⟨.str T2, mapToolParameters (.str T2)
            (.obj (jsonEntries P2))⟩]⟩ := by
  constructor
  · obtain ⟨hparse, hint⟩ := map_pipeline M hM hidx
    exact extract_single_calls pre post _ _ _ hpre hpost
      (goodBody_map hM) hparse hint hne
  · obtain ⟨hparse1, hint1⟩ := std_pipeline T1 P1 hT1 hT1ne hP1
    obtain ⟨hparse2, hint2⟩ := std_pipeline T2 P2 hT2 hT2ne hP2
    exact extract_double_calls pre2 mid2 post2 _ _
      (stdJson T1 P1) (stdJson T2 P2) _ _ hpre2 hmid2 hpost2
      (goodBody_std hT1 hP1) (goodBody_std hT2 hP2)
      hparse1 hint1 hparse2 hint2 (by simp)

theorem claim_C7_witness :
    mapEntriesOk [("alpha", MapVal.objv [("a", FlatAtom.num 1)]),
      ("beta", MapVal.objv [("b", FlatAtom.num 2)])] = true ∧
    mapShapeCalls [("alpha", MapVal.objv [("a", FlatAtom.num 1)]),
      ("beta", MapVal.objv [("b", FlatAtom.num 2)])] =
      [⟨.str "alpha", [("a", Json.num 1)]⟩,
        ⟨.str "beta", [("b", Json.num 2)]⟩] ∧
    parseToolCallsFromResponse ("p ".data ++
      fenceBlock (renderMapObj
        [("alpha", MapVal.objv [("a", FlatAtom.num 1)]),
          ("beta", MapVal.objv [("b", FlatAtom.num 2)])]) ++
      " q".data) =
      ⟨trimChars ("p ".data ++ " q".data),
        some (mapShapeCalls
          [("alpha", MapVal.objv [("a", FlatAtom.num 1)]),
            ("beta", MapVal.objv [("b", FlatAtom.num 2)])])⟩ ∧
    parseToolCallsFromResponse ("u".data ++
      fenceBlock (renderStdCall "t1" [("x", FlatAtom.bool true)]) ++
      "\n".data ++
      fenceBlock (renderStdCall "t2" [("y", FlatAtom.null)]) ++
      "v".data) =
      ⟨trimChars ("u".data ++ "\n".data ++ "v".data),
        some [⟨.str "t1", mapToolParameters (.str "t1")
            (.obj (jsonEntries [("x", FlatAtom.bool true)]))⟩,
          ⟨.str "t2", mapToolParameters (.str "t2")
            (.obj (jsonEntries [("y", FlatAtom.null)]))⟩]⟩ := by
  have h := claim_C7_map_and_text_order "p ".data " q".data
    [("alpha", MapVal.objv [("a", FlatAtom.num 1)]),
      ("beta", MapVal.objv [("b", FlatAtom.num 2)])]
    (by decide) (by decide) (by decide) (by decide)
    (List.cons_ne_nil _ _)
    "u".data "\n".data "v".data "t1" "t2"
    [("x", FlatAtom.bool true)] [("y", FlatAtom.null)]
    (by decide) (by decide) (by decide) (by decide) (by decide)
    (by decide) (by decide) (by decide) (by decide)
  exact ⟨by decide, rfl, h.1, h.2⟩

/-- C10 (amended).  For a parsed map-shape block (no tool key, keys not
array-index strings): keys bound to non-object values are skipped — the
calls are exactly `mapShapeCalls M`, one per object-valued key.  The
block's removal from the residual content, however, only happens when
at least one call is produced: when every key is skipped the original
text is returned unchanged (the original claim said the block is still
removed, refuted by the counterexample). -/
theorem claim_C10_map_skip_and_removal (pre post : List Char)
    (M : List (String × MapVal))
    (hpre : btFree pre = true) (hpost : btFree post = true)
    (hM : mapEntriesOk M = true)
    (hidx : ∀ k ∈ M.map Prod.fst, isArrayIndexKey k = false) :
    (mapShapeCalls M = [] →
      parseToolCallsFromResponse
        (pre ++ fenceBlock (renderMapObj M) ++ post) =
        ⟨pre ++ fenceBlock (renderMapObj M) ++ post, none⟩) ∧
    (mapShapeCalls M ≠ [] →
      parseToolCallsFromResponse
        (pre ++ fenceBlock (renderMapObj M) ++ post) =
        ⟨trimChars (pre ++ post), some (mapShapeCalls M)⟩) := by
  obtain ⟨hparse, hint⟩ := map_pipeline M hM hidx
  constructor
  · intro hnil
    rw [hnil] at hint
    exact extract_single_none pre post _ _ hpre hpost
      (goodBody_map hM) hparse hint
  · intro hne
    exact extract_single_calls pre post _ _ _ hpre hpost
      (goodBody_map hM) hparse hint hne

theorem claim_C10_witness :
    mapEntriesOk [("T1", MapVal.atomv (FlatAtom.str "hi")),
      ("T2", MapVal.atomv (FlatAtom.num 3))] = true ∧
    mapShapeCalls [("T1", MapVal.atomv (FlatAtom.str "hi")),
      ("T2", MapVal.atomv (FlatAtom.num 3))] = [] ∧
    parseToolCallsFromResponse ("x".data ++
      fenceBlock (renderMapObj
        [("T1", MapVal.atomv (FlatAtom.str "hi")),
          ("T2", MapVal.atomv (FlatAtom.num 3))]) ++ "y".data) =
      ⟨"x".data ++ fenceBlock (renderMapObj
        [("T1", MapVal.atomv (FlatAtom.str "hi")),
          ("T2", MapVal.atomv (FlatAtom.num 3))]) ++ "y".data,
        none⟩ := by
  have h := claim_C10_map_skip_and_removal "x".data "y".data
    [("T1", MapVal.atomv (FlatAtom.str "hi")),
      ("T2", MapVal.atomv (FlatAtom.num 3))]
    (by decide) (by decide) (by decide) (by decide)
  exact ⟨by decide, rfl, h.1 rfl⟩

/-- C6.  For every nonempty flat standard-shape call, extraction applied
to the doubled-brace encoding of the rendered call (every brace doubled,
the template-escaping artifact) recovers the same tool calls as
extraction applied to the plain rendering: the repair pipeline
(outer-brace strip, the `\x7b\x7b"key":` and `\x7d\x7d` rewrites and the
final re-balancing) normalises the doubled text back to the plain
call. -/
theorem claim_C6_doubled_equals_plain (pre post : List Char)
    (T : String) (P : List (String × FlatAtom))
    (hpre : btFree pre = true) (hpost : btFree post = true)
    (hT : plainStr T = true) (hTne : T ≠ "")
    (hP : flatEntriesOk P = true) (hPne : P ≠ []) :
    (parseToolCallsFromResponse (pre ++
      fenceBlock (doubleBraces (renderStdCall T P)) ++
      post)).toolCalls =
    (parseToolCallsFromResponse (pre ++
      fenceBlock (renderStdCall T P) ++ post)).toolCalls := by
  obtain ⟨hparse, hint⟩ := std_pipeline T P hT hTne hP
  have hparseD : parseJson (repair (doubleBraces
      (renderStdCall T P))) = some (stdJson T P) := by
    rw [repair_doubled T P hT hP hPne]
    exact parseJson_std T P hT hP
  have h1 := extract_single_calls pre post (renderStdCall T P)
    (stdJson T P) _ hpre hpost (goodBody_std hT hP) hparse hint
    (by simp)
  have h2 := extract_single_calls pre post
    (doubleBraces (renderStdCall T P)) (stdJson T P) _ hpre hpost
    (goodBody_doubled hT hP) hparseD hint (by simp)
  rw [h1, h2]

theorem claim_C6_witness :
    plainStr "write_file" = true ∧
    flatEntriesOk [("file_path", FlatAtom.str "b.txt"),
      ("content", FlatAtom.str "hi")] = true ∧
    (parseToolCallsFromResponse ("a".data ++
      fenceBlock (doubleBraces (renderStdCall "write_file"
        [("file_path", FlatAtom.str "b.txt"),
          ("content", FlatAtom.str "hi")])) ++ "b".data)).toolCalls =
    (parseToolCallsFromResponse ("a".data ++
      fenceBlock (renderStdCall "write_file"
        [("file_path", FlatAtom.str "b.txt"),
          ("content", FlatAtom.str "hi")]) ++
        "b".data)).toolCalls :=
  ⟨by decide, by decide,
    claim_C6_doubled_equals_plain "a".data "b".data "write_file"
      [("file_path", FlatAtom.str "b.txt"),
        ("content", FlatAtom.str "hi")]
      (by decide) (by decide) (by decide) (by decide) (by decide)
      (List.cons_ne_nil _ _)⟩

end Boom2
